import Mathlib

/-!
Keyboard.h and Flasher.h: a shallow embedding

The matrix-keyboard scanner of `src/Keyboard.h` (key-cell state machine,
scan loop, circular action buffer, shift handling in `getKey`) and the LED
flasher of `src/Flasher.h` are translated into pure functions over explicit
state.

Conventions of the embedding:

* `unsigned long` is a natural number below `2 ^ 32`; every addition on it is
  reduced modulo `2 ^ 32`.  A `long` operand is an integer and is converted
  to `unsigned long` before the addition, as C++ does.
* `int` counters and indices that the code keeps non-negative are naturals.
* Arrays are tables indexed by naturals; the allocated size is tracked
  separately where a claim is about bounds.
* The pin driver is an input: a scan receives the value of the local
  variable `pressed` for every `(i, j)` visited.
* A call that returns a value and mutates the object returns a pair.
-/

namespace Arduino

/-! ## Constants -/

/-- The size of the action buffer, `#define KEY_ROLLOVER 9`. -/
def KEY_ROLLOVER : Nat := 9

/-- The modulus of `unsigned long` arithmetic. -/
def ULONG_MOD : Nat := 2 ^ 32

/-! ## Data model -/

/-- The `enum KeyAction`. -/
inductive KeyAction where
  | kaPress
  | kaRelease
  | kaRepeat
  deriving DecidableEq, Repr

/-- The `enum KeyMode`. -/
inductive KeyMode where
  | kmReleased
  | kmPressDebounce
  | kmPressed
  | kmRepeating
  | kmReleaseDebounce
  deriving DecidableEq, Repr

/-- The `class Action`: which key, was it shifted, what happened. -/
structure Action where
  m_index : Nat
  m_shift : Bool
  m_keyAction : KeyAction
  deriving DecidableEq, Repr

/-- The `class KeyState`. -/
structure KeyState where
  m_mode : KeyMode
  m_nextEvent : Nat
  deriving DecidableEq, Repr

/-- The `KeyState()` constructor. -/
def KeyState.init : KeyState := ⟨KeyMode.kmReleased, 0⟩

/-- Assignment `tbl[i] = v` on a table. -/
def setAt {α : Type} (tbl : Nat → α) (i : Nat) (v : α) : Nat → α :=
  fun k => if k = i then v else tbl k

/-! ## ActionBuffer -/

/-- The `class ActionBuffer`: `m_buffer[KEY_ROLLOVER]`, `m_in`, `m_out`. -/
structure ActionBuffer where
  m_buffer : Nat → Action
  m_in : Nat
  m_out : Nat

/-- The `ActionBuffer()` constructor: both indices zero; the content of
`m_buffer` is whatever the memory held. -/
def ActionBuffer.init (mem : Nat → Action) : ActionBuffer := ⟨mem, 0, 0⟩

/-- The method `ActionBuffer::put`: the returned flag and the new buffer. -/
def ActionBuffer.put (q : ActionBuffer) (a : Action) : Bool × ActionBuffer :=
  let buf := setAt q.m_buffer q.m_in a
  let newIn := (q.m_in + 1) % KEY_ROLLOVER
  if newIn ≠ q.m_out then (true, ⟨buf, newIn, q.m_out⟩)
  else (false, ⟨buf, newIn, (q.m_out + 1) % KEY_ROLLOVER⟩)

/-- The method `ActionBuffer::get`: `none` stands for the return value
`false` (the reference argument is then left alone), `some a` for `true`
with `a` stored through the reference. -/
def ActionBuffer.get (q : ActionBuffer) : Option Action × ActionBuffer :=
  if q.m_in = q.m_out then (none, q)
  else (some (q.m_buffer q.m_out), ⟨q.m_buffer, q.m_in, (q.m_out + 1) % KEY_ROLLOVER⟩)

/-- The method `ActionBuffer::clear`. -/
def ActionBuffer.clear (q : ActionBuffer) : ActionBuffer := ⟨q.m_buffer, 0, 0⟩

/-- The buffers that the constructor and the three methods can produce. -/
inductive ActionBuffer.Reachable : ActionBuffer → Prop where
  | init (mem : Nat → Action) : ActionBuffer.Reachable (ActionBuffer.init mem)
  | put {q : ActionBuffer} (a : Action) :
      ActionBuffer.Reachable q → ActionBuffer.Reachable (q.put a).2
  | get {q : ActionBuffer} : ActionBuffer.Reachable q → ActionBuffer.Reachable q.get.2
  | clear {q : ActionBuffer} : ActionBuffer.Reachable q → ActionBuffer.Reachable q.clear

/-- The live entries of a buffer: those from `m_out` up to, not including,
`m_in`, in circular order. -/
def ActionBuffer.abs (q : ActionBuffer) : List Action :=
  (List.range ((q.m_in + KEY_ROLLOVER - q.m_out) % KEY_ROLLOVER)).map
    (fun k => q.m_buffer ((q.m_out + k) % KEY_ROLLOVER))

/-- The bounded FIFO list of the specification, `put`: the action is appended;
when the list already held `KEY_ROLLOVER - 1` entries its head is removed and
the call reports `false`, otherwise it reports `true`. -/
def BoundedFifo.put (l : List Action) (a : Action) : Bool × List Action :=
  if l.length = KEY_ROLLOVER - 1 then (false, l.tail ++ [a]) else (true, l ++ [a])

/-- The bounded FIFO list of the specification, `get`: nothing from the empty
list, otherwise the head, which is removed. -/
def BoundedFifo.get : List Action → Option Action × List Action
  | [] => (none, [])
  | x :: xs => (some x, xs)

/-- The bounded FIFO list of the specification, `clear`. -/
def BoundedFifo.clear (_l : List Action) : List Action := []

/-- Successive `put` calls, the return values dropped. -/
def ActionBuffer.putAll (q : ActionBuffer) (l : List Action) : ActionBuffer :=
  l.foldl (fun b a => (b.put a).2) q

/-- The results of `n` successive `get` calls and the buffer they leave. -/
def ActionBuffer.getN : Nat → ActionBuffer → List (Option Action) × ActionBuffer
  | 0, q => ([], q)
  | n + 1, q =>
    let r := q.get
    let rest := ActionBuffer.getN n r.2
    (r.1 :: rest.1, rest.2)

/-! ## Key cell state machine -/

/-- The sum `u + d` of an `unsigned long` and a `long`, as `unsigned long`
arithmetic computes it: `d` is converted to `unsigned long` and the sum is
taken modulo `2 ^ 32`. -/
def uaddLong (u : Nat) (d : Int) : Nat :=
  (((u : Int) + d) % (ULONG_MOD : Int)).toNat

/-- The `switch (m_keyState[index].m_mode)` of `Keyboard::loop` on one cell:
the new cell and the kind of the action handed to `putAction`, if any.
The three times are `m_debounceTime`, `m_repeatDelayTime`, `m_repeatTime`. -/
def cellStep (debounceTime repeatDelayTime repeatTime : Int) (t : Nat) (pressed : Bool)
    (ks : KeyState) : KeyState × Option KeyAction :=
  match ks.m_mode with
  | KeyMode.kmReleased =>
    if pressed then
      (⟨KeyMode.kmPressDebounce, uaddLong t debounceTime⟩, some KeyAction.kaPress)
    else (ks, none)
  | KeyMode.kmPressDebounce =>
    if t ≥ ks.m_nextEvent then
      (⟨KeyMode.kmPressed, uaddLong ks.m_nextEvent repeatDelayTime⟩, none)
    else (ks, none)
  | KeyMode.kmPressed =>
    if pressed then
      if t ≥ ks.m_nextEvent then
        (⟨KeyMode.kmRepeating, uaddLong ks.m_nextEvent repeatTime⟩, some KeyAction.kaRepeat)
      else (ks, none)
    else
      (⟨KeyMode.kmReleaseDebounce, uaddLong ks.m_nextEvent debounceTime⟩,
        some KeyAction.kaRelease)
  | KeyMode.kmRepeating =>
    if pressed then
      if t ≥ ks.m_nextEvent then
        (⟨KeyMode.kmRepeating, uaddLong ks.m_nextEvent repeatTime⟩, some KeyAction.kaRepeat)
      else (ks, none)
    else
      (⟨KeyMode.kmReleaseDebounce, uaddLong ks.m_nextEvent debounceTime⟩,
        some KeyAction.kaRelease)
  | KeyMode.kmReleaseDebounce =>
    if t ≥ ks.m_nextEvent then (⟨KeyMode.kmReleased, 0⟩, none)
    else (ks, none)

/-- One scan of a cell as a scan call presents it: the time `t` of the call
(after `if (t == 0) t = millis()`) and the value of `pressed`. -/
structure Scan where
  t : Nat
  pressed : Bool
  deriving DecidableEq, Repr

/-- A cell taken through a sequence of scans: the final cell and the kinds of
the actions handed to `putAction` for it, in order. -/
def runCell (debounceTime repeatDelayTime repeatTime : Int) :
    KeyState → List Scan → KeyState × List KeyAction
  | ks, [] => (ks, [])
  | ks, s :: rest =>
    let r := cellStep debounceTime repeatDelayTime repeatTime s.t s.pressed ks
    let r2 := runCell debounceTime repeatDelayTime repeatTime r.1 rest
    (r2.1, r.2.toList ++ r2.2)

/-! ## Keyboard -/

/-- The values of the build-time setting `SHIFT_KEY`. -/
inductive ShiftPolicy where
  | SHIFT_OFF
  | SHIFT_ONE
  | SHIFT_LOCK
  | SHIFT_HOLD
  deriving DecidableEq, Repr

/-- The character `\0`. -/
def NUL : Char := Char.ofNat 0

/-- Reading `s[i]` from a C string given by its characters: the characters,
then the terminating `\0`; `none` past the terminator (outside the array). -/
def cstrAt (s : List Char) (i : Nat) : Option Char :=
  if i < s.length then s.get? i else if i = s.length then some NUL else none

/-- The `class Keyboard`.  The pin lists and the shift LED only reach the pin
driver and are left out; `m_keyState` points to `m_noOutPins * m_noInPins`
allocated cells, the table beyond them is the memory that follows. -/
structure Keyboard where
  m_noOutPins : Nat
  m_noInPins : Nat
  m_keyState : Nat → KeyState
  m_shiftKey : Char
  m_shifted : Bool
  m_keyMap : List Char
  m_shiftKeyMap : Option (List Char)
  m_debounceTime : Int
  m_repeatDelayTime : Int
  m_repeatTime : Int
  m_actions : ActionBuffer

/-- The index expression `i * m_noOutPins + j` used by `enableKeyboardPins`
and by `loop`. -/
def Keyboard.keyIndex (kb : Keyboard) (i j : Nat) : Nat :=
  i * kb.m_noOutPins + j

/-- The body of the inner loop of `enableKeyboardPins` (third block):
`inactive` is the value of `digitalRead(m_inPins[j])` being nonzero. -/
def Keyboard.initCell (inactive : Nat → Nat → Bool) (i : Nat) (kb : Keyboard) (j : Nat) :
    Keyboard :=
  { kb with
    m_keyState := setAt kb.m_keyState (kb.keyIndex i j)
      ⟨if inactive i j then KeyMode.kmReleased else KeyMode.kmPressed, 0⟩ }

/-- The part of `Keyboard::enableKeyboardPins` that touches the object: the
initial sweep over the key states. -/
def Keyboard.enableKeyboardPins (kb : Keyboard) (inactive : Nat → Nat → Bool) : Keyboard :=
  (List.range kb.m_noOutPins).foldl
    (fun kb i => (List.range kb.m_noInPins).foldl (Keyboard.initCell inactive i) kb) kb

/-- The constructor `Keyboard::Keyboard`.  `heap` is the memory found after
the allocated key states, `mem` the initial content of the action buffer,
`inactive` the pin readings of the initial sweep. -/
def Keyboard.new (noOutPins noInPins : Nat) (keyMap : List Char)
    (debounceTime repeatDelay repeatTime : Int) (shiftKey : Char)
    (shiftKeyMap : Option (List Char)) (heap : Nat → KeyState) (mem : Nat → Action)
    (inactive : Nat → Nat → Bool) : Keyboard :=
  Keyboard.enableKeyboardPins
    { m_noOutPins := noOutPins
      m_noInPins := noInPins
      m_keyState := fun k => if k < noOutPins * noInPins then KeyState.init else heap k
      m_shiftKey := shiftKey
      m_shifted := false
      m_keyMap := keyMap
      m_shiftKeyMap := shiftKeyMap
      m_debounceTime := debounceTime
      m_repeatDelayTime := repeatDelay
      m_repeatTime := repeatTime
      m_actions := ActionBuffer.init mem }
    inactive

/-- The method `Keyboard::putAction`. -/
def Keyboard.putAction (kb : Keyboard) (action : Action) : Bool × Keyboard :=
  let r := kb.m_actions.put action
  (r.1, { kb with m_actions := r.2 })

/-- The body of the inner loop of `Keyboard::loop` for the key at `(i, j)`.
The state carries the keyboard and the log of the actions handed to
`putAction` so far in this call. -/
def Keyboard.scanKey (t : Nat) (pressed : Nat → Nat → Bool) (i : Nat)
    (s : Keyboard × List Action) (j : Nat) : Keyboard × List Action :=
  let kb := s.1
  let index := kb.keyIndex i j
  let r := cellStep kb.m_debounceTime kb.m_repeatDelayTime kb.m_repeatTime t (pressed i j)
    (kb.m_keyState index)
  let kb1 := { kb with m_keyState := setAt kb.m_keyState index r.1 }
  match r.2 with
  | none => (kb1, s.2)
  | some ka =>
    let action : Action := ⟨index, kb.m_shifted, ka⟩
    ((kb1.putAction action).2, s.2 ++ [action])

/-- The method `Keyboard::loop` with the log of the actions it hands to
`putAction`: `millis` is the value `millis()` would return, `pressed i j`
the value of the local `pressed` when row `i` is selected and column `j` is
read. -/
def Keyboard.loopLog (kb : Keyboard) (t millis : Nat) (pressed : Nat → Nat → Bool) :
    Keyboard × List Action :=
  let t1 := if t = 0 then millis else t
  (List.range kb.m_noOutPins).foldl
    (fun s i => (List.range s.1.m_noInPins).foldl (Keyboard.scanKey t1 pressed i) s)
    (kb, [])

/-- The method `Keyboard::loop`. -/
def Keyboard.loop (kb : Keyboard) (t millis : Nat) (pressed : Nat → Nat → Bool) : Keyboard :=
  (kb.loopLog t millis pressed).1

/-- The method `Keyboard::getAction`. -/
def Keyboard.getAction (kb : Keyboard) : Option Action × Keyboard :=
  let r := kb.m_actions.get
  (r.1, { kb with m_actions := r.2 })

/-- The method `Keyboard::actionToKey`; `none` when the lookup leaves the
key map's array or goes through a null `m_shiftKeyMap`. -/
def Keyboard.actionToKey (kb : Keyboard) (a : Action) : Option Char :=
  if a.m_shift then
    match kb.m_shiftKeyMap with
    | none => none
    | some m => cstrAt m a.m_index
  else cstrAt kb.m_keyMap a.m_index

/-- The body of `if (getAction(action)) { ... }` in `Keyboard::getKey`, as
built with the given `SHIFT_KEY` setting, for the action just dequeued: the
returned character and the keyboard afterwards; `none` when `actionToKey`
has no defined result. -/
def Keyboard.resolve (SHIFT_KEY : ShiftPolicy) (kb : Keyboard) (action : Action) :
    Option (Char × Keyboard) :=
  if SHIFT_KEY = ShiftPolicy.SHIFT_HOLD ∧ action.m_keyAction = KeyAction.kaRelease then
    (kb.actionToKey action).map fun c =>
      if c = kb.m_shiftKey then (NUL, { kb with m_shifted := false }) else (NUL, kb)
  else if action.m_keyAction = KeyAction.kaPress ∨
      action.m_keyAction = KeyAction.kaRepeat then
    (kb.actionToKey action).map fun key =>
      match SHIFT_KEY with
      | ShiftPolicy.SHIFT_OFF => (key, kb)
      | ShiftPolicy.SHIFT_ONE =>
        if key = kb.m_shiftKey then (NUL, { kb with m_shifted := !kb.m_shifted })
        else (key, { kb with m_shifted := false })
      | ShiftPolicy.SHIFT_LOCK =>
        if key = kb.m_shiftKey then (NUL, { kb with m_shifted := !kb.m_shifted })
        else (key, kb)
      | ShiftPolicy.SHIFT_HOLD =>
        if key = kb.m_shiftKey then (NUL, { kb with m_shifted := true })
        else (key, kb)
  else some (NUL, kb)

/-- The method `Keyboard::getKey` as built with the given `SHIFT_KEY`
setting: the returned character and the keyboard afterwards; `none` when
`actionToKey` has no defined result. -/
def Keyboard.getKey (SHIFT_KEY : ShiftPolicy) (kb : Keyboard) : Option (Char × Keyboard) :=
  let r := kb.getAction
  match r.1 with
  | none => some (NUL, r.2)
  | some action => r.2.resolve SHIFT_KEY action

/-- A call made by the application: `loop(t)` with the clock value and the
pin readings it meets, or `getKey()`. -/
inductive Call where
  | loop (t millis : Nat) (pressed : Nat → Nat → Bool)
  | getKey

/-- A sequence of calls on a keyboard: the characters returned by the
`getKey` calls, in order, and the keyboard afterwards. -/
def Keyboard.run (SHIFT_KEY : ShiftPolicy) : Keyboard → List Call → Option (List Char × Keyboard)
  | kb, [] => some ([], kb)
  | kb, Call.loop t millis pressed :: rest =>
    Keyboard.run SHIFT_KEY (kb.loop t millis pressed) rest
  | kb, Call.getKey :: rest =>
    match kb.getKey SHIFT_KEY with
    | none => none
    | some (c, kb1) =>
      match Keyboard.run SHIFT_KEY kb1 rest with
      | none => none
      | some (cs, kb2) => some (c :: cs, kb2)

/-- The keyboards that the constructor followed by `loop` and `getKey` calls
can produce, for a given `SHIFT_KEY` setting. -/
inductive Keyboard.Reachable (SHIFT_KEY : ShiftPolicy) : Keyboard → Prop where
  | new (noOutPins noInPins : Nat) (keyMap : List Char)
      (debounceTime repeatDelay repeatTime : Int) (shiftKey : Char)
      (shiftKeyMap : Option (List Char)) (heap : Nat → KeyState) (mem : Nat → Action)
      (inactive : Nat → Nat → Bool) :
      Keyboard.Reachable SHIFT_KEY (Keyboard.new noOutPins noInPins keyMap debounceTime
        repeatDelay repeatTime shiftKey shiftKeyMap heap mem inactive)
  | loop {kb : Keyboard} (t millis : Nat) (pressed : Nat → Nat → Bool) :
      Keyboard.Reachable SHIFT_KEY kb →
      Keyboard.Reachable SHIFT_KEY (kb.loop t millis pressed)
  | getKey {kb kb1 : Keyboard} {c : Char} :
      Keyboard.Reachable SHIFT_KEY kb → kb.getKey SHIFT_KEY = some (c, kb1) →
      Keyboard.Reachable SHIFT_KEY kb1

/-! ## Sample configurations -/

/-- The key map of the usage example in the header of `Keyboard.h`. -/
def sampleKeyMap : List Char := "123A456B789C*0#D".toList

/-- A shifted key map that repeats the shift key `A` at its own index. -/
def sampleShiftMap : List Char := "abcAdefBghiC*jkD".toList

/-- A shifted key map with another character at the index of the shift key. -/
def plainShiftMap : List Char := "abcdefghijklmnop".toList

/-- A 4 by 4 keyboard with the default times, shift key `A`, no key held
while it is constructed. -/
def sampleKeyboard (shiftKeyMap : Option (List Char)) : Keyboard :=
  Keyboard.new 4 4 sampleKeyMap 20 300 20 'A' shiftKeyMap (fun _ => KeyState.init)
    (fun _ => ⟨0, false, KeyAction.kaPress⟩) (fun _ _ => true)

/-- The readings of a scan during which exactly the keys at the listed
`(i, j)` positions are down. -/
def keysDown (l : List (Nat × Nat)) : Nat → Nat → Bool := fun i j => l.contains (i, j)

/-- Nine actions that differ in their index. -/
def sampleActions : List Action :=
  (List.range 9).map (fun k => ⟨k, false, KeyAction.kaPress⟩)

/-- An action buffer memory with the same action in every slot. -/
def sampleMem : Nat → Action := fun _ => ⟨0, false, KeyAction.kaRelease⟩

/-- A keyboard with 2 rows (out pins) and 3 columns (in pins). -/
def twoByThree : Keyboard :=
  Keyboard.new 2 3 "abcdef".toList 20 300 20 NUL none (fun _ => KeyState.init)
    (fun _ => ⟨0, false, KeyAction.kaPress⟩) (fun _ _ => true)

/-! ## Auxiliary predicates -/

/-- The fields of a keyboard that no call changes after construction. -/
def Keyboard.SameConfig (a b : Keyboard) : Prop :=
  b.m_noOutPins = a.m_noOutPins ∧ b.m_noInPins = a.m_noInPins ∧
  b.m_shiftKey = a.m_shiftKey ∧ b.m_keyMap = a.m_keyMap ∧
  b.m_shiftKeyMap = a.m_shiftKeyMap ∧ b.m_debounceTime = a.m_debounceTime ∧
  b.m_repeatDelayTime = a.m_repeatDelayTime ∧ b.m_repeatTime = a.m_repeatTime

/-- The action buffer of a keyboard holds no action and its indices are in range. -/
def Keyboard.Idle (kb : Keyboard) : Prop :=
  kb.m_actions.m_in = kb.m_actions.m_out ∧ kb.m_actions.m_in < KEY_ROLLOVER

/-- What a scan call keeps true of its running state: configuration and
latch untouched, the buffer is the old one after the logged puts, and every
logged action carries the latch as its shift flag. -/
def Keyboard.ScanInv (kb : Keyboard) (s : Keyboard × List Action) : Prop :=
  kb.SameConfig s.1 ∧ s.1.m_shifted = kb.m_shifted ∧
  s.1.m_actions = kb.m_actions.putAll s.2 ∧ ∀ a ∈ s.2, a.m_shift = kb.m_shifted

/-- The latch rule of each `SHIFT_KEY` setting for a resolved `Press` or
`Repeat`: the character `getKey` returns and the new latch, from the
character `key` that `actionToKey` gave. -/
def shiftRule (SHIFT_KEY : ShiftPolicy) (shiftKey key : Char) (shifted : Bool) : Char × Bool :=
  match SHIFT_KEY with
  | ShiftPolicy.SHIFT_OFF => (key, shifted)
  | ShiftPolicy.SHIFT_ONE => if key = shiftKey then (NUL, !shifted) else (key, false)
  | ShiftPolicy.SHIFT_LOCK => if key = shiftKey then (NUL, !shifted) else (key, shifted)
  | ShiftPolicy.SHIFT_HOLD => if key = shiftKey then (NUL, true) else (key, shifted)

/-- The buffer indices are in range and every live entry satisfies `P`. -/
def ActionBuffer.AllLive (P : Action → Prop) (q : ActionBuffer) : Prop :=
  q.m_in < KEY_ROLLOVER ∧ q.m_out < KEY_ROLLOVER ∧ ∀ a ∈ q.abs, P a

/-- What holds of every keyboard reachable under `SHIFT_OFF`. -/
def Keyboard.OffInv (kb : Keyboard) : Prop :=
  kb.m_shifted = false ∧ kb.m_actions.AllLive (fun a => a.m_shift = false)

/-- The modes of a key that has been pressed and not yet released. -/
def KeyMode.isHeld : KeyMode → Bool
  | KeyMode.kmPressDebounce => true
  | KeyMode.kmPressed => true
  | KeyMode.kmRepeating => true
  | _ => false

/-- The modes of a key after its release has been reported. -/
def KeyMode.isSettling : KeyMode → Bool
  | KeyMode.kmReleaseDebounce => true
  | KeyMode.kmReleased => true
  | _ => false

/-- The cells a short press goes through after its `Press`: waiting in
`PressDebounce` or `Pressed` with nothing more reported (`false`), or
settling in `ReleaseDebounce` or `Released` with the `Release` reported
(`true`). -/
def shortPressState (d r : Int) (t0 : Nat) (ks : KeyState) (released : Bool) : Prop :=
  (released = false ∧
    (ks = ⟨KeyMode.kmPressDebounce, uaddLong t0 d⟩ ∨
     ks = ⟨KeyMode.kmPressed, uaddLong (uaddLong t0 d) r⟩)) ∨
  (released = true ∧
    (ks = ⟨KeyMode.kmReleaseDebounce, uaddLong (uaddLong (uaddLong t0 d) r) d⟩ ∨
     ks = ⟨KeyMode.kmReleased, 0⟩))

/-- One call of `Keyboard::loop`: its argument, the clock, the readings. -/
structure ScanCall where
  t : Nat
  millis : Nat
  pressed : Nat → Nat → Bool

/-- What the cell of the key at `(i, j)` is shown by a call of `loop`. -/
def ScanCall.seenBy (c : ScanCall) (i j : Nat) : Scan :=
  ⟨if c.t = 0 then c.millis else c.t, c.pressed i j⟩

/-- Successive calls of `Keyboard::loop`: the keyboard afterwards and the
actions handed to `putAction`, in order. -/
def Keyboard.loops : Keyboard → List ScanCall → Keyboard × List Action
  | kb, [] => (kb, [])
  | kb, c :: cs =>
    let r := kb.loopLog c.t c.millis c.pressed
    let r2 := Keyboard.loops r.1 cs
    (r2.1, r.2 ++ r2.2)

/-- The kinds of the logged actions that carry the index `k`. -/
def kindsAt (k : Nat) (log : List Action) : List KeyAction :=
  (log.filter (fun a => a.m_index = k)).map (fun a => a.m_keyAction)

/-- A key is visited once per scan: no other position of the matrix has
its index. -/
def Keyboard.visitedOnce (kb : Keyboard) (i0 j0 : Nat) : Prop :=
  i0 < kb.m_noOutPins ∧ j0 < kb.m_noInPins ∧
  ∀ i j, i < kb.m_noOutPins → j < kb.m_noInPins →
    kb.keyIndex i j = kb.keyIndex i0 j0 → i = i0 ∧ j = j0

/-- A buffer filled to its `KEY_ROLLOVER - 1` live entries. -/
def sampleFullBuffer : ActionBuffer :=
  (ActionBuffer.init sampleMem).putAll (sampleActions.take 8)

/-- A shifted key map whose character at index 0 is the shift key `A`. -/
def clashShiftMap : List Char := "Abcdefghijklmnop".toList

/-! ## Flasher -/

/-- The `enum flashMode` of `class Flasher`. -/
inductive Flasher.flashMode where
  | modeStopped
  | modePaused
  | modeRunning
  deriving DecidableEq, Repr

/-- The sum of two `unsigned long` values. -/
def uadd (a b : Nat) : Nat := (a + b) % ULONG_MOD

/-- The difference `a - b` of two `unsigned long` values. -/
def usub (a b : Nat) : Nat := (a + ULONG_MOD - b % ULONG_MOD) % ULONG_MOD

/-- The `class Flasher` of `src/Flasher.h`.  The link `m_nextFlasher` and the
static `FlasherList` only serve the static sweep `Flasher::loop` and are left
out, as are the writes to the pin.  `m_onOffList` is `none` for `NULL`,
otherwise the array it points to. -/
structure Flasher where
  m_pinNo : Nat
  m_onTime : Nat
  m_offTime : Nat
  m_onOffList : Option (List Nat)
  m_listLength : Nat
  m_listPos : Nat
  m_startOn : Bool
  m_on : Bool
  m_mode : Flasher.flashMode
  m_switchTime : Nat
  deriving DecidableEq, Repr

/-- The method `Flasher::switchLED`; `none` when the time list is read
through a null pointer or past its end. -/
def Flasher.switchLED (f : Flasher) : Option Flasher :=
  if f.m_mode ≠ Flasher.flashMode.modeRunning then some f
  else
    let f1 := { f with m_on := !f.m_on }
    let viaList : Option Flasher :=
      if f1.m_listLength ≠ 0 then
        let pos := if f1.m_listPos ≥ f1.m_listLength then 0 else f1.m_listPos
        match f1.m_onOffList with
        | none => none
        | some l =>
          match l.get? pos with
          | none => none
          | some d =>
            some { f1 with m_listPos := pos + 1, m_switchTime := uadd f1.m_switchTime d }
      else some f1
    if f1.m_on then
      if f1.m_onTime ≠ 0 then
        some { f1 with m_switchTime := uadd f1.m_switchTime f1.m_onTime }
      else viaList
    else
      if f1.m_onTime ≠ 0 then
        some { f1 with m_switchTime := uadd f1.m_switchTime f1.m_offTime }
      else viaList

/-- The constructor `Flasher(pinNo, onTime, offTime, startOn)`; `millis` is
the value `millis()` returns. -/
def Flasher.new (pinNo onTime offTime : Nat) (startOn : Bool) (millis : Nat) :
    Option Flasher :=
  Flasher.switchLED
    { m_pinNo := pinNo
      m_onTime := onTime
      m_offTime := if offTime = 0 then onTime else offTime
      m_onOffList := none
      m_listLength := 0
      m_listPos := 0
      m_startOn := startOn
      m_on := !startOn
      m_mode := Flasher.flashMode.modeRunning
      m_switchTime := millis }

/-- The constructor `Flasher(pinNo, onOffList, count, startOn)`. -/
def Flasher.newList (pinNo : Nat) (onOffList : Option (List Nat)) (count : Nat)
    (startOn : Bool) (millis : Nat) : Option Flasher :=
  Flasher.switchLED
    { m_pinNo := pinNo
      m_onTime := 0
      m_offTime := 0
      m_onOffList := onOffList
      m_listLength := count
      m_listPos := 0
      m_startOn := startOn
      m_on := !startOn
      m_mode := Flasher.flashMode.modeRunning
      m_switchTime := millis }

/-- The method `Flasher::pause`; `millis` is the value `millis()` returns. -/
def Flasher.pause (f : Flasher) (millis : Nat) : Flasher :=
  if f.m_mode = Flasher.flashMode.modeRunning then
    { f with m_mode := Flasher.flashMode.modePaused
             m_switchTime := usub f.m_switchTime millis }
  else f

/-- The method `Flasher::resume`. -/
def Flasher.resume (f : Flasher) (millis : Nat) : Flasher :=
  if f.m_mode = Flasher.flashMode.modePaused then
    { f with m_mode := Flasher.flashMode.modeRunning
             m_switchTime := uadd f.m_switchTime millis }
  else f

/-- The method `Flasher::stop`. -/
def Flasher.stop (f : Flasher) : Flasher :=
  if f.m_mode ≠ Flasher.flashMode.modeStopped then
    { f with m_mode := Flasher.flashMode.modeStopped }
  else f

/-- The method `Flasher::start`. -/
def Flasher.start (f : Flasher) (millis : Nat) : Option Flasher :=
  if f.m_mode = Flasher.flashMode.modeStopped then
    Flasher.switchLED
      { f with m_mode := Flasher.flashMode.modeRunning
               m_listPos := 0
               m_on := !f.m_startOn
               m_switchTime := millis }
  else if f.m_mode = Flasher.flashMode.modePaused then some (f.resume millis)
  else some f

/-- The method `Flasher::setFLash(onTime, offTime, startOn)`. -/
def Flasher.setFLash (f : Flasher) (onTime offTime : Nat) (startOn : Bool) : Option Flasher :=
  Flasher.switchLED
    { f with m_onOffList := none
             m_listLength := 0
             m_listPos := 0
             m_onTime := onTime
             m_offTime := if offTime ≠ 0 then onTime else offTime
             m_startOn := startOn
             m_on := !startOn
             m_mode := Flasher.flashMode.modeRunning }

/-- The method `Flasher::setFLash(onOffList, listLength, startOn)`. -/
def Flasher.setFLashList (f : Flasher) (onOffList : Option (List Nat)) (listLength : Nat)
    (startOn : Bool) : Option Flasher :=
  Flasher.switchLED
    { f with m_onTime := 0
             m_offTime := 0
             m_onOffList := onOffList
             m_listLength := listLength
             m_listPos := 0
             m_startOn := startOn
             m_on := !startOn
             m_mode := Flasher.flashMode.modeRunning }

/-- The method `Flasher::flashLoop`. -/
def Flasher.flashLoop (f : Flasher) (t : Nat) : Option Flasher :=
  if f.m_mode ≠ Flasher.flashMode.modeRunning then some f
  else if t ≥ f.m_switchTime then f.switchLED else some f

/-- A running flasher with an on-time of 100 and an off-time of 200. -/
def sampleFlasher : Flasher :=
  { m_pinNo := 13
    m_onTime := 100
    m_offTime := 200
    m_onOffList := none
    m_listLength := 0
    m_listPos := 0
    m_startOn := true
    m_on := true
    m_mode := Flasher.flashMode.modeRunning
    m_switchTime := 1100 }

/-! ## Further predicates and sample inputs -/

/-- A keyboard with 3 rows (out pins) and 1 column (in pin); the memory after
its three key states holds cells in mode `Repeating`. -/
def threeByOne : Keyboard :=
  Keyboard.new 3 1 "abc".toList 20 300 20 NUL none (fun _ => ⟨KeyMode.kmRepeating, 77⟩)
    (fun _ => ⟨0, false, KeyAction.kaPress⟩) (fun _ _ => true)

/-- A keyboard with no row and no column and an empty key map. -/
def emptyKeyboard : Keyboard :=
  Keyboard.new 0 0 [] 20 300 20 NUL none (fun _ => KeyState.init)
    (fun _ => ⟨0, false, KeyAction.kaPress⟩) (fun _ _ => true)

/-- A 2 by 2 keyboard whose key map has only two characters. -/
def shortMapKeyboard : Keyboard :=
  Keyboard.new 2 2 "ab".toList 20 300 20 NUL none (fun _ => KeyState.init)
    (fun _ => ⟨0, false, KeyAction.kaPress⟩) (fun _ _ => true)

/-- The cell of a key held since its `Press` at `t0`, after `k` `Repeat`
actions: waiting in `PressDebounce` or `Pressed` with `k = 0`, or `Repeating`,
the deadline being the accumulated sum modulo `2 ^ 32`. -/
def holdState (d r p : Int) (t0 : Nat) (ks : KeyState) (k : Nat) : Prop :=
  (ks.m_mode = KeyMode.kmPressDebounce ∧ k = 0 ∧
    (ks.m_nextEvent : Int) = ((t0 : Int) + d) % (ULONG_MOD : Int)) ∨
  (ks.m_mode = KeyMode.kmPressed ∧ k = 0 ∧
    (ks.m_nextEvent : Int) = ((t0 : Int) + d + r) % (ULONG_MOD : Int)) ∨
  (ks.m_mode = KeyMode.kmRepeating ∧
    (ks.m_nextEvent : Int) = ((t0 : Int) + d + r + k * p) % (ULONG_MOD : Int))

/-- The difference `a - b` of two `unsigned long` values read as a signed
32-bit number. -/
def signedDiff (a b : Nat) : Int :=
  if usub a b < 2 ^ 31 then (usub a b : Int) else (usub a b : Int) - (ULONG_MOD : Int)

/-- A cell that is `Released` has `m_nextEvent = 0`. -/
def KeyState.zeroWhenReleased (ks : KeyState) : Prop :=
  ks.m_mode = KeyMode.kmReleased → ks.m_nextEvent = 0

/-- The keyboards that the constructor followed by `loop` calls can produce. -/
inductive Keyboard.ScanReachable : Keyboard → Prop where
  | new (noOutPins noInPins : Nat) (keyMap : List Char)
      (debounceTime repeatDelay repeatTime : Int) (shiftKey : Char)
      (shiftKeyMap : Option (List Char)) (heap : Nat → KeyState) (mem : Nat → Action)
      (inactive : Nat → Nat → Bool) :
      Keyboard.ScanReachable (Keyboard.new noOutPins noInPins keyMap debounceTime
        repeatDelay repeatTime shiftKey shiftKeyMap heap mem inactive)
  | loop {kb : Keyboard} (t millis : Nat) (pressed : Nat → Nat → Bool) :
      Keyboard.ScanReachable kb → Keyboard.ScanReachable (kb.loop t millis pressed)

/-- The index `k` is the index of a key of the matrix. -/
def Keyboard.isKeyIndex (kb : Keyboard) (k : Nat) : Prop :=
  ∃ i j, i < kb.m_noOutPins ∧ j < kb.m_noInPins ∧ k = kb.keyIndex i j

/-- One step of the automaton of the language `(Press Repeat* Release)*`: the
state tells whether a `Press` is open (not yet matched by a `Release`). -/
def cycleStep : Bool → KeyAction → Option Bool
  | false, KeyAction.kaPress => some true
  | true, KeyAction.kaRepeat => some true
  | true, KeyAction.kaRelease => some false
  | _, _ => none

/-- The automaton run over a list of actions from a given state; `none` when
the list leaves the language. -/
def cycleRun : Bool → List KeyAction → Option Bool
  | b, [] => some b
  | b, a :: l =>
    match cycleStep b a with
    | none => none
    | some b1 => cycleRun b1 l

/-- The list is a prefix of a word of `(Press Repeat* Release)*`, read from
the state `b` (`false`: no `Press` open; `true`: a `Press` is open). -/
def pressCycle (b : Bool) (l : List KeyAction) : Bool := (cycleRun b l).isSome

/-- The sample keyboard constructed while the key at `(0, 0)` is held down. -/
def heldAtStart : Keyboard :=
  Keyboard.new 4 4 sampleKeyMap 20 300 20 'A' none (fun _ => KeyState.init)
    (fun _ => ⟨0, false, KeyAction.kaPress⟩) (fun i j => !(i == 0 && j == 0))

/-- The sample keyboard after its key 0 has been pressed at 100, read released
at 130 and 140, and scanned again at 440. -/
def scannedKeyboard : Keyboard :=
  ((((sampleKeyboard none).loop 100 0 (keysDown [(0, 0)])).loop 130 0 (keysDown [])).loop 140 0
    (keysDown [])).loop 440 0 (keysDown [])

/-! ## Buffer events of a sequence of calls -/

/-- The action is one that `getKey` looks up in a key map: a `Press` or a
`Repeat`. -/
def Action.isKeyDown (a : Action) : Bool :=
  decide (a.m_keyAction = KeyAction.kaPress ∨ a.m_keyAction = KeyAction.kaRepeat)

/-- What a call does with the action buffer: `loop` hands an action to
`putAction` (`scanned`); `getKey` takes an action out of the buffer and
resolves it (`resolved`, with the character returned and the latch
afterwards, or `none` when `actionToKey` has no defined result). -/
inductive BufferEvent where
  | scanned (a : Action)
  | resolved (a : Action) (r : Option (Char × Bool))
  deriving DecidableEq, Repr

/-- The buffer events of a sequence of calls, in order.  A `loop` call gives
one `scanned` event for each action it hands to `putAction`; a `getKey` call
gives one `resolved` event for the action it takes out, none when the buffer
is empty.  The sequence stops after a `getKey` whose lookup has no defined
result. -/
def Keyboard.events (SHIFT_KEY : ShiftPolicy) : Keyboard → List Call → List BufferEvent
  | _, [] => []
  | kb, Call.loop t millis pressed :: rest =>
    (kb.loopLog t millis pressed).2.map BufferEvent.scanned ++
      Keyboard.events SHIFT_KEY (kb.loop t millis pressed) rest
  | kb, Call.getKey :: rest =>
    match kb.getKey SHIFT_KEY with
    | none => kb.getAction.1.toList.map (fun a => BufferEvent.resolved a none)
    | some (c, kb1) =>
      kb.getAction.1.toList.map (fun a => BufferEvent.resolved a (some (c, kb1.m_shifted))) ++
        Keyboard.events SHIFT_KEY kb1 rest

/-- The events about a `Press` or a `Repeat`: `false` for the scan and `true`
for the resolution, the key index and the kind.  Events about a `Release`
give `none`. -/
def BufferEvent.keyDown : BufferEvent → Option (Bool × Nat × KeyAction)
  | BufferEvent.scanned a =>
    if a.isKeyDown then some (false, a.m_index, a.m_keyAction) else none
  | BufferEvent.resolved a _ =>
    if a.isKeyDown then some (true, a.m_index, a.m_keyAction) else none

/-- The resolution of a `Press` or a `Repeat`: the action as it was enqueued,
the character `getKey` returned for it and the latch afterwards. -/
def BufferEvent.keyDownResult : BufferEvent → Option (Action × Option (Char × Bool))
  | BufferEvent.scanned _ => none
  | BufferEvent.resolved a r => if a.isKeyDown then some (a, r) else none

/-- A typing session on the sample keyboard: the shift key (index 3) is
tapped, then key 0 is tapped twice.  Each key is read pressed at one scan and
released at the next ones; `getKey` is called after each press, once more
while the buffer holds the `Release` of the shift key, and three times at
the end. -/
def oneShotSession : List Call :=
  [Call.loop 100 0 (keysDown [(0, 3)]), Call.getKey,
    Call.loop 130 0 (keysDown []), Call.loop 140 0 (keysDown []), Call.getKey,
    Call.loop 450 0 (keysDown []),
    Call.loop 500 0 (keysDown [(0, 0)]), Call.getKey,
    Call.loop 530 0 (keysDown []), Call.loop 540 0 (keysDown []), Call.loop 850 0 (keysDown []),
    Call.loop 900 0 (keysDown [(0, 0)]), Call.getKey, Call.getKey, Call.getKey]

/-- A clean press, hold and release of the key at `(0, 2)`, no other key
touched: the calls of `loop` at the times 50 to 800, the key being read
pressed from 100 to 450. -/
def pressHoldReleaseCalls : List ScanCall :=
  [⟨50, 0, keysDown []⟩, ⟨100, 0, keysDown [(0, 2)]⟩, ⟨120, 0, keysDown [(0, 2)]⟩,
    ⟨420, 0, keysDown [(0, 2)]⟩, ⟨440, 0, keysDown [(0, 2)]⟩, ⟨450, 0, keysDown [(0, 2)]⟩,
    ⟨500, 0, keysDown []⟩, ⟨800, 0, keysDown []⟩]

/-! ## Theorems: ActionBuffer -/

theorem ActionBuffer.reachable_bounds {q : ActionBuffer} (h : q.Reachable) :
    q.m_in < KEY_ROLLOVER ∧ q.m_out < KEY_ROLLOVER := by
  induction h with
  | init mem => simp [ActionBuffer.init, KEY_ROLLOVER]
  | put a _ ih =>
    obtain ⟨h1, h2⟩ := ih
    unfold ActionBuffer.put
    simp only [KEY_ROLLOVER] at *
    split <;> simp <;> omega
  | get _ ih =>
    obtain ⟨h1, h2⟩ := ih
    unfold ActionBuffer.get
    simp only [KEY_ROLLOVER] at *
    split <;> simp <;> omega
  | clear _ _ => simp [ActionBuffer.clear, KEY_ROLLOVER]

theorem ActionBuffer.abs_put (q : ActionBuffer) (a : Action)
    (hi : q.m_in < KEY_ROLLOVER) (ho : q.m_out < KEY_ROLLOVER) :
    (q.put a).2.abs =
      if q.abs.length = KEY_ROLLOVER - 1 then q.abs.tail ++ [a] else q.abs ++ [a] := by
  obtain ⟨buf, i, o⟩ := q
  simp only [KEY_ROLLOVER] at hi ho
  interval_cases i <;> interval_cases o <;>
    simp [ActionBuffer.abs, ActionBuffer.put, KEY_ROLLOVER, List.range_succ, setAt]

theorem ActionBuffer.abs_length_le (q : ActionBuffer) :
    q.abs.length ≤ KEY_ROLLOVER - 1 := by
  simp only [ActionBuffer.abs, List.length_map, List.length_range, KEY_ROLLOVER]
  omega

theorem ActionBuffer.put_flag (q : ActionBuffer) (a : Action)
    (hi : q.m_in < KEY_ROLLOVER) (ho : q.m_out < KEY_ROLLOVER) :
    ((q.put a).1 = false ↔ q.abs.length = KEY_ROLLOVER - 1) := by
  obtain ⟨buf, i, o⟩ := q
  simp only [KEY_ROLLOVER] at hi ho
  interval_cases i <;> interval_cases o <;>
    simp [ActionBuffer.abs, ActionBuffer.put, KEY_ROLLOVER]

theorem ActionBuffer.get_of_abs_nil (q : ActionBuffer)
    (hi : q.m_in < KEY_ROLLOVER) (ho : q.m_out < KEY_ROLLOVER) (he : q.abs = []) :
    q.get = (none, q) := by
  obtain ⟨buf, i, o⟩ := q
  simp only [KEY_ROLLOVER] at hi ho
  have hio : i = o := by
    simp only [ActionBuffer.abs, KEY_ROLLOVER, List.map_eq_nil_iff, List.range_eq_nil] at he
    omega
  simp [ActionBuffer.get, hio]

theorem ActionBuffer.get_of_abs_cons (q : ActionBuffer) (x : Action) (xs : List Action)
    (hi : q.m_in < KEY_ROLLOVER) (ho : q.m_out < KEY_ROLLOVER) (he : q.abs = x :: xs) :
    q.get.1 = some x ∧ q.get.2.abs = xs := by
  obtain ⟨buf, i, o⟩ := q
  simp only [KEY_ROLLOVER] at hi ho
  revert he
  interval_cases i <;> interval_cases o <;>
    simp [ActionBuffer.abs, ActionBuffer.get, KEY_ROLLOVER, List.range_succ]

theorem ActionBuffer.abs_clear (q : ActionBuffer) : q.clear.abs = [] := by
  simp [ActionBuffer.abs, ActionBuffer.clear, KEY_ROLLOVER]

/-- C2: `ActionBuffer` refines the bounded FIFO list `BoundedFifo` through
`abs`, the entries from `m_out` up to `m_in` in circular order.  For every
buffer reachable from the constructor: `abs q` holds at most
`KEY_ROLLOVER - 1` entries; `put a` returns the flag and leaves the entries
that `BoundedFifo.put` gives (the action appended, the head dropped and
`false` returned exactly when `KEY_ROLLOVER - 1` entries were held); `get`
returns the result and leaves the entries that `BoundedFifo.get` gives, and
leaves the buffer itself unchanged when `abs q` is empty; `clear` empties
`abs q`. -/
theorem ActionBuffer.refines_bounded_fifo (q : ActionBuffer) (a : Action)
    (h : q.Reachable) :
    q.abs.length ≤ KEY_ROLLOVER - 1 ∧
    ((q.put a).1, (q.put a).2.abs) = BoundedFifo.put q.abs a ∧
    ((q.put a).1 = false ↔ q.abs.length = KEY_ROLLOVER - 1) ∧
    (q.get.1, q.get.2.abs) = BoundedFifo.get q.abs ∧
    (q.abs = [] → q.get = (none, q)) ∧
    q.clear.abs = BoundedFifo.clear q.abs := by
  obtain ⟨hi, ho⟩ := ActionBuffer.reachable_bounds h
  have hf := ActionBuffer.put_flag q a hi ho
  refine ⟨q.abs_length_le, ?_, hf, ?_, q.get_of_abs_nil hi ho, q.abs_clear⟩
  · rw [ActionBuffer.abs_put q a hi ho]
    unfold BoundedFifo.put
    by_cases hl : q.abs.length = KEY_ROLLOVER - 1
    · rw [if_pos hl, if_pos hl, hf.2 hl]
    · rw [if_neg hl, if_neg hl]
      have hb : (q.put a).1 = true := by
        cases hp : (q.put a).1
        · exact absurd (hf.1 hp) hl
        · rfl
      rw [hb]
  · cases he : q.abs with
    | nil => rw [ActionBuffer.get_of_abs_nil q hi ho he, he]; rfl
    | cons x xs =>
      obtain ⟨g1, g2⟩ := ActionBuffer.get_of_abs_cons q x xs hi ho he
      rw [g1, g2]; rfl

/-- C3: `KEY_ROLLOVER` actions put into an empty reachable buffer with no
`get` in between: the next `KEY_ROLLOVER - 1` gets return the second to the
last action in order (only the oldest is lost) and the get after them
returns `false`. -/
theorem ActionBuffer.overflow_drops_oldest_only (q : ActionBuffer) (l : List Action)
    (h : q.Reachable) (he : q.m_in = q.m_out) (hl : l.length = KEY_ROLLOVER) :
    (ActionBuffer.getN KEY_ROLLOVER (q.putAll l)).1 = l.tail.map some ++ [none] ∧
    (ActionBuffer.getN (KEY_ROLLOVER - 1) (q.putAll l)).1 = l.tail.map some ∧
    ((ActionBuffer.getN (KEY_ROLLOVER - 1) (q.putAll l)).2.get).1 = none := by
  obtain ⟨hi, _⟩ := ActionBuffer.reachable_bounds h
  obtain ⟨buf, i, o⟩ := q
  simp only [KEY_ROLLOVER] at hi hl
  simp only at he
  subst he
  rcases l with _ | ⟨a1, _ | ⟨a2, _ | ⟨a3, _ | ⟨a4, _ | ⟨a5, _ | ⟨a6, _ | ⟨a7, _ | ⟨a8,
    _ | ⟨a9, _ | ⟨a10, l⟩⟩⟩⟩⟩⟩⟩⟩⟩⟩ <;> simp at hl
  interval_cases i <;>
    simp [ActionBuffer.putAll, ActionBuffer.put, ActionBuffer.getN, ActionBuffer.get,
      KEY_ROLLOVER, setAt]

/-! ## Theorems: scan and resolution -/

theorem foldl_invariant {α β : Type} (P : β → Prop) (f : β → α → β)
    (hstep : ∀ b a, P b → P (f b a)) (l : List α) (b : β) (hb : P b) :
    P (l.foldl f b) := by
  induction l generalizing b with
  | nil => exact hb
  | cons a l ih => exact ih _ (hstep b a hb)

theorem ActionBuffer.putAll_append (q : ActionBuffer) (l : List Action) (a : Action) :
    q.putAll (l ++ [a]) = ((q.putAll l).put a).2 := by
  simp [ActionBuffer.putAll, List.foldl_append]

theorem Keyboard.scanKey_inv (kb : Keyboard) (t : Nat) (pressed : Nat → Nat → Bool) (i : Nat)
    (s : Keyboard × List Action) (j : Nat) (h : kb.ScanInv s) :
    kb.ScanInv (Keyboard.scanKey t pressed i s j) := by
  obtain ⟨hc, hs, hq, hl⟩ := h
  unfold Keyboard.scanKey
  simp only
  split
  · exact ⟨hc, hs, hq, hl⟩
  · refine ⟨hc, hs, ?_, ?_⟩
    · simp only [Keyboard.putAction, ActionBuffer.putAll_append, hq]
    · intro a ha
      rcases List.mem_append.1 ha with h1 | h1
      · exact hl a h1
      · rw [List.mem_singleton.1 h1]; exact hs

theorem Keyboard.loopLog_inv (kb : Keyboard) (t millis : Nat) (pressed : Nat → Nat → Bool) :
    kb.ScanInv (kb.loopLog t millis pressed) := by
  unfold Keyboard.loopLog
  apply foldl_invariant
  · intro s i hs
    apply foldl_invariant
    · intro s1 j hs1
      exact Keyboard.scanKey_inv kb _ pressed i s1 j hs1
    · exact hs
  · exact ⟨⟨rfl, rfl, rfl, rfl, rfl, rfl, rfl, rfl⟩, rfl, rfl, by simp⟩

theorem ActionBuffer.get_put_of_empty (q : ActionBuffer) (a : Action)
    (he : q.m_in = q.m_out) (hb : q.m_in < KEY_ROLLOVER) :
    (q.put a).2.get.1 = some a ∧
    (q.put a).2.get.2.m_in = (q.put a).2.get.2.m_out ∧
    (q.put a).2.get.2.m_in < KEY_ROLLOVER := by
  obtain ⟨buf, i, o⟩ := q
  simp only at he
  subst he
  simp only [KEY_ROLLOVER] at hb
  interval_cases i <;> simp [ActionBuffer.put, ActionBuffer.get, KEY_ROLLOVER, setAt]

theorem Keyboard.actionToKey_congr (kb kb1 : Keyboard) (a : Action) (h : kb.SameConfig kb1) :
    kb1.actionToKey a = kb.actionToKey a := by
  obtain ⟨-, -, -, h4, h5, -⟩ := h
  simp [Keyboard.actionToKey, h4, h5]

theorem Keyboard.resolve_press (SHIFT_KEY : ShiftPolicy) (kb : Keyboard) (a : Action) (c : Char)
    (hk : a.m_keyAction = KeyAction.kaPress ∨ a.m_keyAction = KeyAction.kaRepeat)
    (hc : kb.actionToKey a = some c) :
    kb.resolve SHIFT_KEY a =
      some ((shiftRule SHIFT_KEY kb.m_shiftKey c kb.m_shifted).1,
        { kb with m_shifted := (shiftRule SHIFT_KEY kb.m_shiftKey c kb.m_shifted).2 }) := by
  have hr : ¬ a.m_keyAction = KeyAction.kaRelease := by
    rcases hk with h | h <;> simp [h]
  cases SHIFT_KEY <;> by_cases hcs : c = kb.m_shiftKey <;>
    simp [Keyboard.resolve, hk, hc, hr, shiftRule, hcs]

theorem ActionBuffer.put_bounds (q : ActionBuffer) (a : Action)
    (_hi : q.m_in < KEY_ROLLOVER) (ho : q.m_out < KEY_ROLLOVER) :
    (q.put a).2.m_in < KEY_ROLLOVER ∧ (q.put a).2.m_out < KEY_ROLLOVER := by
  unfold ActionBuffer.put
  simp only [KEY_ROLLOVER] at *
  split <;> simp <;> omega

theorem ActionBuffer.get_bounds (q : ActionBuffer)
    (hi : q.m_in < KEY_ROLLOVER) (_ho : q.m_out < KEY_ROLLOVER) :
    q.get.2.m_in < KEY_ROLLOVER ∧ q.get.2.m_out < KEY_ROLLOVER := by
  unfold ActionBuffer.get
  simp only [KEY_ROLLOVER] at *
  split <;> simp <;> omega

theorem ActionBuffer.mem_abs_put (q : ActionBuffer) (a b : Action)
    (hi : q.m_in < KEY_ROLLOVER) (ho : q.m_out < KEY_ROLLOVER) (hb : b ∈ (q.put a).2.abs) :
    b ∈ q.abs ∨ b = a := by
  rw [ActionBuffer.abs_put q a hi ho] at hb
  split at hb
  · rcases List.mem_append.1 hb with h | h
    · exact Or.inl (List.mem_of_mem_tail h)
    · exact Or.inr (List.mem_singleton.1 h)
  · rcases List.mem_append.1 hb with h | h
    · exact Or.inl h
    · exact Or.inr (List.mem_singleton.1 h)

theorem ActionBuffer.mem_abs_get (q : ActionBuffer) (b : Action)
    (hi : q.m_in < KEY_ROLLOVER) (ho : q.m_out < KEY_ROLLOVER) (hb : b ∈ q.get.2.abs) :
    b ∈ q.abs := by
  cases he : q.abs with
  | nil =>
    rw [ActionBuffer.get_of_abs_nil q hi ho he, he] at hb
    exact absurd hb (List.not_mem_nil b)
  | cons x xs =>
    rw [(ActionBuffer.get_of_abs_cons q x xs hi ho he).2] at hb
    exact List.mem_cons_of_mem x hb

theorem ActionBuffer.get_mem_abs (q : ActionBuffer) (a : Action)
    (hi : q.m_in < KEY_ROLLOVER) (ho : q.m_out < KEY_ROLLOVER) (hg : q.get.1 = some a) :
    a ∈ q.abs := by
  cases he : q.abs with
  | nil =>
    rw [ActionBuffer.get_of_abs_nil q hi ho he] at hg
    exact absurd hg (by simp)
  | cons x xs =>
    rw [(ActionBuffer.get_of_abs_cons q x xs hi ho he).1] at hg
    rw [← Option.some.inj hg]
    exact List.mem_cons_self x xs

theorem ActionBuffer.allLive_putAll (P : Action → Prop) (l : List Action) (q : ActionBuffer)
    (hq : q.AllLive P) (hl : ∀ a ∈ l, P a) : (q.putAll l).AllLive P := by
  induction l generalizing q with
  | nil => exact hq
  | cons a l ih =>
    obtain ⟨hi, ho, hp⟩ := hq
    have hb := ActionBuffer.put_bounds q a hi ho
    apply ih (q.put a).2
    · refine ⟨hb.1, hb.2, ?_⟩
      intro b hbm
      rcases ActionBuffer.mem_abs_put q a b hi ho hbm with h | h
      · exact hp b h
      · rw [h]; exact hl a (List.mem_cons_self a l)
    · intro b hbm
      exact hl b (List.mem_cons_of_mem a hbm)

theorem ActionBuffer.allLive_get (P : Action → Prop) (q : ActionBuffer)
    (hq : q.AllLive P) : q.get.2.AllLive P := by
  obtain ⟨hi, ho, hp⟩ := hq
  have hb := ActionBuffer.get_bounds q hi ho
  exact ⟨hb.1, hb.2, fun b hbm => hp b (ActionBuffer.mem_abs_get q b hi ho hbm)⟩

theorem Keyboard.initCell_fields (inactive : Nat → Nat → Bool) (i : Nat) (kb : Keyboard) (j : Nat) :
    (Keyboard.initCell inactive i kb j).m_shifted = kb.m_shifted ∧
    (Keyboard.initCell inactive i kb j).m_actions = kb.m_actions ∧
    kb.SameConfig (Keyboard.initCell inactive i kb j) :=
  ⟨rfl, rfl, rfl, rfl, rfl, rfl, rfl, rfl, rfl, rfl⟩

theorem Keyboard.SameConfig.trans {a b c : Keyboard} (h1 : a.SameConfig b) (h2 : b.SameConfig c) :
    a.SameConfig c := by
  obtain ⟨a1, a2, a3, a4, a5, a6, a7, a8⟩ := h1
  obtain ⟨b1, b2, b3, b4, b5, b6, b7, b8⟩ := h2
  exact ⟨b1.trans a1, b2.trans a2, b3.trans a3, b4.trans a4, b5.trans a5, b6.trans a6,
    b7.trans a7, b8.trans a8⟩

theorem Keyboard.enableKeyboardPins_fields (kb : Keyboard) (inactive : Nat → Nat → Bool) :
    (kb.enableKeyboardPins inactive).m_shifted = kb.m_shifted ∧
    (kb.enableKeyboardPins inactive).m_actions = kb.m_actions ∧
    kb.SameConfig (kb.enableKeyboardPins inactive) := by
  unfold Keyboard.enableKeyboardPins
  apply foldl_invariant (fun k : Keyboard =>
    k.m_shifted = kb.m_shifted ∧ k.m_actions = kb.m_actions ∧ kb.SameConfig k)
  · intro k i hk
    apply foldl_invariant (fun k : Keyboard =>
      k.m_shifted = kb.m_shifted ∧ k.m_actions = kb.m_actions ∧ kb.SameConfig k)
    · intro k1 j hk1
      obtain ⟨h1, h2, h3⟩ := Keyboard.initCell_fields inactive i k1 j
      exact ⟨h1.trans hk1.1, h2.trans hk1.2.1, hk1.2.2.trans h3⟩
    · exact hk
  · exact ⟨rfl, rfl, rfl, rfl, rfl, rfl, rfl, rfl, rfl, rfl⟩

theorem Keyboard.getKey_off_state (kb kb1 : Keyboard) (c : Char)
    (h : kb.getKey ShiftPolicy.SHIFT_OFF = some (c, kb1)) : kb1 = kb.getAction.2 := by
  unfold Keyboard.getKey at h
  simp only at h
  split at h
  · simp only [Option.some.injEq, Prod.mk.injEq] at h
    exact h.2.symm
  · rename_i action _
    unfold Keyboard.resolve at h
    simp only [false_and, if_false, reduceCtorEq] at h
    split at h
    · cases hk : kb.getAction.2.actionToKey action with
      | none => simp [hk] at h
      | some key =>
        simp only [hk, Option.map_some', Option.some.injEq, Prod.mk.injEq] at h
        exact h.2.symm
    · simp only [Option.some.injEq, Prod.mk.injEq] at h
      exact h.2.symm

theorem Keyboard.off_reachable_inv (kb : Keyboard)
    (h : Keyboard.Reachable ShiftPolicy.SHIFT_OFF kb) : kb.OffInv := by
  induction h with
  | new noOutPins noInPins keyMap debounceTime repeatDelay repeatTime shiftKey shiftKeyMap
      heap mem inactive =>
    unfold Keyboard.new
    obtain ⟨h1, h2, -⟩ := Keyboard.enableKeyboardPins_fields
      { m_noOutPins := noOutPins
        m_noInPins := noInPins
        m_keyState := fun k => if k < noOutPins * noInPins then KeyState.init else heap k
        m_shiftKey := shiftKey
        m_shifted := false
        m_keyMap := keyMap
        m_shiftKeyMap := shiftKeyMap
        m_debounceTime := debounceTime
        m_repeatDelayTime := repeatDelay
        m_repeatTime := repeatTime
        m_actions := ActionBuffer.init mem } inactive
    refine ⟨h1, ?_⟩
    rw [h2]
    refine ⟨by simp [ActionBuffer.init, KEY_ROLLOVER], by simp [ActionBuffer.init, KEY_ROLLOVER], ?_⟩
    simp [ActionBuffer.abs, ActionBuffer.init, KEY_ROLLOVER]
  | @loop kb0 t millis pressed _ ih =>
    obtain ⟨-, hs, hq, hl⟩ := kb0.loopLog_inv t millis pressed
    refine ⟨hs.trans ih.1, ?_⟩
    show (kb0.loopLog t millis pressed).1.m_actions.AllLive _
    rw [hq]
    apply ActionBuffer.allLive_putAll _ _ _ ih.2
    intro a ha
    rw [hl a ha]; exact ih.1
  | @getKey kb0 kb1 c _ hg ih =>
    rw [Keyboard.getKey_off_state kb0 kb1 c hg]
    exact ⟨ih.1, ActionBuffer.allLive_get _ _ ih.2⟩

/-- C8: under `SHIFT_OFF`, in every keyboard reachable from the constructor
by `loop` and `getKey` calls, the latch is clear, every queued action carries
shift flag `false`, and `getKey` on a dequeued `Press` or `Repeat` with index
`i` returns the unshifted `m_keyMap[i]` whatever that character is (the shift
key character included). -/
theorem Keyboard.off_policy_unshifted (kb : Keyboard)
    (h : Keyboard.Reachable ShiftPolicy.SHIFT_OFF kb) :
    kb.m_shifted = false ∧
    (∀ a ∈ kb.m_actions.abs, a.m_shift = false) ∧
    ∀ a : Action, kb.getAction.1 = some a →
      (a.m_keyAction = KeyAction.kaPress ∨ a.m_keyAction = KeyAction.kaRepeat) →
      kb.getKey ShiftPolicy.SHIFT_OFF =
        (cstrAt kb.m_keyMap a.m_index).map (fun c => (c, kb.getAction.2)) := by
  obtain ⟨h1, h2, h3, h4⟩ := Keyboard.off_reachable_inv kb h
  refine ⟨h1, h4, ?_⟩
  intro a ha hk
  have hsh : a.m_shift = false := h4 a (ActionBuffer.get_mem_abs _ a h2 h3 ha)
  have hr : ¬ a.m_keyAction = KeyAction.kaRelease := by
    rcases hk with h | h <;> simp [h]
  unfold Keyboard.getKey
  simp only [ha]
  simp [Keyboard.resolve, hk, Keyboard.actionToKey, hsh, Keyboard.getAction]

/-! ## Theorems: key cell state machine -/

theorem runCell_append (d r p : Int) (ks : KeyState) (l1 l2 : List Scan) :
    runCell d r p ks (l1 ++ l2) =
      ((runCell d r p (runCell d r p ks l1).1 l2).1,
        (runCell d r p ks l1).2 ++ (runCell d r p (runCell d r p ks l1).1 l2).2) := by
  induction l1 generalizing ks with
  | nil => simp [runCell]
  | cons s l1 ih => simp [runCell, ih, List.append_assoc]

theorem runCell_released_idle (d r p : Int) (ks : KeyState) (l : List Scan)
    (hm : ks.m_mode = KeyMode.kmReleased) (hl : ∀ s ∈ l, s.pressed = false) :
    runCell d r p ks l = (ks, []) := by
  induction l with
  | nil => rfl
  | cons s l ih =>
    have hs : s.pressed = false := hl s (List.mem_cons_self s l)
    have hstep : cellStep d r p s.t s.pressed ks = (ks, none) := by
      simp [cellStep, hm, hs]
    simp only [runCell, hstep]
    rw [ih (fun s hs => hl s (List.mem_cons_of_mem _ hs))]
    rfl

theorem cellStep_held_pressed (d r p : Int) (t : Nat) (ks : KeyState)
    (hm : ks.m_mode.isHeld = true) :
    (cellStep d r p t true ks).1.m_mode.isHeld = true ∧
    ((cellStep d r p t true ks).2 = none ∨
      (cellStep d r p t true ks).2 = some KeyAction.kaRepeat) := by
  obtain ⟨m, ne⟩ := ks
  cases m <;> simp [KeyMode.isHeld] at hm <;> by_cases h : ne ≤ t <;>
    simp [cellStep, KeyMode.isHeld, h]

theorem runCell_held_pressed (d r p : Int) (ks : KeyState) (l : List Scan)
    (hm : ks.m_mode.isHeld = true) (hl : ∀ s ∈ l, s.pressed = true) :
    (runCell d r p ks l).1.m_mode.isHeld = true ∧
    ∃ k, (runCell d r p ks l).2 = List.replicate k KeyAction.kaRepeat := by
  induction l generalizing ks with
  | nil => exact ⟨hm, 0, rfl⟩
  | cons s l ih =>
    have hs : s.pressed = true := hl s (List.mem_cons_self s l)
    obtain ⟨h1, h2⟩ := cellStep_held_pressed d r p s.t ks hm
    obtain ⟨g1, k, g2⟩ := ih (cellStep d r p s.t true ks).1 h1
      (fun s hs => hl s (List.mem_cons_of_mem _ hs))
    simp only [runCell, hs]
    refine ⟨g1, ?_⟩
    rcases h2 with h2 | h2
    · exact ⟨k, by simp [h2, g2]⟩
    · exact ⟨k + 1, by simp [h2, g2, List.replicate_succ]⟩

theorem runCell_settling_idle (d r p : Int) (ks : KeyState) (l : List Scan)
    (hm : ks.m_mode.isSettling = true) (hl : ∀ s ∈ l, s.pressed = false) :
    (runCell d r p ks l).1.m_mode.isSettling = true ∧ (runCell d r p ks l).2 = [] := by
  induction l generalizing ks with
  | nil => exact ⟨hm, rfl⟩
  | cons s l ih =>
    have hs : s.pressed = false := hl s (List.mem_cons_self s l)
    have hstep : (cellStep d r p s.t false ks).1.m_mode.isSettling = true ∧
        (cellStep d r p s.t false ks).2 = none := by
      obtain ⟨m, ne⟩ := ks
      cases m <;> simp [KeyMode.isSettling] at hm <;> by_cases h : ne ≤ s.t <;>
        simp [cellStep, KeyMode.isSettling, h]
    obtain ⟨g1, g2⟩ := ih _ hstep.1 (fun s hs => hl s (List.mem_cons_of_mem _ hs))
    simp only [runCell, hs]
    exact ⟨g1, by simp [hstep.2, g2]⟩

theorem runCell_held_unpressed (d r p : Int) (ks : KeyState) (l : List Scan)
    (hm : ks.m_mode.isHeld = true) (hl : ∀ s ∈ l, s.pressed = false) :
    ((runCell d r p ks l).1.m_mode.isHeld = true ∧ (runCell d r p ks l).2 = []) ∨
    ((runCell d r p ks l).1.m_mode.isSettling = true ∧
      (runCell d r p ks l).2 = [KeyAction.kaRelease]) := by
  induction l generalizing ks with
  | nil => exact Or.inl ⟨hm, rfl⟩
  | cons s l ih =>
    have hs : s.pressed = false := hl s (List.mem_cons_self s l)
    have hl1 : ∀ s ∈ l, s.pressed = false := fun s hs => hl s (List.mem_cons_of_mem _ hs)
    have hstep : ((cellStep d r p s.t false ks).1.m_mode.isHeld = true ∧
        (cellStep d r p s.t false ks).2 = none) ∨
        ((cellStep d r p s.t false ks).1.m_mode.isSettling = true ∧
        (cellStep d r p s.t false ks).2 = some KeyAction.kaRelease) := by
      obtain ⟨m, ne⟩ := ks
      cases m <;> simp [KeyMode.isHeld] at hm <;> by_cases h : ne ≤ s.t <;>
        simp [cellStep, KeyMode.isHeld, KeyMode.isSettling, h]
    simp only [runCell, hs]
    rcases hstep with ⟨h1, h2⟩ | ⟨h1, h2⟩
    · rcases ih _ h1 hl1 with ⟨g1, g2⟩ | ⟨g1, g2⟩
      · exact Or.inl ⟨g1, by simp [h2, g2]⟩
      · exact Or.inr ⟨g1, by simp [h2, g2]⟩
    · obtain ⟨g1, g2⟩ := runCell_settling_idle d r p _ l h1 hl1
      exact Or.inr ⟨g1, by simp [h2, g2]⟩

theorem cellStep_released_pressed (d r p : Int) (t : Nat) (ks : KeyState)
    (hm : ks.m_mode = KeyMode.kmReleased) :
    cellStep d r p t true ks =
      (⟨KeyMode.kmPressDebounce, uaddLong t d⟩, some KeyAction.kaPress) := by
  simp [cellStep, hm]

/-- The cell machine on its own: a cell that starts `Released` with
`m_nextEvent = 0` is stepped with readings that are not pressed (`pre`), then
pressed for one contiguous non-empty run (`held`), then not pressed again
(`post1`, `post2`), and among the latter steps `x` meets the cell in
`ReleaseDebounce` at or after its deadline (the reading of `x` itself is
ignored by the cell).  The actions the cell reports are then one `Press`, some
number `k` of `Repeat`, one `Release`, in this order, and the cell ends
`Released`.  By `Keyboard.loops_cell` this is what `Keyboard::loop` does for a
key that no other key shares its cell with. -/
theorem cell_press_hold_release (d r p : Int) (pre held post1 post2 : List Scan) (x : Scan)
    (hpre : ∀ s ∈ pre, s.pressed = false)
    (hheld : ∀ s ∈ held, s.pressed = true) (hne : held ≠ [])
    (hpost1 : ∀ s ∈ post1, s.pressed = false)
    (hpost2 : ∀ s ∈ post2, s.pressed = false)
    (hmode : (runCell d r p KeyState.init (pre ++ held ++ post1)).1.m_mode =
      KeyMode.kmReleaseDebounce)
    (hdead : (runCell d r p KeyState.init (pre ++ held ++ post1)).1.m_nextEvent ≤ x.t) :
    ∃ k : Nat,
      (runCell d r p KeyState.init (pre ++ held ++ post1 ++ x :: post2)).2 =
        KeyAction.kaPress :: (List.replicate k KeyAction.kaRepeat ++ [KeyAction.kaRelease]) ∧
      (runCell d r p KeyState.init (pre ++ held ++ post1 ++ x :: post2)).1.m_mode =
        KeyMode.kmReleased := by
  obtain ⟨s0, held1, rfl⟩ := List.exists_cons_of_ne_nil hne
  have hs0 : s0.pressed = true := hheld s0 (List.mem_cons_self _ _)
  have hpre1 := runCell_released_idle d r p KeyState.init pre rfl hpre
  -- the state and log after the run of pressed scans
  have hA : (runCell d r p KeyState.init (pre ++ s0 :: held1)).1.m_mode.isHeld = true ∧
      ∃ k, (runCell d r p KeyState.init (pre ++ s0 :: held1)).2 =
        KeyAction.kaPress :: List.replicate k KeyAction.kaRepeat := by
    rw [runCell_append, hpre1]
    simp only [runCell, hs0, cellStep_released_pressed d r p s0.t KeyState.init rfl]
    obtain ⟨g1, k, g2⟩ := runCell_held_pressed d r p
      ⟨KeyMode.kmPressDebounce, uaddLong s0.t d⟩ held1 rfl
      (fun s hs => hheld s (List.mem_cons_of_mem _ hs))
    exact ⟨g1, k, by simp [g2]⟩
  obtain ⟨hA1, k, hA2⟩ := hA
  -- the state and log after the first part of the unpressed scans
  have hB : (runCell d r p KeyState.init (pre ++ s0 :: held1 ++ post1)).2 =
      KeyAction.kaPress :: (List.replicate k KeyAction.kaRepeat ++ [KeyAction.kaRelease]) := by
    have hm := hmode
    rw [runCell_append] at hm ⊢
    simp only at hm ⊢
    rcases runCell_held_unpressed d r p _ post1 hA1 hpost1 with ⟨g1, -⟩ | ⟨-, g2⟩
    · rw [hm] at g1
      simp [KeyMode.isHeld] at g1
    · rw [hA2, g2]; rfl
  refine ⟨k, ?_⟩
  rw [runCell_append]
  simp only [hB]
  generalize runCell d r p KeyState.init (pre ++ s0 :: held1 ++ post1) = st at hmode hdead
  obtain ⟨⟨m, ne⟩, lg⟩ := st
  simp only at hmode hdead
  subst hmode
  have hstep : cellStep d r p x.t x.pressed ⟨KeyMode.kmReleaseDebounce, ne⟩ =
      (⟨KeyMode.kmReleased, 0⟩, none) := by
    simp [cellStep, hdead]
  simp only [runCell, hstep]
  rw [runCell_released_idle d r p ⟨KeyMode.kmReleased, 0⟩ post2 rfl hpost2]
  simp

theorem runCell_cons (d r p : Int) (ks : KeyState) (s : Scan) (l : List Scan) :
    runCell d r p ks (s :: l) =
      ((runCell d r p (cellStep d r p s.t s.pressed ks).1 l).1,
        (cellStep d r p s.t s.pressed ks).2.toList ++
          (runCell d r p (cellStep d r p s.t s.pressed ks).1 l).2) := rfl

theorem uaddLong_cast (u : Nat) (x : Int) (h0 : 0 ≤ (u : Int) + x)
    (h1 : (u : Int) + x < (ULONG_MOD : Int)) : ((uaddLong u x : Nat) : Int) = (u : Int) + x := by
  unfold uaddLong
  rw [Int.emod_eq_of_lt h0 h1, Int.toNat_of_nonneg h0]

theorem shortPress_held (d r p : Int) (t0 : Nat) (ks : KeyState) (l : List Scan)
    (hd : 0 ≤ d) (hr : 0 ≤ r) (hw : (t0 : Int) + d + r + d < (ULONG_MOD : Int))
    (hks : shortPressState d r t0 ks false)
    (hl : ∀ s ∈ l, s.pressed = true ∧ (s.t : Int) < t0 + d + r) :
    shortPressState d r t0 (runCell d r p ks l).1 false ∧ (runCell d r p ks l).2 = [] := by
  have c1 := uaddLong_cast t0 d (by omega) (by omega)
  have c2 := uaddLong_cast (uaddLong t0 d) r (by omega) (by omega)
  induction l generalizing ks with
  | nil => exact ⟨hks, rfl⟩
  | cons s l ih =>
    obtain ⟨hs, ht⟩ := hl s (List.mem_cons_self s l)
    have hstep : shortPressState d r t0 (cellStep d r p s.t true ks).1 false ∧
        (cellStep d r p s.t true ks).2 = none := by
      rcases hks with ⟨-, rfl | rfl⟩ | ⟨h, -⟩
      · by_cases h : uaddLong t0 d ≤ s.t <;> simp [cellStep, h, shortPressState]
      · have h : ¬ uaddLong (uaddLong t0 d) r ≤ s.t := by omega
        simp [cellStep, h, shortPressState]
      · simp at h
    obtain ⟨g1, g2⟩ := ih _ hstep.1 (fun s hs => hl s (List.mem_cons_of_mem _ hs))
    simp only [runCell, hs]
    exact ⟨g1, by simp [hstep.2, g2]⟩

theorem shortPress_step_unpressed (d r p : Int) (t0 : Nat) (ks : KeyState) (b : Bool) (t : Nat)
    (hks : shortPressState d r t0 ks b) :
    ∃ b1, shortPressState d r t0 (cellStep d r p t false ks).1 b1 ∧
      ((b1 = b ∧ (cellStep d r p t false ks).2 = none) ∨
       (b = false ∧ b1 = true ∧ (cellStep d r p t false ks).2 = some KeyAction.kaRelease ∧
         ks = ⟨KeyMode.kmPressed, uaddLong (uaddLong t0 d) r⟩ ∧
         (cellStep d r p t false ks).1 =
           ⟨KeyMode.kmReleaseDebounce, uaddLong (uaddLong (uaddLong t0 d) r) d⟩)) := by
  rcases hks with ⟨rfl, rfl | rfl⟩ | ⟨rfl, rfl | rfl⟩
  · refine ⟨false, ?_, Or.inl ⟨rfl, ?_⟩⟩ <;>
      by_cases h : uaddLong t0 d ≤ t <;> simp [cellStep, h, shortPressState]
  · exact ⟨true, by simp [cellStep, shortPressState], Or.inr ⟨rfl, rfl, by simp [cellStep], rfl,
      by simp [cellStep]⟩⟩
  · refine ⟨true, ?_, Or.inl ⟨rfl, ?_⟩⟩ <;>
      by_cases h : uaddLong (uaddLong (uaddLong t0 d) r) d ≤ t <;>
      simp [cellStep, h, shortPressState]
  · exact ⟨true, by simp [cellStep, shortPressState], Or.inl ⟨rfl, by simp [cellStep]⟩⟩

theorem shortPress_unpressed (d r p : Int) (t0 : Nat) (ks : KeyState) (b : Bool) (l : List Scan)
    (hks : shortPressState d r t0 ks b) (hl : ∀ s ∈ l, s.pressed = false) :
    ∃ b1, shortPressState d r t0 (runCell d r p ks l).1 b1 ∧
      ((b1 = b ∧ (runCell d r p ks l).2 = []) ∨
       (b = false ∧ b1 = true ∧ (runCell d r p ks l).2 = [KeyAction.kaRelease])) := by
  induction l generalizing ks b with
  | nil => exact ⟨b, hks, Or.inl ⟨rfl, rfl⟩⟩
  | cons s l ih =>
    have hs := hl s (List.mem_cons_self s l)
    obtain ⟨b1, h1, h2⟩ := shortPress_step_unpressed d r p t0 ks b s.t hks
    obtain ⟨b2, g1, g2⟩ := ih _ b1 h1 (fun s hs => hl s (List.mem_cons_of_mem _ hs))
    simp only [runCell, hs]
    refine ⟨b2, g1, ?_⟩
    rcases h2 with ⟨rfl, e⟩ | ⟨rfl, rfl, e, -⟩
    · rcases g2 with ⟨rfl, f⟩ | ⟨rfl, rfl, f⟩
      · exact Or.inl ⟨rfl, by simp [e, f]⟩
      · exact Or.inr ⟨rfl, rfl, by simp [e, f]⟩
    · rcases g2 with ⟨rfl, f⟩ | ⟨h, -⟩
      · exact Or.inr ⟨rfl, rfl, by simp [e, f]⟩
      · simp at h

theorem cellStep_release (d r p : Int) (t : Nat) (b : Bool) (ks : KeyState)
    (h : (cellStep d r p t b ks).2 = some KeyAction.kaRelease) :
    b = false ∧ (ks.m_mode = KeyMode.kmPressed ∨ ks.m_mode = KeyMode.kmRepeating) ∧
    (cellStep d r p t b ks).1 = ⟨KeyMode.kmReleaseDebounce, uaddLong ks.m_nextEvent d⟩ := by
  obtain ⟨m, ne⟩ := ks
  cases m <;> cases b <;> by_cases hh : ne ≤ t <;> simp [cellStep, hh] at h ⊢

theorem shortPressState_mode (d r : Int) (t0 : Nat) (ks : KeyState) (b : Bool)
    (h : shortPressState d r t0 ks b) : ks.m_mode ≠ KeyMode.kmRepeating := by
  rcases h with ⟨-, rfl | rfl⟩ | ⟨-, rfl | rfl⟩ <;> simp

/-- Every state a short press passes through: the initial cell, or one of the
cells of `shortPressState`. -/
theorem shortPress_trajectory (d r p : Int) (t0 : Nat) (pre held post a b : List Scan)
    (hd : 0 ≤ d) (hr : 0 ≤ r) (hw : (t0 : Int) + d + r + d < (ULONG_MOD : Int))
    (hpre : ∀ s ∈ pre, s.pressed = false)
    (hheld : ∀ s ∈ held, s.pressed = true ∧ (s.t : Int) < t0 + d + r)
    (hpost : ∀ s ∈ post, s.pressed = false)
    (hab : pre ++ ⟨t0, true⟩ :: (held ++ post) = a ++ b) :
    (runCell d r p KeyState.init a).1 = KeyState.init ∨
    ∃ f, shortPressState d r t0 (runCell d r p KeyState.init a).1 f := by
  have hpd : shortPressState d r t0 ⟨KeyMode.kmPressDebounce, uaddLong t0 d⟩ false :=
    Or.inl ⟨rfl, Or.inl rfl⟩
  rcases List.append_eq_append_iff.1 hab with ⟨c, rfl, hc⟩ | ⟨c, rfl, -⟩
  · -- `a` reaches the end of `pre`
    rcases c with _ | ⟨s1, c⟩
    · left
      rw [List.append_nil, runCell_released_idle d r p KeyState.init pre rfl hpre]
    · right
      rw [runCell_append, runCell_released_idle d r p KeyState.init pre rfl hpre]
      simp only [List.cons_append, List.cons.injEq] at hc
      obtain ⟨rfl, hc⟩ := hc
      simp only [runCell, cellStep, KeyState.init, if_true]
      rcases List.append_eq_append_iff.1 hc with ⟨c2, rfl, hc2⟩ | ⟨c2, rfl, -⟩
      · rw [runCell_append]
        obtain ⟨g1, -⟩ := shortPress_held d r p t0 _ held hd hr hw hpd hheld
        obtain ⟨f, g2, -⟩ := shortPress_unpressed d r p t0 _ false c2 g1
          (fun s hs => hpost s (hc2 ▸ List.mem_append_left _ hs))
        exact ⟨f, g2⟩
      · obtain ⟨g1, -⟩ := shortPress_held d r p t0 _ c hd hr hw hpd
          (fun s hs => hheld s (List.mem_append_left _ hs))
        exact ⟨false, g1⟩
  · left
    rw [runCell_released_idle d r p KeyState.init a rfl
      (fun s hs => hpre s (List.mem_append_left _ hs))]

theorem shortPress_tail (d r p : Int) (t0 : Nat) (ks : KeyState) (f : Bool) (y z : Scan)
    (post2 : List Scan) (hd : 0 ≤ d) (hw : (t0 : Int) + d < (ULONG_MOD : Int))
    (hks : shortPressState d r t0 ks f) (hy : (t0 : Int) + d ≤ y.t)
    (hl : ∀ s ∈ y :: z :: post2, s.pressed = false) :
    (runCell d r p ks (y :: z :: post2)).2 = if f then [] else [KeyAction.kaRelease] := by
  have c1 := uaddLong_cast t0 d (by omega) (by omega)
  have hy1 : uaddLong t0 d ≤ y.t := by omega
  have hyp : y.pressed = false := hl y (List.mem_cons_self _ _)
  have hzp : z.pressed = false := hl z (List.mem_cons_of_mem _ (List.mem_cons_self _ _))
  have hp2 : ∀ s ∈ post2, s.pressed = false :=
    fun s hs => hl s (List.mem_cons_of_mem _ (List.mem_cons_of_mem _ hs))
  have settle : ∀ (ks1 : KeyState) (l : List Scan), shortPressState d r t0 ks1 true →
      (∀ s ∈ l, s.pressed = false) → (runCell d r p ks1 l).2 = [] := by
    intro ks1 l h1 h2
    obtain ⟨b1, -, g⟩ := shortPress_unpressed d r p t0 ks1 true l h1 h2
    rcases g with ⟨-, g⟩ | ⟨g, -⟩
    · exact g
    · simp at g
  have hrd : shortPressState d r t0
      ⟨KeyMode.kmReleaseDebounce, uaddLong (uaddLong (uaddLong t0 d) r) d⟩ true :=
    Or.inr ⟨rfl, Or.inl rfl⟩
  have stepP : ∀ s : Scan, s.pressed = false →
      cellStep d r p s.t s.pressed ⟨KeyMode.kmPressed, uaddLong (uaddLong t0 d) r⟩ =
        (⟨KeyMode.kmReleaseDebounce, uaddLong (uaddLong (uaddLong t0 d) r) d⟩,
          some KeyAction.kaRelease) := by
    intro s hs
    simp [cellStep, hs]
  have stepD : cellStep d r p y.t y.pressed ⟨KeyMode.kmPressDebounce, uaddLong t0 d⟩ =
      (⟨KeyMode.kmPressed, uaddLong (uaddLong t0 d) r⟩, none) := by
    simp [cellStep, hy1]
  rcases hks with ⟨rfl, rfl | rfl⟩ | ⟨rfl, h⟩
  · rw [runCell_cons, stepD, runCell_cons, stepP z hzp, settle _ post2 hrd hp2]
    rfl
  · rw [runCell_cons, stepP y hyp,
      settle _ (z :: post2) hrd (fun s hs => hl s (List.mem_cons_of_mem _ hs))]
    rfl
  · rw [settle ks (y :: z :: post2) (Or.inr ⟨rfl, h⟩) hl]
    rfl

/-- C10 (amended): a cell that starts `Released` reads pressed for the first
time at a scan at time `t0`, reads pressed only on scans before
`t0 + debounceTime + repeatDelayTime`, and then reads not pressed on scans
that go on for at least one scan past a scan at or after `t0 + debounceTime`
(delays non-negative, deadlines not wrapping).  Then the scan at `t0` hands a
`Press` to `putAction`; over the whole sequence exactly `Press, Release` are
handed over (no `Repeat`); the cell is never `Repeating`; and the scan that
hands over the `Release` is the one that takes the cell from `Pressed` to
`ReleaseDebounce` and sets the deadline
`t0 + 2 * debounceTime + repeatDelayTime`, so the `Release` is enqueued when
the release-debounce window opens. -/
theorem cell_short_press (d r p : Int) (t0 : Nat) (pre held post1 post2 : List Scan)
    (y z : Scan) (hd : 0 ≤ d) (hr : 0 ≤ r)
    (hw : (t0 : Int) + d + r + d < (ULONG_MOD : Int))
    (hpre : ∀ s ∈ pre, s.pressed = false)
    (hheld : ∀ s ∈ held, s.pressed = true ∧ (s.t : Int) < t0 + d + r)
    (hpost : ∀ s ∈ post1 ++ y :: z :: post2, s.pressed = false)
    (hy : (t0 : Int) + d ≤ y.t) :
    (runCell d r p KeyState.init pre).2 = [] ∧
    (runCell d r p KeyState.init (pre ++ [⟨t0, true⟩])).2 = [KeyAction.kaPress] ∧
    (runCell d r p KeyState.init
      (pre ++ ⟨t0, true⟩ :: (held ++ (post1 ++ y :: z :: post2)))).2 =
        [KeyAction.kaPress, KeyAction.kaRelease] ∧
    (∀ a b, pre ++ ⟨t0, true⟩ :: (held ++ (post1 ++ y :: z :: post2)) = a ++ b →
      (runCell d r p KeyState.init a).1.m_mode ≠ KeyMode.kmRepeating) ∧
    (∀ a w b, pre ++ ⟨t0, true⟩ :: (held ++ (post1 ++ y :: z :: post2)) = a ++ w :: b →
      (cellStep d r p w.t w.pressed (runCell d r p KeyState.init a).1).2 =
        some KeyAction.kaRelease →
      (runCell d r p KeyState.init a).1.m_mode = KeyMode.kmPressed ∧
      (runCell d r p KeyState.init (a ++ [w])).1.m_mode = KeyMode.kmReleaseDebounce ∧
      ((runCell d r p KeyState.init (a ++ [w])).1.m_nextEvent : Int) = t0 + d + r + d) := by
  have c1 := uaddLong_cast t0 d (by omega) (by omega)
  have c2 := uaddLong_cast (uaddLong t0 d) r (by omega) (by omega)
  have c3 := uaddLong_cast (uaddLong (uaddLong t0 d) r) d (by omega) (by omega)
  have hpre1 := runCell_released_idle d r p KeyState.init pre rfl hpre
  have hpd : shortPressState d r t0 ⟨KeyMode.kmPressDebounce, uaddLong t0 d⟩ false :=
    Or.inl ⟨rfl, Or.inl rfl⟩
  refine ⟨by rw [hpre1], ?_, ?_, ?_, ?_⟩
  · rw [runCell_append, hpre1]
    simp [runCell, cellStep, KeyState.init]
  · rw [runCell_append, hpre1]
    simp only [runCell, cellStep, KeyState.init, if_true, List.nil_append, Option.toList]
    rw [runCell_append]
    obtain ⟨g1, g2⟩ := shortPress_held d r p t0 _ held hd hr hw hpd hheld
    rw [g2, runCell_append]
    obtain ⟨f, k1, k2⟩ := shortPress_unpressed d r p t0 _ false post1 g1
      (fun s hs => hpost s (List.mem_append_left _ hs))
    have k3 := shortPress_tail d r p t0 _ f y z post2 hd (by omega) k1 hy
      (fun s hs => hpost s (List.mem_append_right _ hs))
    simp only at k3 ⊢
    rw [k3]
    rcases k2 with ⟨rfl, k2⟩ | ⟨-, rfl, k2⟩ <;> simp [k2]
  · intro a b hab
    rcases shortPress_trajectory d r p t0 pre held _ a b hd hr hw hpre hheld hpost hab with h | ⟨f, h⟩
    · rw [h]; simp [KeyState.init]
    · exact shortPressState_mode d r t0 _ f h
  · intro a w b hab hrel
    obtain ⟨-, hm, hst⟩ := cellStep_release d r p w.t w.pressed _ hrel
    have hlast : (runCell d r p KeyState.init (a ++ [w])).1 =
        (cellStep d r p w.t w.pressed (runCell d r p KeyState.init a).1).1 := by
      rw [runCell_append]; rfl
    rw [hlast, hst]
    rcases shortPress_trajectory d r p t0 pre held _ a (w :: b) hd hr hw hpre hheld hpost hab
      with h | ⟨f, ⟨-, h | h⟩ | ⟨-, h | h⟩⟩ <;> rw [h] at hm ⊢ <;>
      simp [KeyState.init] at hm ⊢
    omega

/-! ## Theorems: the scan loop seen from one cell -/

theorem kindsAt_append (k : Nat) (l1 l2 : List Action) :
    kindsAt k (l1 ++ l2) = kindsAt k l1 ++ kindsAt k l2 := by
  simp [kindsAt]

theorem Keyboard.scanKey_config (kb : Keyboard) (t : Nat) (pressed : Nat → Nat → Bool) (i : Nat)
    (s : Keyboard × List Action) (j : Nat) (h : kb.SameConfig s.1) :
    kb.SameConfig (Keyboard.scanKey t pressed i s j).1 := by
  unfold Keyboard.scanKey
  simp only
  split <;> exact h

/-- The step of `scanKey` seen from the cell `k`: untouched when the key
visited has another index, stepped by `cellStep` when it has index `k`. -/
theorem Keyboard.scanKey_cell (kb : Keyboard) (t : Nat) (pressed : Nat → Nat → Bool) (i : Nat)
    (s : Keyboard × List Action) (j k : Nat) (h : kb.SameConfig s.1) :
    ((Keyboard.scanKey t pressed i s j).1.m_keyState k,
      kindsAt k (Keyboard.scanKey t pressed i s j).2) =
    if kb.keyIndex i j = k then
      ((cellStep kb.m_debounceTime kb.m_repeatDelayTime kb.m_repeatTime t (pressed i j)
          (s.1.m_keyState k)).1,
        kindsAt k s.2 ++
          (cellStep kb.m_debounceTime kb.m_repeatDelayTime kb.m_repeatTime t (pressed i j)
            (s.1.m_keyState k)).2.toList)
    else (s.1.m_keyState k, kindsAt k s.2) := by
  obtain ⟨h1, -, -, -, -, h6, h7, h8⟩ := h
  have hidx : s.1.keyIndex i j = kb.keyIndex i j := by simp [Keyboard.keyIndex, h1]
  unfold Keyboard.scanKey
  simp only [hidx, h6, h7, h8]
  by_cases hk : kb.keyIndex i j = k
  · subst hk
    simp only [if_true]
    split
    · rename_i he
      simp [setAt, he]
    · rename_i ka he
      simp [setAt, he, Keyboard.putAction, kindsAt]
  · simp only [if_neg hk]
    have hk' : ¬ k = kb.keyIndex i j := fun e => hk e.symm
    split
    · simp [setAt, hk']
    · simp [setAt, hk', Keyboard.putAction, kindsAt, hk]

theorem Keyboard.scanRow_cell (kb : Keyboard) (t : Nat) (pressed : Nat → Nat → Bool)
    (i i0 j0 : Nat) (js : List Nat) (hnd : js.Nodup)
    (huniq : ∀ j ∈ js, kb.keyIndex i j = kb.keyIndex i0 j0 → i = i0 ∧ j = j0)
    (s : Keyboard × List Action) (hcfg : kb.SameConfig s.1) :
    kb.SameConfig (js.foldl (Keyboard.scanKey t pressed i) s).1 ∧
    ((js.foldl (Keyboard.scanKey t pressed i) s).1.m_keyState (kb.keyIndex i0 j0),
      kindsAt (kb.keyIndex i0 j0) (js.foldl (Keyboard.scanKey t pressed i) s).2) =
    if i = i0 ∧ j0 ∈ js then
      ((cellStep kb.m_debounceTime kb.m_repeatDelayTime kb.m_repeatTime t (pressed i0 j0)
          (s.1.m_keyState (kb.keyIndex i0 j0))).1,
        kindsAt (kb.keyIndex i0 j0) s.2 ++
          (cellStep kb.m_debounceTime kb.m_repeatDelayTime kb.m_repeatTime t (pressed i0 j0)
            (s.1.m_keyState (kb.keyIndex i0 j0))).2.toList)
    else (s.1.m_keyState (kb.keyIndex i0 j0), kindsAt (kb.keyIndex i0 j0) s.2) := by
  induction js generalizing s with
  | nil => exact ⟨hcfg, by simp⟩
  | cons j js ih =>
    obtain ⟨hj, hnd1⟩ := List.nodup_cons.1 hnd
    have hc1 := Keyboard.scanKey_config kb t pressed i s j hcfg
    obtain ⟨g1, g2⟩ := ih hnd1 (fun j1 h1 => huniq j1 (List.mem_cons_of_mem _ h1))
      (Keyboard.scanKey t pressed i s j) hc1
    refine ⟨g1, ?_⟩
    rw [List.foldl_cons, g2]
    have hcell := Keyboard.scanKey_cell kb t pressed i s j (kb.keyIndex i0 j0) hcfg
    rw [Prod.ext_iff] at hcell
    simp only at hcell
    by_cases hk : kb.keyIndex i j = kb.keyIndex i0 j0
    · obtain ⟨rfl, rfl⟩ := huniq j (List.mem_cons_self _ _) hk
      simp only [if_true] at hcell
      simp [hj, hcell.1, hcell.2]
    · simp only [if_neg hk] at hcell
      have hne : ¬ (i = i0 ∧ j0 = j) := by
        rintro ⟨rfl, rfl⟩
        exact hk rfl
      by_cases hi : i = i0
      · subst hi
        have hjj : ¬ j0 = j := fun e => hne ⟨rfl, e⟩
        simp [hcell.1, hcell.2, hjj]
      · simp [hcell.1, hcell.2, hi]

theorem Keyboard.scanRows_cell (kb : Keyboard) (t : Nat) (pressed : Nat → Nat → Bool)
    (i0 j0 : Nat) (rows : List Nat) (hnd : rows.Nodup) (hj0 : j0 < kb.m_noInPins)
    (huniq : ∀ i ∈ rows, ∀ j, j < kb.m_noInPins →
      kb.keyIndex i j = kb.keyIndex i0 j0 → i = i0 ∧ j = j0)
    (s : Keyboard × List Action) (hcfg : kb.SameConfig s.1) :
    kb.SameConfig (rows.foldl
      (fun s i => (List.range s.1.m_noInPins).foldl (Keyboard.scanKey t pressed i) s) s).1 ∧
    ((rows.foldl
        (fun s i => (List.range s.1.m_noInPins).foldl (Keyboard.scanKey t pressed i) s)
        s).1.m_keyState (kb.keyIndex i0 j0),
      kindsAt (kb.keyIndex i0 j0) (rows.foldl
        (fun s i => (List.range s.1.m_noInPins).foldl (Keyboard.scanKey t pressed i) s) s).2) =
    if i0 ∈ rows then
      ((cellStep kb.m_debounceTime kb.m_repeatDelayTime kb.m_repeatTime t (pressed i0 j0)
          (s.1.m_keyState (kb.keyIndex i0 j0))).1,
        kindsAt (kb.keyIndex i0 j0) s.2 ++
          (cellStep kb.m_debounceTime kb.m_repeatDelayTime kb.m_repeatTime t (pressed i0 j0)
            (s.1.m_keyState (kb.keyIndex i0 j0))).2.toList)
    else (s.1.m_keyState (kb.keyIndex i0 j0), kindsAt (kb.keyIndex i0 j0) s.2) := by
  induction rows generalizing s with
  | nil => exact ⟨hcfg, by simp⟩
  | cons i rows ih =>
    obtain ⟨hi, hnd1⟩ := List.nodup_cons.1 hnd
    have hC : s.1.m_noInPins = kb.m_noInPins := hcfg.2.1
    obtain ⟨r1, r2⟩ := Keyboard.scanRow_cell kb t pressed i i0 j0 (List.range s.1.m_noInPins)
      (List.nodup_range _)
      (fun j hj => huniq i (List.mem_cons_self _ _) j (by rw [← hC]; exact List.mem_range.1 hj))
      s hcfg
    obtain ⟨g1, g2⟩ := ih hnd1 (fun i1 h1 => huniq i1 (List.mem_cons_of_mem _ h1)) _ r1
    refine ⟨g1, ?_⟩
    rw [List.foldl_cons, g2]
    rw [Prod.ext_iff] at r2
    simp only at r2
    have hj0' : j0 ∈ List.range s.1.m_noInPins := by rw [hC]; exact List.mem_range.2 hj0
    by_cases hii : i = i0
    · subst hii
      simp only [true_and, hj0', if_true] at r2
      simp [hi, r2.1, r2.2]
    · have hii' : ¬ i0 = i := fun e => hii e.symm
      simp only [hii, false_and, if_false] at r2
      simp [r2.1, r2.2, hii']

/-- One call of `loop` seen from the cell of a key that is visited once: the
cell makes one `cellStep` with the reading of that key, and the action logged
for its index, if any, is the one that step reports. -/
theorem Keyboard.loopLog_cell (kb : Keyboard) (t millis : Nat) (pressed : Nat → Nat → Bool)
    (i0 j0 : Nat) (hv : kb.visitedOnce i0 j0) :
    ((kb.loopLog t millis pressed).1.m_keyState (kb.keyIndex i0 j0),
      kindsAt (kb.keyIndex i0 j0) (kb.loopLog t millis pressed).2) =
    ((cellStep kb.m_debounceTime kb.m_repeatDelayTime kb.m_repeatTime
        (if t = 0 then millis else t) (pressed i0 j0) (kb.m_keyState (kb.keyIndex i0 j0))).1,
      (cellStep kb.m_debounceTime kb.m_repeatDelayTime kb.m_repeatTime
        (if t = 0 then millis else t) (pressed i0 j0)
        (kb.m_keyState (kb.keyIndex i0 j0))).2.toList) := by
  obtain ⟨h1, h2, h3⟩ := hv
  obtain ⟨-, g⟩ := Keyboard.scanRows_cell kb (if t = 0 then millis else t) pressed i0 j0
    (List.range kb.m_noOutPins) (List.nodup_range _) h2
    (fun i hi j hj => h3 i j (List.mem_range.1 hi) hj) (kb, [])
    ⟨rfl, rfl, rfl, rfl, rfl, rfl, rfl, rfl⟩
  unfold Keyboard.loopLog
  simp only at g ⊢
  rw [g, if_pos (List.mem_range.2 h1)]
  simp [kindsAt]

/-- The scan loop and the cell machine agree: over any sequence of `loop`
calls, the cell of a key that is visited once per scan and the kinds of the
actions logged for its index are those of `runCell` on the readings of that
key. -/
theorem Keyboard.loops_cell (kb : Keyboard) (i0 j0 : Nat) (cs : List ScanCall)
    (hv : kb.visitedOnce i0 j0) :
    ((kb.loops cs).1.m_keyState (kb.keyIndex i0 j0),
      kindsAt (kb.keyIndex i0 j0) (kb.loops cs).2) =
    runCell kb.m_debounceTime kb.m_repeatDelayTime kb.m_repeatTime
      (kb.m_keyState (kb.keyIndex i0 j0)) (cs.map (fun c => c.seenBy i0 j0)) := by
  induction cs generalizing kb with
  | nil => simp [Keyboard.loops, runCell, kindsAt]
  | cons c cs ih =>
    obtain ⟨⟨c1, c2, -, -, -, c6, c7, c8⟩, -, -, -⟩ := kb.loopLog_inv c.t c.millis c.pressed
    have hidx : ∀ i j, (kb.loopLog c.t c.millis c.pressed).1.keyIndex i j = kb.keyIndex i j := by
      intro i j; simp [Keyboard.keyIndex, c1]
    have hv1 : (kb.loopLog c.t c.millis c.pressed).1.visitedOnce i0 j0 := by
      obtain ⟨h1, h2, h3⟩ := hv
      refine ⟨by rw [c1]; exact h1, by rw [c2]; exact h2, ?_⟩
      intro i j hi hj
      rw [hidx, hidx]
      exact h3 i j (by rw [← c1]; exact hi) (by rw [← c2]; exact hj)
    have h1 := ih (kb.loopLog c.t c.millis c.pressed).1 hv1
    have h2 := Keyboard.loopLog_cell kb c.t c.millis c.pressed i0 j0 hv
    rw [Prod.ext_iff] at h1 h2
    simp only [hidx, c6, c7, c8] at h1 h2
    simp only [Keyboard.loops, List.map_cons, runCell, kindsAt_append, ScanCall.seenBy]
    rw [Prod.ext_iff]
    simp only
    rw [h1.1, h1.2, h2.1, h2.2]
    exact ⟨rfl, rfl⟩

/-! ## Theorems: witnesses and evaluations on sample inputs -/

theorem Keyboard.visitedOnce_of_le (kb : Keyboard) (i0 j0 : Nat) (hi : i0 < kb.m_noOutPins)
    (hj : j0 < kb.m_noInPins) (hle : kb.m_noInPins ≤ kb.m_noOutPins) :
    kb.visitedOnce i0 j0 := by
  refine ⟨hi, hj, ?_⟩
  intro i j _ hj1 h
  unfold Keyboard.keyIndex at h
  have hR : 0 < kb.m_noOutPins := by omega
  have e1 : (i * kb.m_noOutPins + j) / kb.m_noOutPins = i := by
    rw [Nat.add_comm, Nat.add_mul_div_right _ _ hR, Nat.div_eq_of_lt (by omega), Nat.zero_add]
  have e2 : (i0 * kb.m_noOutPins + j0) / kb.m_noOutPins = i0 := by
    rw [Nat.add_comm, Nat.add_mul_div_right _ _ hR, Nat.div_eq_of_lt (by omega), Nat.zero_add]
  have hii : i = i0 := by rw [← e1, ← e2, h]
  subst hii
  exact ⟨rfl, by omega⟩

/-- The buffer filled with eight actions is reachable. -/
theorem sampleFullBuffer_reachable : sampleFullBuffer.Reachable :=
  ActionBuffer.Reachable.put _ (ActionBuffer.Reachable.put _ (ActionBuffer.Reachable.put _
    (ActionBuffer.Reachable.put _ (ActionBuffer.Reachable.put _ (ActionBuffer.Reachable.put _
    (ActionBuffer.Reachable.put _ (ActionBuffer.Reachable.put _
    (ActionBuffer.Reachable.init sampleMem))))))))

/-- The hypothesis of `refines_bounded_fifo` holds of the buffer filled with
eight actions, on which a further `put` overflows. -/
theorem ActionBuffer.refines_bounded_fifo_witness :
    sampleFullBuffer.Reachable ∧
    (sampleFullBuffer.abs.length ≤ KEY_ROLLOVER - 1 ∧
    ((sampleFullBuffer.put ⟨9, true, KeyAction.kaRepeat⟩).1,
      (sampleFullBuffer.put ⟨9, true, KeyAction.kaRepeat⟩).2.abs) =
      BoundedFifo.put sampleFullBuffer.abs ⟨9, true, KeyAction.kaRepeat⟩ ∧
    ((sampleFullBuffer.put ⟨9, true, KeyAction.kaRepeat⟩).1 = false ↔
      sampleFullBuffer.abs.length = KEY_ROLLOVER - 1) ∧
    (sampleFullBuffer.get.1, sampleFullBuffer.get.2.abs) =
      BoundedFifo.get sampleFullBuffer.abs ∧
    (sampleFullBuffer.abs = [] → sampleFullBuffer.get = (none, sampleFullBuffer)) ∧
    sampleFullBuffer.clear.abs = BoundedFifo.clear sampleFullBuffer.abs) :=
  ⟨sampleFullBuffer_reachable,
    ActionBuffer.refines_bounded_fifo sampleFullBuffer ⟨9, true, KeyAction.kaRepeat⟩
      sampleFullBuffer_reachable⟩

/-- The hypotheses of `overflow_drops_oldest_only` hold of the freshly
constructed buffer and nine actions with different indices. -/
theorem ActionBuffer.overflow_drops_oldest_only_witness :
    (ActionBuffer.init sampleMem).Reachable ∧
    (ActionBuffer.init sampleMem).m_in = (ActionBuffer.init sampleMem).m_out ∧
    sampleActions.length = KEY_ROLLOVER ∧
    ((ActionBuffer.getN KEY_ROLLOVER ((ActionBuffer.init sampleMem).putAll sampleActions)).1 =
        sampleActions.tail.map some ++ [none] ∧
    (ActionBuffer.getN (KEY_ROLLOVER - 1)
        ((ActionBuffer.init sampleMem).putAll sampleActions)).1 = sampleActions.tail.map some ∧
    ((ActionBuffer.getN (KEY_ROLLOVER - 1)
        ((ActionBuffer.init sampleMem).putAll sampleActions)).2.get).1 = none) :=
  ⟨ActionBuffer.Reachable.init sampleMem, rfl, by decide,
    ActionBuffer.overflow_drops_oldest_only (ActionBuffer.init sampleMem) sampleActions
      (ActionBuffer.Reachable.init sampleMem) rfl (by decide)⟩

/-- The hypotheses of `cell_press_hold_release` hold of a press held from 100
to 440 under the default times, which gives two `Repeat` actions. -/
theorem cell_press_hold_release_witness :
    ((∀ s ∈ [(⟨50, false⟩ : Scan)], s.pressed = false) ∧
     (∀ s ∈ [(⟨100, true⟩ : Scan), ⟨120, true⟩, ⟨420, true⟩, ⟨440, true⟩], s.pressed = true) ∧
     (∀ s ∈ [(⟨450, false⟩ : Scan)], s.pressed = false) ∧
     (∀ s ∈ [(⟨600, false⟩ : Scan)], s.pressed = false)) ∧
    ∃ k : Nat,
      (runCell 20 300 20 KeyState.init
        ([⟨50, false⟩] ++ [⟨100, true⟩, ⟨120, true⟩, ⟨420, true⟩, ⟨440, true⟩] ++
          [⟨450, false⟩] ++ ⟨500, false⟩ :: [⟨600, false⟩])).2 =
        KeyAction.kaPress :: (List.replicate k KeyAction.kaRepeat ++ [KeyAction.kaRelease]) ∧
      (runCell 20 300 20 KeyState.init
        ([⟨50, false⟩] ++ [⟨100, true⟩, ⟨120, true⟩, ⟨420, true⟩, ⟨440, true⟩] ++
          [⟨450, false⟩] ++ ⟨500, false⟩ :: [⟨600, false⟩])).1.m_mode = KeyMode.kmReleased :=
  ⟨⟨by decide, by decide, by decide, by decide⟩,
    cell_press_hold_release 20 300 20 [⟨50, false⟩]
      [⟨100, true⟩, ⟨120, true⟩, ⟨420, true⟩, ⟨440, true⟩] [⟨450, false⟩] [⟨600, false⟩]
      ⟨500, false⟩ (by decide) (by decide) (by decide) (by decide) (by decide) (by decide)
      (by decide)⟩

/-- C10 (as stated, refuted): with the default times, a key first read
pressed at 100 and read not pressed at 130 has its `Release` handed to
`putAction` by the scan at 130, which leaves the cell in `ReleaseDebounce`
with deadline 440; the release-debounce window only elapses at the scan at
440, which hands over nothing more. -/
theorem cell_short_press_release_early :
    runCell 20 300 20 KeyState.init [⟨100, true⟩, ⟨120, true⟩, ⟨130, false⟩] =
      (⟨KeyMode.kmReleaseDebounce, 440⟩, [KeyAction.kaPress, KeyAction.kaRelease]) ∧
    130 < 440 ∧
    runCell 20 300 20 KeyState.init
        [⟨100, true⟩, ⟨120, true⟩, ⟨130, false⟩, ⟨200, false⟩, ⟨440, false⟩] =
      (⟨KeyMode.kmReleased, 0⟩, [KeyAction.kaPress, KeyAction.kaRelease]) := by
  decide

/-- The hypotheses of `cell_short_press` hold of a press from 100 to 120 under
the default times. -/
theorem cell_short_press_witness :
    ((0 : Int) ≤ 20 ∧ (0 : Int) ≤ 300 ∧
     ((100 : Nat) : Int) + 20 + 300 + 20 < (ULONG_MOD : Int) ∧
     (∀ s ∈ [(⟨50, false⟩ : Scan)], s.pressed = false) ∧
     (∀ s ∈ [(⟨110, true⟩ : Scan), ⟨120, true⟩],
       s.pressed = true ∧ (s.t : Int) < ((100 : Nat) : Int) + 20 + 300) ∧
     (∀ s ∈ [(⟨130, false⟩ : Scan)] ++ ⟨200, false⟩ :: ⟨450, false⟩ :: [⟨500, false⟩],
       s.pressed = false) ∧
     ((100 : Nat) : Int) + 20 ≤ ((⟨200, false⟩ : Scan).t : Int)) ∧
    (runCell 20 300 20 KeyState.init
      ([⟨50, false⟩] ++ ⟨100, true⟩ :: ([⟨110, true⟩, ⟨120, true⟩] ++
        ([⟨130, false⟩] ++ ⟨200, false⟩ :: ⟨450, false⟩ :: [⟨500, false⟩])))).2 =
      [KeyAction.kaPress, KeyAction.kaRelease] :=
  ⟨⟨by decide, by decide, by decide, by decide, by decide, by decide, by decide⟩,
    (cell_short_press 20 300 20 100 [⟨50, false⟩] [⟨110, true⟩, ⟨120, true⟩] [⟨130, false⟩]
      [⟨500, false⟩] ⟨200, false⟩ ⟨450, false⟩ (by decide) (by decide) (by decide) (by decide)
      (by decide) (by decide) (by decide)).2.2.1⟩

/-- C4 (as stated, refuted): under `SHIFT_ONE` on the sample keyboard (shift
key `A` at index 3, shifted map configured, latch clear), with the presses
scanned in the order shift, key 0, key 1.  When key 0 is scanned before the
shift press is resolved, `getKey` returns the unshifted `1` for it, not the
shifted `a`.  When key 1 is scanned before key 0 is resolved, `getKey`
returns the shifted `b` for it, not the unshifted `2`.  And when the shifted
map holds the shift key character at index 0, `getKey` returns no character
for key 0 even with every press resolved before the next is scanned. -/
theorem Keyboard.oneShot_interleaving_counterexample :
    cstrAt sampleShiftMap 0 = some 'a' ∧ cstrAt sampleKeyMap 1 = some '2' ∧
    ((sampleKeyboard (some sampleShiftMap)).run ShiftPolicy.SHIFT_ONE
      [Call.loop 100 0 (keysDown [(0, 3)]), Call.loop 150 0 (keysDown [(0, 0)]),
        Call.getKey, Call.getKey,
        Call.loop 200 0 (keysDown [(0, 1)]), Call.getKey]).map Prod.fst =
      some [NUL, '1', '2'] ∧
    ((sampleKeyboard (some sampleShiftMap)).run ShiftPolicy.SHIFT_ONE
      [Call.loop 100 0 (keysDown [(0, 3)]), Call.getKey,
        Call.loop 150 0 (keysDown [(0, 0)]), Call.loop 200 0 (keysDown [(0, 1)]),
        Call.getKey, Call.getKey]).map Prod.fst =
      some [NUL, 'a', 'b'] ∧
    ((sampleKeyboard (some clashShiftMap)).run ShiftPolicy.SHIFT_ONE
      [Call.loop 100 0 (keysDown [(0, 3)]), Call.getKey,
        Call.loop 150 0 (keysDown [(0, 0)]), Call.getKey,
        Call.loop 200 0 (keysDown [(0, 1)]), Call.getKey]).map Prod.fst =
      some [NUL, NUL, '2'] := by
  decide

/-- The alternating order run on the sample keyboard under `SHIFT_ONE`: shift,
`getKey`, key 0, `getKey`, key 1, `getKey`.  The three `getKey` calls return
no character, `a` and `2`, and the latch ends clear. -/
theorem Keyboard.oneShot_alternating_run :
    ((sampleKeyboard (some sampleShiftMap)).run ShiftPolicy.SHIFT_ONE
      [Call.loop 100 0 (keysDown [(0, 3)]), Call.getKey,
        Call.loop 150 0 (keysDown [(0, 0)]), Call.getKey,
        Call.loop 200 0 (keysDown [(0, 1)]), Call.getKey]).map
      (fun r => (r.1, r.2.m_shifted)) = some ([NUL, 'a', '2'], false) := by
  decide

/-- C5: under `SHIFT_ONE` with a shifted map that has another character (`d`)
at the index of the shift key, the shift key is pressed, released and pressed
again with no other key touched, each action resolved before the next is
scanned.  The second press is scanned with the latch set, is looked up in the
shifted map and `getKey` returns `d` for it instead of no character. -/
theorem Keyboard.oneShot_second_shift_emits :
    ((sampleKeyboard (some plainShiftMap)).run ShiftPolicy.SHIFT_ONE
      [Call.loop 100 0 (keysDown [(0, 3)]), Call.getKey,
        Call.loop 500 0 (keysDown []), Call.loop 501 0 (keysDown []), Call.getKey,
        Call.loop 600 0 (keysDown []),
        Call.loop 700 0 (keysDown [(0, 3)]), Call.getKey]).map
      (fun r => (r.1, r.2.m_shifted)) = some ([NUL, NUL, 'd'], false) ∧
    ((sampleKeyboard (some plainShiftMap)).run ShiftPolicy.SHIFT_ONE
      [Call.loop 100 0 (keysDown [(0, 3)]), Call.getKey,
        Call.loop 500 0 (keysDown []), Call.loop 501 0 (keysDown []), Call.getKey,
        Call.loop 600 0 (keysDown [])]).map
      (fun r => (r.2.loopLog 700 0 (keysDown [(0, 3)])).2) =
      some [⟨3, true, KeyAction.kaPress⟩] := by
  decide

/-- C6: under `SHIFT_LOCK` with a shifted map that has another character
(`d`) at the index of the shift key: shift press, press of key 0, second
shift press, press of key 1, each resolved before the next is scanned.  The
second shift press returns `d` and leaves the latch set, and key 1 then
resolves to the shifted `b` instead of the unshifted `2`. -/
theorem Keyboard.lock_second_shift_emits :
    ((sampleKeyboard (some plainShiftMap)).run ShiftPolicy.SHIFT_LOCK
      [Call.loop 100 0 (keysDown [(0, 3)]), Call.getKey,
        Call.loop 150 0 (keysDown [(0, 0)]), Call.getKey,
        Call.loop 160 0 (keysDown []), Call.getKey,
        Call.loop 500 0 (keysDown []), Call.loop 501 0 (keysDown []), Call.getKey,
        Call.loop 900 0 (keysDown []),
        Call.loop 1000 0 (keysDown [(0, 3)]), Call.getKey,
        Call.loop 1100 0 (keysDown [(0, 1)]), Call.getKey]).map
      (fun r => (r.1, r.2.m_shifted)) = some ([NUL, 'a', NUL, NUL, 'd', 'b'], true) := by
  decide

/-- C7: under `SHIFT_HOLD` with a shifted map that has another character
(`d`) at the index of the shift key: the shift key is pressed and resolved,
key 0 is pressed while shift is held and resolves to the shifted `a`, then
the shift key is released.  Its `Release` is scanned with the latch set
(shift flag `true`), is looked up in the shifted map, does not match the
shift key, and the latch stays set. -/
theorem Keyboard.hold_release_keeps_latch :
    ((sampleKeyboard (some plainShiftMap)).run ShiftPolicy.SHIFT_HOLD
      [Call.loop 100 0 (keysDown [(0, 3)]), Call.getKey,
        Call.loop 150 0 (keysDown [(0, 3), (0, 0)]), Call.getKey,
        Call.loop 160 0 (keysDown [(0, 0)]), Call.getKey]).map
      (fun r => (r.1, r.2.m_shifted)) = some ([NUL, 'a', NUL], true) ∧
    ((sampleKeyboard (some plainShiftMap)).run ShiftPolicy.SHIFT_HOLD
      [Call.loop 100 0 (keysDown [(0, 3)]), Call.getKey,
        Call.loop 150 0 (keysDown [(0, 3), (0, 0)]), Call.getKey]).map
      (fun r => (r.2.loopLog 160 0 (keysDown [(0, 0)])).2) =
      some [⟨3, true, KeyAction.kaRelease⟩] := by
  decide

/-- The hypothesis of `off_policy_unshifted` holds of the sample keyboard
after a scan that enqueues the press of the key `A`. -/
theorem Keyboard.off_policy_unshifted_witness :
    Keyboard.Reachable ShiftPolicy.SHIFT_OFF
      ((sampleKeyboard none).loop 100 0 (keysDown [(0, 3)])) ∧
    (((sampleKeyboard none).loop 100 0 (keysDown [(0, 3)])).m_shifted = false ∧
    (∀ a ∈ ((sampleKeyboard none).loop 100 0 (keysDown [(0, 3)])).m_actions.abs,
      a.m_shift = false) ∧
    ∀ a : Action, ((sampleKeyboard none).loop 100 0 (keysDown [(0, 3)])).getAction.1 = some a →
      (a.m_keyAction = KeyAction.kaPress ∨ a.m_keyAction = KeyAction.kaRepeat) →
      ((sampleKeyboard none).loop 100 0 (keysDown [(0, 3)])).getKey ShiftPolicy.SHIFT_OFF =
        (cstrAt ((sampleKeyboard none).loop 100 0 (keysDown [(0, 3)])).m_keyMap a.m_index).map
          (fun c => (c, ((sampleKeyboard none).loop 100 0 (keysDown [(0, 3)])).getAction.2))) :=
  ⟨Keyboard.Reachable.loop 100 0 (keysDown [(0, 3)]) (Keyboard.Reachable.new 4 4 sampleKeyMap
      20 300 20 'A' none (fun _ => KeyState.init) (fun _ => ⟨0, false, KeyAction.kaPress⟩)
      (fun _ _ => true)),
    Keyboard.off_policy_unshifted _
      (Keyboard.Reachable.loop 100 0 (keysDown [(0, 3)]) (Keyboard.Reachable.new 4 4
        sampleKeyMap 20 300 20 'A' none (fun _ => KeyState.init)
        (fun _ => ⟨0, false, KeyAction.kaPress⟩) (fun _ _ => true)))⟩

/-- Under `SHIFT_OFF` the press of the shift key `A` of the sample keyboard
is returned as the character `A`. -/
theorem Keyboard.off_policy_returns_shift_key :
    ((sampleKeyboard none).run ShiftPolicy.SHIFT_OFF
      [Call.loop 100 0 (keysDown [(0, 3)]), Call.getKey]).map Prod.fst = some ['A'] := by
  decide

/-- C9: on a keyboard with 2 rows and 3 columns the index used by the scan is
`i * 2 + j`, not `i * 3 + j`: the intersections `(0, 2)` and `(1, 0)` share
cell 2, and a press at `(1, 0)` is enqueued with index 2 and resolved to the
character of `(0, 2)`. -/
theorem Keyboard.keyIndex_not_row_major :
    twoByThree.m_noOutPins = 2 ∧ twoByThree.m_noInPins = 3 ∧
    twoByThree.keyIndex 0 2 = 2 ∧ twoByThree.keyIndex 1 0 = 2 ∧
    twoByThree.keyIndex 1 0 ≠ 1 * twoByThree.m_noInPins + 0 ∧
    (twoByThree.loopLog 100 0 (keysDown [(1, 0)])).2 = [⟨2, false, KeyAction.kaPress⟩] ∧
    (twoByThree.run ShiftPolicy.SHIFT_OFF [Call.loop 100 0 (keysDown [(1, 0)]), Call.getKey]).map
      Prod.fst = some ['c'] := by
  decide

/-! ## Theorems: Flasher -/

/-- C15: for a running flasher with switch time `s`, `pause()` at clock time
`p` followed by `resume()` at clock time `r ≥ p` leaves the mode `Running`,
leaves `m_on` and `m_listPos` unchanged and sets the switch time to
`s + (r - p)` modulo `2 ^ 32`, so that the time left until the switch is at
`resume` what it was at `pause`; `pause()` on a flasher that is not running
and `resume()` on a flasher that is not paused change nothing. -/
theorem Flasher.pause_resume (f : Flasher) (p r : Nat)
    (hrun : f.m_mode = Flasher.flashMode.modeRunning)
    (hr : r < ULONG_MOD) (hpr : p ≤ r) :
    ((f.pause p).resume r).m_mode = Flasher.flashMode.modeRunning ∧
    ((f.pause p).resume r).m_on = f.m_on ∧
    ((f.pause p).resume r).m_listPos = f.m_listPos ∧
    ((f.pause p).resume r).m_switchTime = (f.m_switchTime + (r - p)) % ULONG_MOD ∧
    usub ((f.pause p).resume r).m_switchTime r = usub f.m_switchTime p ∧
    (∀ g : Flasher, g.m_mode ≠ Flasher.flashMode.modeRunning → g.pause p = g) ∧
    (∀ g : Flasher, g.m_mode ≠ Flasher.flashMode.modePaused → g.resume r = g) := by
  have hM : ULONG_MOD = 4294967296 := by norm_num [ULONG_MOD]
  refine ⟨?_, ?_, ?_, ?_, ?_, ?_, ?_⟩
  · simp [Flasher.pause, Flasher.resume, hrun]
  · simp [Flasher.pause, Flasher.resume, hrun]
  · simp [Flasher.pause, Flasher.resume, hrun]
  · simp only [Flasher.pause, Flasher.resume, hrun, if_true, uadd, usub, hM] at *
    omega
  · simp only [Flasher.pause, Flasher.resume, hrun, if_true, uadd, usub, hM] at *
    omega
  · intro g hg
    simp [Flasher.pause, hg]
  · intro g hg
    simp [Flasher.resume, hg]

/-- The hypotheses of `pause_resume` hold of the sample flasher paused at
1000 and resumed at 1500. -/
theorem Flasher.pause_resume_witness :
    (sampleFlasher.m_mode = Flasher.flashMode.modeRunning ∧ 1500 < ULONG_MOD ∧
      1000 ≤ 1500) ∧
    ((sampleFlasher.pause 1000).resume 1500).m_switchTime = 1600 := by
  have h := Flasher.pause_resume sampleFlasher 1000 1500 rfl (by decide) (by decide)
  exact ⟨⟨rfl, by decide, by decide⟩, by rw [h.2.2.2.1]; decide⟩

/-- C16: `setFLash(100, 200, true)` leaves `m_offTime = 100` where the
constructor `Flasher(pin, 100, 200, true)` sets `m_offTime = 200`, and
`setFLash(100, 0, true)` leaves `m_offTime = 0` where the constructor sets
`m_offTime = 100`: the test on `offTime` in `setFLash` is the reverse of the
constructor's.  The other fields named by the claim agree. -/
theorem Flasher.setFLash_offTime_inverted :
    (sampleFlasher.setFLash 100 200 true).map (fun f => f.m_offTime) = some 100 ∧
    (Flasher.new 13 100 200 true 1000).map (fun f => f.m_offTime) = some 200 ∧
    (sampleFlasher.setFLash 100 0 true).map (fun f => f.m_offTime) = some 0 ∧
    (Flasher.new 13 100 0 true 1000).map (fun f => f.m_offTime) = some 100 ∧
    (sampleFlasher.setFLash 100 200 true).map
        (fun f => (f.m_onTime, f.m_listLength, f.m_listPos, f.m_mode)) =
      some (100, 0, 0, Flasher.flashMode.modeRunning) ∧
    (Flasher.new 13 100 200 true 1000).map
        (fun f => (f.m_onTime, f.m_listLength, f.m_listPos, f.m_mode)) =
      some (100, 0, 0, Flasher.flashMode.modeRunning) ∧
    (sampleFlasher.setFLash 100 200 true).map (fun f => f.m_onOffList) = some none ∧
    (Flasher.new 13 100 200 true 1000).map (fun f => f.m_onOffList) = some none := by
  decide

/-! ## Theorems: construction and index bounds -/

/-- C19: on a keyboard with 3 rows and 1 column, whose table has 3 cells, the
sweep of the constructor and the scan address the indices 0, 3 and 6.  The
constructor overwrites the memory at 3 and 6, a press at `(2, 0)` is enqueued
with index 6, and `getKey` then reads the key map at 6, past its end. -/
theorem Keyboard.keyIndex_out_of_range :
    threeByOne.m_noOutPins * threeByOne.m_noInPins = 3 ∧
    threeByOne.keyIndex 1 0 = 3 ∧ threeByOne.keyIndex 2 0 = 6 ∧
    threeByOne.m_keyState 3 = ⟨KeyMode.kmReleased, 0⟩ ∧
    threeByOne.m_keyState 6 = ⟨KeyMode.kmReleased, 0⟩ ∧
    threeByOne.m_keyState 4 = ⟨KeyMode.kmRepeating, 77⟩ ∧
    (threeByOne.loopLog 100 0 (keysDown [(2, 0)])).2 = [⟨6, false, KeyAction.kaPress⟩] ∧
    ((threeByOne.loop 100 0 (keysDown [(2, 0)])).m_keyState 6).m_mode =
      KeyMode.kmPressDebounce ∧
    cstrAt threeByOne.m_keyMap 6 = none ∧
    (threeByOne.run ShiftPolicy.SHIFT_OFF
      [Call.loop 100 0 (keysDown [(2, 0)]), Call.getKey]).map Prod.fst = none := by
  decide

/-- C20: on the sample keyboard built with the shift key `A` and no shifted
key map, under `SHIFT_ONE`: the shift key is pressed and resolved, which sets
the latch; the press of key 0 is then enqueued with shift flag `true`, and
`actionToKey` on it goes through the null `m_shiftKeyMap`, so `getKey` has no
defined result. -/
theorem Keyboard.null_shift_map_lookup :
    (sampleKeyboard none).m_shiftKeyMap = none ∧
    ((sampleKeyboard none).run ShiftPolicy.SHIFT_ONE
      [Call.loop 100 0 (keysDown [(0, 3)]), Call.getKey]).map
      (fun r => (r.1, r.2.m_shifted, (r.2.loopLog 150 0 (keysDown [(0, 0)])).2)) =
      some ([NUL], true, [⟨0, true, KeyAction.kaPress⟩]) ∧
    (sampleKeyboard none).actionToKey ⟨0, true, KeyAction.kaPress⟩ = none ∧
    ((sampleKeyboard none).run ShiftPolicy.SHIFT_ONE
      [Call.loop 100 0 (keysDown [(0, 3)]), Call.getKey,
        Call.loop 150 0 (keysDown [(0, 0)]), Call.getKey]).map Prod.fst = none := by
  decide

/-- C14 (as stated, refuted): the constructor called with no row, no column
and an empty key map yields a keyboard on which `loop` and `getKey` run and
return; called with 2 rows, 2 columns and a key map of two characters it
yields a keyboard too, on which a press at `(1, 1)` is enqueued with index 3
and `getKey` reads the key map past its end. -/
theorem Keyboard.new_accepts_misconfiguration :
    emptyKeyboard.m_noOutPins = 0 ∧ emptyKeyboard.m_noInPins = 0 ∧
    (emptyKeyboard.run ShiftPolicy.SHIFT_ONE
      [Call.loop 100 0 (keysDown [(0, 0)]), Call.getKey]).map Prod.fst = some [NUL] ∧
    shortMapKeyboard.m_keyMap.length < shortMapKeyboard.m_noOutPins * shortMapKeyboard.m_noInPins ∧
    (shortMapKeyboard.run ShiftPolicy.SHIFT_ONE
      [Call.loop 100 0 (keysDown []), Call.getKey]).map Prod.fst = some [NUL] ∧
    (shortMapKeyboard.loopLog 100 0 (keysDown [(1, 1)])).2 = [⟨3, false, KeyAction.kaPress⟩] ∧
    (shortMapKeyboard.run ShiftPolicy.SHIFT_ONE
      [Call.loop 100 0 (keysDown [(1, 1)]), Call.getKey]).map Prod.fst = none := by
  decide

theorem foldl_fixed {α β : Type} (f : β → α → β) (b : β) (l : List α)
    (h : ∀ a, f b a = b) : l.foldl f b = b := by
  induction l with
  | nil => rfl
  | cons a l ih => rw [List.foldl_cons, h a, ih]

theorem Keyboard.loopLog_of_no_keys (kb : Keyboard) (t millis : Nat)
    (pressed : Nat → Nat → Bool) (h : kb.m_noOutPins = 0 ∨ kb.m_noInPins = 0) :
    kb.loopLog t millis pressed = (kb, []) := by
  unfold Keyboard.loopLog
  rcases h with h | h
  · simp [h]
  · apply foldl_fixed
    intro i
    simp [h]

theorem Keyboard.getKey_of_idle (SHIFT_KEY : ShiftPolicy) (kb : Keyboard) (h : kb.Idle) :
    kb.getKey SHIFT_KEY = some (NUL, kb) := by
  have hg : kb.m_actions.get = (none, kb.m_actions) := by
    simp [ActionBuffer.get, h.1]
  simp [Keyboard.getKey, Keyboard.getAction, hg]

/-! ## Theorems: deadlines of the key cell -/

theorem uaddLong_emod (u : Nat) (x : Int) :
    ((uaddLong u x : Nat) : Int) = ((u : Int) + x) % (ULONG_MOD : Int) := by
  unfold uaddLong
  exact Int.toNat_of_nonneg (Int.emod_nonneg _ (by norm_num [ULONG_MOD]))

theorem holdState_step (d r p : Int) (t0 t : Nat) (ks : KeyState) (k : Nat)
    (h : holdState d r p t0 ks k) :
    (holdState d r p t0 (cellStep d r p t true ks).1 k ∧ (cellStep d r p t true ks).2 = none) ∨
    (holdState d r p t0 (cellStep d r p t true ks).1 (k + 1) ∧
      (cellStep d r p t true ks).2 = some KeyAction.kaRepeat) := by
  obtain ⟨m, ne⟩ := ks
  rcases h with ⟨hm, hk, hne⟩ | ⟨hm, hk, hne⟩ | ⟨hm, hne⟩ <;> simp only at hm hne <;> subst hm
  · left
    by_cases hh : ne ≤ t
    · refine ⟨Or.inr (Or.inl ⟨by simp [cellStep, hh], hk, ?_⟩), by simp [cellStep, hh]⟩
      simp only [cellStep, ge_iff_le, hh, if_true]
      rw [uaddLong_emod, hne, Int.emod_add_emod]
    · exact ⟨Or.inl ⟨by simp [cellStep, hh], hk, by simp [cellStep, hh, hne]⟩,
        by simp [cellStep, hh]⟩
  · by_cases hh : ne ≤ t
    · right
      refine ⟨Or.inr (Or.inr ⟨by simp [cellStep, hh], ?_⟩), by simp [cellStep, hh]⟩
      simp only [cellStep, ge_iff_le, hh, if_true]
      rw [uaddLong_emod, hne, Int.emod_add_emod, hk]
      simp
    · left
      exact ⟨Or.inr (Or.inl ⟨by simp [cellStep, hh], hk, by simp [cellStep, hh, hne]⟩),
        by simp [cellStep, hh]⟩
  · by_cases hh : ne ≤ t
    · right
      refine ⟨Or.inr (Or.inr ⟨by simp [cellStep, hh], ?_⟩), by simp [cellStep, hh]⟩
      simp only [cellStep, ge_iff_le, hh, if_true]
      rw [uaddLong_emod, hne, Int.emod_add_emod]
      congr 1
      push_cast
      ring
    · left
      exact ⟨Or.inr (Or.inr ⟨by simp [cellStep, hh], by simp [cellStep, hh, hne]⟩),
        by simp [cellStep, hh]⟩

theorem holdState_run (d r p : Int) (t0 : Nat) (ks : KeyState) (k : Nat) (l : List Scan)
    (h : holdState d r p t0 ks k) (hl : ∀ s ∈ l, s.pressed = true) :
    ∃ j : Nat, (runCell d r p ks l).2 = List.replicate j KeyAction.kaRepeat ∧
      holdState d r p t0 (runCell d r p ks l).1 (k + j) := by
  induction l generalizing ks k with
  | nil => exact ⟨0, rfl, h⟩
  | cons s l ih =>
    have hs : s.pressed = true := hl s (List.mem_cons_self s l)
    have hl1 : ∀ s ∈ l, s.pressed = true := fun s hs => hl s (List.mem_cons_of_mem _ hs)
    rw [runCell_cons, hs]
    rcases holdState_step d r p t0 s.t ks k h with ⟨h1, h2⟩ | ⟨h1, h2⟩
    · obtain ⟨j, g1, g2⟩ := ih _ k h1 hl1
      exact ⟨j, by simp [h2, g1], g2⟩
    · obtain ⟨j, g1, g2⟩ := ih _ (k + 1) h1 hl1
      refine ⟨j + 1, by simp [h2, g1, List.replicate_succ], ?_⟩
      rw [show k + (j + 1) = k + 1 + j by omega]
      exact g2

/-- C12: a cell that is `Released` reads pressed at a scan at `t0`, which
enqueues its `Press`, and reads pressed on every later scan, whatever the
times of those scans.  The log is then the `Press` followed by some number
`k` of `Repeat`, and whenever the cell is `Pressed` or `Repeating` its
`m_nextEvent` is `t0 + debounceTime + repeatDelayTime + k * repeatTime`
modulo `2 ^ 32`, hence equal to that sum when the sum does not wrap. -/
theorem cell_repeat_deadline (d r p : Int) (t0 : Nat) (ks : KeyState) (l : List Scan)
    (hm : ks.m_mode = KeyMode.kmReleased) (hl : ∀ s ∈ l, s.pressed = true) :
    ∃ k : Nat,
      (runCell d r p ks (⟨t0, true⟩ :: l)).2 =
        KeyAction.kaPress :: List.replicate k KeyAction.kaRepeat ∧
      ((runCell d r p ks (⟨t0, true⟩ :: l)).1.m_mode = KeyMode.kmPressed ∨
        (runCell d r p ks (⟨t0, true⟩ :: l)).1.m_mode = KeyMode.kmRepeating →
        ((runCell d r p ks (⟨t0, true⟩ :: l)).1.m_nextEvent : Int) =
          ((t0 : Int) + d + r + k * p) % (ULONG_MOD : Int) ∧
        ((0 : Int) ≤ (t0 : Int) + d + r + k * p →
          (t0 : Int) + d + r + k * p < (ULONG_MOD : Int) →
          ((runCell d r p ks (⟨t0, true⟩ :: l)).1.m_nextEvent : Int) =
            (t0 : Int) + d + r + k * p)) := by
  have h0 : holdState d r p t0 ⟨KeyMode.kmPressDebounce, uaddLong t0 d⟩ 0 :=
    Or.inl ⟨rfl, rfl, uaddLong_emod t0 d⟩
  obtain ⟨j, g1, g2⟩ := holdState_run d r p t0 _ 0 l h0 hl
  rw [runCell_cons, cellStep_released_pressed d r p t0 ks hm]
  refine ⟨j, by simp [g1], ?_⟩
  simp only [Nat.zero_add] at g2
  intro hmode
  have hne : ((runCell d r p ⟨KeyMode.kmPressDebounce, uaddLong t0 d⟩ l).1.m_nextEvent : Int) =
      ((t0 : Int) + d + r + j * p) % (ULONG_MOD : Int) := by
    rcases g2 with ⟨hm1, -, -⟩ | ⟨-, hk, hne⟩ | ⟨-, hne⟩
    · rcases hmode with h | h <;> rw [hm1] at h <;> simp at h
    · rw [hne, hk]; simp
    · exact hne
  refine ⟨hne, ?_⟩
  intro hlo hhi
  rw [hne, Int.emod_eq_of_lt hlo hhi]

/-- The hypotheses of `cell_repeat_deadline` hold of a key held from 100 under
the default times and scanned at irregular times. -/
theorem cell_repeat_deadline_witness :
    ((⟨KeyMode.kmReleased, 0⟩ : KeyState).m_mode = KeyMode.kmReleased ∧
      ∀ s ∈ [(⟨125, true⟩ : Scan), ⟨431, true⟩, ⟨447, true⟩, ⟨600, true⟩], s.pressed = true) ∧
    runCell 20 300 20 ⟨KeyMode.kmReleased, 0⟩
        (⟨100, true⟩ :: [⟨125, true⟩, ⟨431, true⟩, ⟨447, true⟩, ⟨600, true⟩]) =
      (⟨KeyMode.kmRepeating, 480⟩,
        [KeyAction.kaPress, KeyAction.kaRepeat, KeyAction.kaRepeat, KeyAction.kaRepeat]) ∧
    ∃ k : Nat,
      (runCell 20 300 20 ⟨KeyMode.kmReleased, 0⟩
        (⟨100, true⟩ :: [⟨125, true⟩, ⟨431, true⟩, ⟨447, true⟩, ⟨600, true⟩])).2 =
        KeyAction.kaPress :: List.replicate k KeyAction.kaRepeat :=
  ⟨⟨rfl, by decide⟩, by decide,
    (cell_repeat_deadline 20 300 20 100 ⟨KeyMode.kmReleased, 0⟩
      [⟨125, true⟩, ⟨431, true⟩, ⟨447, true⟩, ⟨600, true⟩] rfl (by decide)).imp
      (fun _ h => h.1)⟩

theorem runCell_releaseDebounce_wait (d r p : Int) (dl : Nat) (l : List Scan)
    (hl : ∀ s ∈ l, s.t < dl) :
    runCell d r p ⟨KeyMode.kmReleaseDebounce, dl⟩ l = (⟨KeyMode.kmReleaseDebounce, dl⟩, []) := by
  induction l with
  | nil => rfl
  | cons s l ih =>
    have hs : ¬ dl ≤ s.t := by
      have := hl s (List.mem_cons_self s l)
      omega
    have hstep : cellStep d r p s.t s.pressed ⟨KeyMode.kmReleaseDebounce, dl⟩ =
        (⟨KeyMode.kmReleaseDebounce, dl⟩, none) := by
      simp [cellStep, hs]
    rw [runCell_cons, hstep, ih (fun s hs => hl s (List.mem_cons_of_mem _ hs))]
    rfl

/-- C17: a cell in `Pressed` or `Repeating` with deadline `e = m_nextEvent`
that reads not pressed at a scan at time `t` hands a `Release` to `putAction`,
goes to `ReleaseDebounce` and gets the deadline `e + debounceTime` (in
`unsigned long` arithmetic; the sum itself when it does not wrap), in which
`t` plays no part.  Whatever is read, the cell stays there with nothing
enqueued over scans before that deadline and is `Released` with
`m_nextEvent = 0` after the first scan at or after it.  With the default
times and `e = 420` the stay lasts from 430 to 440 when the release is read at
430, shorter than `debounceTime = 20`, and from 130 to 440 when it is read at
130, longer than `debounceTime`. -/
theorem cell_release_debounce (d r p : Int) (ks : KeyState) (t : Nat) (l : List Scan)
    (x : Scan) (hm : ks.m_mode = KeyMode.kmPressed ∨ ks.m_mode = KeyMode.kmRepeating)
    (hl : ∀ s ∈ l, s.t < uaddLong ks.m_nextEvent d) (hx : uaddLong ks.m_nextEvent d ≤ x.t) :
    cellStep d r p t false ks =
      (⟨KeyMode.kmReleaseDebounce, uaddLong ks.m_nextEvent d⟩, some KeyAction.kaRelease) ∧
    ((0 : Int) ≤ (ks.m_nextEvent : Int) + d → (ks.m_nextEvent : Int) + d < (ULONG_MOD : Int) →
      ((uaddLong ks.m_nextEvent d : Nat) : Int) = (ks.m_nextEvent : Int) + d) ∧
    runCell d r p ks (⟨t, false⟩ :: l) =
      (⟨KeyMode.kmReleaseDebounce, uaddLong ks.m_nextEvent d⟩, [KeyAction.kaRelease]) ∧
    runCell d r p ks (⟨t, false⟩ :: (l ++ [x])) =
      (⟨KeyMode.kmReleased, 0⟩, [KeyAction.kaRelease]) ∧
    (runCell 20 300 20 ⟨KeyMode.kmPressed, 420⟩ [⟨430, false⟩, ⟨439, true⟩] =
        (⟨KeyMode.kmReleaseDebounce, 440⟩, [KeyAction.kaRelease]) ∧
      runCell 20 300 20 ⟨KeyMode.kmPressed, 420⟩ [⟨430, false⟩, ⟨439, true⟩, ⟨440, true⟩] =
        (⟨KeyMode.kmReleased, 0⟩, [KeyAction.kaRelease]) ∧
      (440 : Int) - 430 < 20) ∧
    (runCell 20 300 20 ⟨KeyMode.kmPressed, 420⟩ [⟨130, false⟩, ⟨150, false⟩, ⟨439, true⟩] =
        (⟨KeyMode.kmReleaseDebounce, 440⟩, [KeyAction.kaRelease]) ∧
      runCell 20 300 20 ⟨KeyMode.kmPressed, 420⟩
          [⟨130, false⟩, ⟨150, false⟩, ⟨439, true⟩, ⟨440, true⟩] =
        (⟨KeyMode.kmReleased, 0⟩, [KeyAction.kaRelease]) ∧
      (20 : Int) < 440 - 130) := by
  have hstep : cellStep d r p t false ks =
      (⟨KeyMode.kmReleaseDebounce, uaddLong ks.m_nextEvent d⟩, some KeyAction.kaRelease) := by
    obtain ⟨m, ne⟩ := ks
    rcases hm with h | h <;> simp only at h <;> subst h <;> simp [cellStep]
  have hwait := runCell_releaseDebounce_wait d r p (uaddLong ks.m_nextEvent d) l hl
  have hexit : cellStep d r p x.t x.pressed
      ⟨KeyMode.kmReleaseDebounce, uaddLong ks.m_nextEvent d⟩ =
      (⟨KeyMode.kmReleased, 0⟩, none) := by
    simp [cellStep, hx]
  refine ⟨hstep, fun h0 h1 => uaddLong_cast _ _ h0 h1, ?_, ?_, by decide, by decide⟩
  · rw [runCell_cons]
    simp only [hstep, hwait]
    rfl
  · rw [runCell_cons]
    simp only [hstep]
    rw [runCell_append, hwait]
    simp only [runCell, hexit]
    rfl

/-- The hypotheses of `cell_release_debounce` hold of a cell in `Repeating`
with deadline 460 whose key is read released at 450. -/
theorem cell_release_debounce_witness :
    (((⟨KeyMode.kmRepeating, 460⟩ : KeyState).m_mode = KeyMode.kmPressed ∨
        (⟨KeyMode.kmRepeating, 460⟩ : KeyState).m_mode = KeyMode.kmRepeating) ∧
      (∀ s ∈ [(⟨455, true⟩ : Scan), ⟨479, false⟩],
        s.t < uaddLong (⟨KeyMode.kmRepeating, 460⟩ : KeyState).m_nextEvent 20) ∧
      uaddLong (⟨KeyMode.kmRepeating, 460⟩ : KeyState).m_nextEvent 20 ≤
        (⟨480, false⟩ : Scan).t) ∧
    runCell 20 300 20 ⟨KeyMode.kmRepeating, 460⟩
        (⟨450, false⟩ :: ([⟨455, true⟩, ⟨479, false⟩] ++ [⟨480, false⟩])) =
      (⟨KeyMode.kmReleased, 0⟩, [KeyAction.kaRelease]) :=
  ⟨⟨by decide, by decide, by decide⟩,
    (cell_release_debounce 20 300 20 ⟨KeyMode.kmRepeating, 460⟩ 450
      [⟨455, true⟩, ⟨479, false⟩] ⟨480, false⟩ (by decide) (by decide) (by decide)).2.2.2.1⟩

/-- C11 (as stated, refuted): with the default times a cell reads pressed at
`t0 = 2 ^ 32 - 10`, so that `t0 + debounceTime` wraps to 10.  The scan 5 ms
later, at `2 ^ 32 - 5`, finds `t >= m_nextEvent` true and moves the cell to
`Pressed` although the signed difference `t - m_nextEvent` is `-15`; the scan
1 ms after that finds the repeat deadline 310 passed as well and enqueues a
`Repeat`, 6 ms after the press. -/
theorem cell_deadline_wraps_early :
    cellStep 20 300 20 4294967286 true ⟨KeyMode.kmReleased, 0⟩ =
      (⟨KeyMode.kmPressDebounce, 10⟩, some KeyAction.kaPress) ∧
    cellStep 20 300 20 4294967291 true ⟨KeyMode.kmPressDebounce, 10⟩ =
      (⟨KeyMode.kmPressed, 310⟩, none) ∧
    signedDiff 4294967291 10 = -15 ∧
    cellStep 20 300 20 4294967292 true ⟨KeyMode.kmPressed, 310⟩ =
      (⟨KeyMode.kmRepeating, 330⟩, some KeyAction.kaRepeat) ∧
    signedDiff 4294967292 310 = -314 ∧
    runCell 20 300 20 ⟨KeyMode.kmReleased, 0⟩
        [⟨4294967286, true⟩, ⟨4294967291, true⟩, ⟨4294967292, true⟩] =
      (⟨KeyMode.kmRepeating, 330⟩, [KeyAction.kaPress, KeyAction.kaRepeat]) := by
  decide

/-- C11 (amended): the deadline tests compare the time of the scan with the
stored `m_nextEvent` directly, as unsigned values.  A cell in `PressDebounce`
moves to `Pressed` exactly when `m_nextEvent ≤ t`; a cell in `Pressed` or
`Repeating` hands over a `Repeat` exactly when it reads pressed and
`m_nextEvent ≤ t`; a cell in `ReleaseDebounce` becomes `Released` exactly when
`m_nextEvent ≤ t`.  For a cell that enters `PressDebounce` at `t0` with
`t0 + debounceTime` not wrapping, a later scan at `t` moves it to `Pressed`
exactly when `t0 + debounceTime ≤ t`, that is once `debounceTime` has
elapsed. -/
theorem cell_deadline_direct_compare (d r p : Int) (t0 t : Nat) (b : Bool) (ks : KeyState)
    (hd : 0 ≤ d) (hw : (t0 : Int) + d < (ULONG_MOD : Int)) :
    (ks.m_mode = KeyMode.kmPressDebounce →
      ((cellStep d r p t b ks).1.m_mode = KeyMode.kmPressed ↔ ks.m_nextEvent ≤ t)) ∧
    (ks.m_mode = KeyMode.kmPressed ∨ ks.m_mode = KeyMode.kmRepeating →
      ((cellStep d r p t b ks).2 = some KeyAction.kaRepeat ↔
        (b = true ∧ ks.m_nextEvent ≤ t))) ∧
    (ks.m_mode = KeyMode.kmReleaseDebounce →
      ((cellStep d r p t b ks).1.m_mode = KeyMode.kmReleased ↔ ks.m_nextEvent ≤ t)) ∧
    (ks.m_mode = KeyMode.kmReleased →
      ((cellStep d r p t b (cellStep d r p t0 true ks).1).1.m_mode = KeyMode.kmPressed ↔
        (t0 : Int) + d ≤ t)) := by
  have c1 := uaddLong_cast t0 d (by omega) hw
  obtain ⟨m, ne⟩ := ks
  refine ⟨?_, ?_, ?_, ?_⟩
  · intro hm
    simp only at hm
    subst hm
    by_cases hh : ne ≤ t <;> simp [cellStep, hh]
  · intro hm
    rcases hm with hm | hm <;> simp only at hm <;> subst hm <;> cases b <;>
      by_cases hh : ne ≤ t <;> simp [cellStep, hh]
  · intro hm
    simp only at hm
    subst hm
    by_cases hh : ne ≤ t <;> simp [cellStep, hh]
  · intro hm
    simp only at hm
    subst hm
    by_cases hh : uaddLong t0 d ≤ t
    · have : (t0 : Int) + d ≤ t := by omega
      simp [cellStep, hh, this]
    · have : ¬ (t0 : Int) + d ≤ t := by omega
      simp [cellStep, hh, this]

/-- The hypotheses of `cell_deadline_direct_compare` hold of a press at 100
under the default times. -/
theorem cell_deadline_direct_compare_witness :
    ((0 : Int) ≤ 20 ∧ ((100 : Nat) : Int) + 20 < (ULONG_MOD : Int)) ∧
    ((cellStep 20 300 20 119 true
        (cellStep 20 300 20 100 true ⟨KeyMode.kmReleased, 0⟩).1).1.m_mode =
        KeyMode.kmPressed ↔ ((100 : Nat) : Int) + 20 ≤ ((119 : Nat) : Int)) :=
  ⟨⟨by decide, by decide⟩,
    (cell_deadline_direct_compare 20 300 20 100 119 true ⟨KeyMode.kmReleased, 0⟩ (by decide)
      (by decide)).2.2.2 rfl⟩

/-! ## Theorems: invariants of the key state table -/

theorem cellStep_zeroWhenReleased (d r p : Int) (t : Nat) (b : Bool) (ks : KeyState)
    (h : ks.zeroWhenReleased) : (cellStep d r p t b ks).1.zeroWhenReleased := by
  obtain ⟨m, ne⟩ := ks
  unfold KeyState.zeroWhenReleased at h ⊢
  cases m <;> cases b <;> by_cases hh : ne ≤ t <;> simp [cellStep, hh] at h ⊢ <;> exact h

theorem Keyboard.scanKey_keyState (t : Nat) (pressed : Nat → Nat → Bool) (i : Nat)
    (s : Keyboard × List Action) (j : Nat) :
    (Keyboard.scanKey t pressed i s j).1.m_keyState =
      setAt s.1.m_keyState (s.1.keyIndex i j)
        (cellStep s.1.m_debounceTime s.1.m_repeatDelayTime s.1.m_repeatTime t (pressed i j)
          (s.1.m_keyState (s.1.keyIndex i j))).1 := by
  unfold Keyboard.scanKey
  simp only
  split <;> rfl

theorem Keyboard.scanKey_zero (t : Nat) (pressed : Nat → Nat → Bool) (i : Nat)
    (s : Keyboard × List Action) (j k : Nat) (h : (s.1.m_keyState k).zeroWhenReleased) :
    ((Keyboard.scanKey t pressed i s j).1.m_keyState k).zeroWhenReleased := by
  rw [Keyboard.scanKey_keyState]
  unfold setAt
  split
  · rename_i hk
    subst hk
    exact cellStep_zeroWhenReleased _ _ _ _ _ _ h
  · exact h

theorem Keyboard.loop_zero (kb : Keyboard) (t millis : Nat) (pressed : Nat → Nat → Bool)
    (k : Nat) (h : (kb.m_keyState k).zeroWhenReleased) :
    ((kb.loop t millis pressed).m_keyState k).zeroWhenReleased := by
  unfold Keyboard.loop Keyboard.loopLog
  apply foldl_invariant (fun s : Keyboard × List Action => (s.1.m_keyState k).zeroWhenReleased)
  · intro s i hs
    apply foldl_invariant
      (fun s : Keyboard × List Action => (s.1.m_keyState k).zeroWhenReleased)
    · intro s1 j hs1
      exact Keyboard.scanKey_zero _ pressed i s1 j k hs1
    · exact hs
  · exact h

/-- A fold that visits every element of its list: a property `Q a` of the
state that each step establishes for the element it visits, and that no step
destroys, holds at the end for every element of the list. -/
theorem foldl_visit {α β : Type} (f : β → α → β) (I : β → Prop) (Q : α → β → Prop) (l : List α)
    (hI : ∀ b, ∀ a ∈ l, I b → I (f b a))
    (hstable : ∀ b, ∀ a ∈ l, ∀ a', I b → Q a' b → Q a' (f b a))
    (hest : ∀ b, ∀ a ∈ l, I b → Q a (f b a)) (b : β) (hb : I b) :
    I (l.foldl f b) ∧ (∀ a', Q a' b → Q a' (l.foldl f b)) ∧ ∀ a ∈ l, Q a (l.foldl f b) := by
  induction l generalizing b with
  | nil => exact ⟨hb, fun _ h => h, fun _ h => absurd h (List.not_mem_nil _)⟩
  | cons x l ih =>
    have hx : x ∈ x :: l := List.mem_cons_self x l
    obtain ⟨g1, g2, g3⟩ := ih
      (fun b a ha => hI b a (List.mem_cons_of_mem _ ha))
      (fun b a ha => hstable b a (List.mem_cons_of_mem _ ha))
      (fun b a ha => hest b a (List.mem_cons_of_mem _ ha))
      (f b x) (hI b x hx hb)
    refine ⟨g1, fun a' h => g2 a' (hstable b x hx a' hb h), ?_⟩
    intro a ha
    rcases List.mem_cons.1 ha with rfl | h
    · exact g2 a (hest b a hx hb)
    · exact g3 a h

theorem foldl_invariant_mem {α β : Type} (P : β → Prop) (f : β → α → β) (l : List α)
    (hstep : ∀ b, ∀ a ∈ l, P b → P (f b a)) (b : β) (hb : P b) : P (l.foldl f b) := by
  induction l generalizing b with
  | nil => exact hb
  | cons x l ih =>
    exact ih (fun b a ha => hstep b a (List.mem_cons_of_mem _ ha)) _
      (hstep b x (List.mem_cons_self x l) hb)

/-- One row of the sweep of the constructor, for a property `W` of cells that
every value written in this row has. -/
theorem Keyboard.initRow_cells (kb : Keyboard) (inactive : Nat → Nat → Bool)
    (W : KeyState → Prop) (i : Nat)
    (hW : ∀ j, j < kb.m_noInPins →
      W ⟨if inactive i j then KeyMode.kmReleased else KeyMode.kmPressed, 0⟩)
    (b : Keyboard) (hb : kb.SameConfig b) :
    kb.SameConfig ((List.range b.m_noInPins).foldl (Keyboard.initCell inactive i) b) ∧
    (∀ k, W (b.m_keyState k) →
      W (((List.range b.m_noInPins).foldl (Keyboard.initCell inactive i) b).m_keyState k)) ∧
    ∀ j, j < kb.m_noInPins →
      W (((List.range b.m_noInPins).foldl
        (Keyboard.initCell inactive i) b).m_keyState (kb.keyIndex i j)) := by
  have hC : b.m_noInPins = kb.m_noInPins := hb.2.1
  have hwrite : ∀ (b1 : Keyboard) (j k : Nat), j ∈ List.range b.m_noInPins →
      W (b1.m_keyState k) → W ((Keyboard.initCell inactive i b1 j).m_keyState k) := by
    intro b1 j k hj h2
    simp only [Keyboard.initCell, setAt]
    split
    · exact hW j (by rw [← hC]; exact List.mem_range.1 hj)
    · exact h2
  obtain ⟨g1, -, g3⟩ := foldl_visit (Keyboard.initCell inactive i) (fun b => kb.SameConfig b)
    (fun j (b : Keyboard) => W (b.m_keyState (kb.keyIndex i j))) (List.range b.m_noInPins)
    (fun b1 j _ h1 => h1.trans (Keyboard.initCell_fields inactive i b1 j).2.2)
    (fun b1 j hj j' _ h2 => hwrite b1 j _ hj h2)
    (by
      intro b1 j hj h1
      have hidx : b1.keyIndex i j = kb.keyIndex i j := by simp [Keyboard.keyIndex, h1.1]
      simp only [Keyboard.initCell, hidx, setAt, if_true]
      exact hW j (by rw [← hC]; exact List.mem_range.1 hj))
    b hb
  refine ⟨g1, ?_, fun j hj => g3 j (by rw [hC]; exact List.mem_range.2 hj)⟩
  intro k hk
  exact foldl_invariant_mem (fun b1 : Keyboard => W (b1.m_keyState k))
    (Keyboard.initCell inactive i) (List.range b.m_noInPins)
    (fun b1 j hj h2 => hwrite b1 j k hj h2) b hk

/-- The sweep of the constructor and a property `W` of cells that every value
it writes has: a cell that had `W` keeps it, and the cell of every key of the
matrix has `W` afterwards. -/
theorem Keyboard.enableKeyboardPins_cells (kb : Keyboard) (inactive : Nat → Nat → Bool)
    (W : KeyState → Prop)
    (hW : ∀ i j, i < kb.m_noOutPins → j < kb.m_noInPins →
      W ⟨if inactive i j then KeyMode.kmReleased else KeyMode.kmPressed, 0⟩) :
    (∀ k, W (kb.m_keyState k) → W ((kb.enableKeyboardPins inactive).m_keyState k)) ∧
    ∀ i j, i < kb.m_noOutPins → j < kb.m_noInPins →
      W ((kb.enableKeyboardPins inactive).m_keyState (kb.keyIndex i j)) := by
  unfold Keyboard.enableKeyboardPins
  obtain ⟨-, g2, g3⟩ := foldl_visit
    (fun (b : Keyboard) i => (List.range b.m_noInPins).foldl (Keyboard.initCell inactive i) b)
    (fun b => kb.SameConfig b)
    (fun i (b : Keyboard) => ∀ j, j < kb.m_noInPins → W (b.m_keyState (kb.keyIndex i j)))
    (List.range kb.m_noOutPins)
    (fun b i hi hb =>
      (Keyboard.initRow_cells kb inactive W i (hW i · (List.mem_range.1 hi)) b hb).1)
    (fun b i hi i' hb h j hj =>
      (Keyboard.initRow_cells kb inactive W i (hW i · (List.mem_range.1 hi)) b hb).2.1 _ (h j hj))
    (fun b i hi hb =>
      (Keyboard.initRow_cells kb inactive W i (hW i · (List.mem_range.1 hi)) b hb).2.2)
    kb ⟨rfl, rfl, rfl, rfl, rfl, rfl, rfl, rfl⟩
  refine ⟨?_, fun i j hi hj => g3 i (List.mem_range.2 hi) j hj⟩
  intro k hk
  exact foldl_invariant_mem
    (fun b : Keyboard => kb.SameConfig b ∧ W (b.m_keyState k))
    (fun (b : Keyboard) i => (List.range b.m_noInPins).foldl (Keyboard.initCell inactive i) b)
    (List.range kb.m_noOutPins)
    (fun b i hi hb =>
      ⟨(Keyboard.initRow_cells kb inactive W i (hW i · (List.mem_range.1 hi)) b hb.1).1,
        (Keyboard.initRow_cells kb inactive W i (hW i · (List.mem_range.1 hi)) b hb.1).2.1 k
          hb.2⟩)
    kb ⟨⟨rfl, rfl, rfl, rfl, rfl, rfl, rfl, rfl⟩, hk⟩ |>.2

/-- C13: in every keyboard reachable from the constructor by `loop` calls,
every key cell (every cell of the allocated table, and every cell addressed
by the index of a key of the matrix) whose mode is `Released` has
`m_nextEvent = 0`. -/
theorem Keyboard.released_cells_zero (kb : Keyboard) (h : kb.ScanReachable) (k : Nat)
    (hk : k < kb.m_noOutPins * kb.m_noInPins ∨ kb.isKeyIndex k)
    (hm : (kb.m_keyState k).m_mode = KeyMode.kmReleased) :
    (kb.m_keyState k).m_nextEvent = 0 := by
  suffices hz : ∀ k, (k < kb.m_noOutPins * kb.m_noInPins ∨ kb.isKeyIndex k) →
      (kb.m_keyState k).zeroWhenReleased from hz k hk hm
  clear hk hm k
  induction h with
  | new noOutPins noInPins keyMap debounceTime repeatDelay repeatTime shiftKey shiftKeyMap
      heap mem inactive =>
    intro k hk
    unfold Keyboard.new at hk ⊢
    obtain ⟨-, -, c1, c2, -⟩ := Keyboard.enableKeyboardPins_fields
      { m_noOutPins := noOutPins
        m_noInPins := noInPins
        m_keyState := fun k => if k < noOutPins * noInPins then KeyState.init else heap k
        m_shiftKey := shiftKey
        m_shifted := false
        m_keyMap := keyMap
        m_shiftKeyMap := shiftKeyMap
        m_debounceTime := debounceTime
        m_repeatDelayTime := repeatDelay
        m_repeatTime := repeatTime
        m_actions := ActionBuffer.init mem } inactive
    obtain ⟨g1, g2⟩ := Keyboard.enableKeyboardPins_cells
      { m_noOutPins := noOutPins
        m_noInPins := noInPins
        m_keyState := fun k => if k < noOutPins * noInPins then KeyState.init else heap k
        m_shiftKey := shiftKey
        m_shifted := false
        m_keyMap := keyMap
        m_shiftKeyMap := shiftKeyMap
        m_debounceTime := debounceTime
        m_repeatDelayTime := repeatDelay
        m_repeatTime := repeatTime
        m_actions := ActionBuffer.init mem } inactive KeyState.zeroWhenReleased
      (fun _ _ _ _ _ => rfl)
    rcases hk with hk | ⟨i, j, hi, hj, rfl⟩
    · apply g1
      rw [c1, c2] at hk
      simp [hk, KeyState.init, KeyState.zeroWhenReleased]
    · rw [c1] at hi
      rw [c2] at hj
      have hidx : ∀ kb1 : Keyboard, kb1.m_noOutPins = noOutPins →
          kb1.keyIndex i j = i * noOutPins + j := by
        intro kb1 h1; simp [Keyboard.keyIndex, h1]
      rw [hidx _ c1]
      exact g2 i j hi hj
  | @loop kb0 t millis pressed _ ih =>
    intro k hk
    obtain ⟨⟨c1, c2, -⟩, -⟩ := kb0.loopLog_inv t millis pressed
    apply Keyboard.loop_zero
    apply ih
    rcases hk with hk | ⟨i, j, hi, hj, rfl⟩
    · left
      unfold Keyboard.loop at hk
      rw [c1, c2] at hk
      exact hk
    · right
      unfold Keyboard.loop at hi hj
      rw [c1] at hi
      rw [c2] at hj
      exact ⟨i, j, hi, hj, by simp [Keyboard.keyIndex, Keyboard.loop, c1]⟩

/-- The keyboard `scannedKeyboard` is reachable by `loop` calls. -/
theorem scannedKeyboard_reachable : scannedKeyboard.ScanReachable :=
  Keyboard.ScanReachable.loop 440 0 (keysDown [])
    (Keyboard.ScanReachable.loop 140 0 (keysDown [])
      (Keyboard.ScanReachable.loop 130 0 (keysDown [])
        (Keyboard.ScanReachable.loop 100 0 (keysDown [(0, 0)])
          (Keyboard.ScanReachable.new 4 4 sampleKeyMap 20 300 20 'A' none
            (fun _ => KeyState.init) (fun _ => ⟨0, false, KeyAction.kaPress⟩)
            (fun _ _ => true)))))

/-- The hypotheses of `released_cells_zero` hold of the sample keyboard after
its key 0 has gone through a press and a release, and of the cell of that
key. -/
theorem Keyboard.released_cells_zero_witness :
    scannedKeyboard.ScanReachable ∧
    (0 < scannedKeyboard.m_noOutPins * scannedKeyboard.m_noInPins ∨
      scannedKeyboard.isKeyIndex 0) ∧
    (scannedKeyboard.m_keyState 0).m_mode = KeyMode.kmReleased ∧
    (scannedKeyboard.m_keyState 0).m_nextEvent = 0 :=
  ⟨scannedKeyboard_reachable, Or.inl (by decide), by decide,
    Keyboard.released_cells_zero scannedKeyboard scannedKeyboard_reachable 0
      (Or.inl (by decide)) (by decide)⟩

/-! ## Theorems: order of the actions of one key -/

theorem cycleRun_append (b : Bool) (l1 l2 : List KeyAction) :
    cycleRun b (l1 ++ l2) =
      match cycleRun b l1 with
      | none => none
      | some b1 => cycleRun b1 l2 := by
  induction l1 generalizing b with
  | nil => rfl
  | cons a l1 ih =>
    simp only [List.cons_append, cycleRun]
    cases cycleStep b a with
    | none => rfl
    | some b1 => exact ih b1

theorem cellStep_cycle (d r p : Int) (t : Nat) (b : Bool) (ks : KeyState) :
    cycleRun ks.m_mode.isHeld (cellStep d r p t b ks).2.toList =
      some (cellStep d r p t b ks).1.m_mode.isHeld := by
  obtain ⟨m, ne⟩ := ks
  cases m <;> cases b <;> by_cases hh : ne ≤ t <;>
    simp [cellStep, hh, KeyMode.isHeld, cycleRun, cycleStep]

theorem Keyboard.loopLog_cycle (kb : Keyboard) (t millis : Nat) (pressed : Nat → Nat → Bool)
    (k : Nat) :
    cycleRun (kb.m_keyState k).m_mode.isHeld (kindsAt k (kb.loopLog t millis pressed).2) =
      some ((kb.loopLog t millis pressed).1.m_keyState k).m_mode.isHeld := by
  unfold Keyboard.loopLog
  have hstep : ∀ (t1 i j : Nat) (s : Keyboard × List Action),
      (kb.SameConfig s.1 ∧ cycleRun (kb.m_keyState k).m_mode.isHeld (kindsAt k s.2) =
        some (s.1.m_keyState k).m_mode.isHeld) →
      (kb.SameConfig (Keyboard.scanKey t1 pressed i s j).1 ∧
        cycleRun (kb.m_keyState k).m_mode.isHeld
          (kindsAt k (Keyboard.scanKey t1 pressed i s j).2) =
        some ((Keyboard.scanKey t1 pressed i s j).1.m_keyState k).m_mode.isHeld) := by
    intro t1 i j s hs
    obtain ⟨hc, hr⟩ := hs
    refine ⟨Keyboard.scanKey_config kb t1 pressed i s j hc, ?_⟩
    have hcell := Keyboard.scanKey_cell kb t1 pressed i s j k hc
    rw [Prod.ext_iff] at hcell
    simp only at hcell
    by_cases hk : kb.keyIndex i j = k
    · simp only [hk, if_true] at hcell
      rw [hcell.1, hcell.2, cycleRun_append, hr]
      exact cellStep_cycle _ _ _ _ _ _
    · simp only [if_neg hk] at hcell
      rw [hcell.1, hcell.2, hr]
  exact (foldl_invariant
    (fun s : Keyboard × List Action => kb.SameConfig s.1 ∧
      cycleRun (kb.m_keyState k).m_mode.isHeld (kindsAt k s.2) =
        some (s.1.m_keyState k).m_mode.isHeld)
    _ (fun s i hs => foldl_invariant _ _ (fun s1 j hs1 => hstep _ i j s1 hs1) _ s hs)
    (List.range kb.m_noOutPins) (kb, [])
    ⟨⟨rfl, rfl, rfl, rfl, rfl, rfl, rfl, rfl⟩, rfl⟩).2

/-- Over any sequence of `loop` calls on any keyboard, the actions logged with
an index `k` follow the automaton of `(Press Repeat* Release)*`, started open
or closed according to the mode of cell `k`, and end in the state that the
mode of cell `k` then shows. -/
theorem Keyboard.loops_cycle (kb : Keyboard) (cs : List ScanCall) (k : Nat) :
    cycleRun (kb.m_keyState k).m_mode.isHeld (kindsAt k (kb.loops cs).2) =
      some ((kb.loops cs).1.m_keyState k).m_mode.isHeld := by
  induction cs generalizing kb with
  | nil => rfl
  | cons c cs ih =>
    simp only [Keyboard.loops, kindsAt_append]
    rw [cycleRun_append, Keyboard.loopLog_cycle kb c.t c.millis c.pressed k]
    exact ih _

/-- C18 (as stated, refuted): the constructor run while the key at `(0, 0)`
is down leaves its cell `Pressed`.  If the first scan still reads it pressed,
a `Repeat` is enqueued for index 0 with no `Press` before it; if the first
scan reads it released, a `Release` is enqueued with no `Press` before it. -/
theorem Keyboard.press_cycle_counterexample :
    heldAtStart.m_keyState 0 = ⟨KeyMode.kmPressed, 0⟩ ∧
    (heldAtStart.loops [⟨100, 0, keysDown [(0, 0)]⟩]).2 = [⟨0, false, KeyAction.kaRepeat⟩] ∧
    pressCycle false
      (kindsAt 0 (heldAtStart.loops [⟨100, 0, keysDown [(0, 0)]⟩]).2) = false ∧
    (heldAtStart.loops [⟨100, 0, keysDown []⟩]).2 = [⟨0, false, KeyAction.kaRelease⟩] ∧
    pressCycle false (kindsAt 0 (heldAtStart.loops [⟨100, 0, keysDown []⟩]).2) = false := by
  decide

/-- When no pin reads pressed during construction, the constructor leaves the
cell of every key of the matrix `Released`. -/
theorem Keyboard.new_cells_released (noOutPins noInPins : Nat) (keyMap : List Char)
    (debounceTime repeatDelay repeatTime : Int) (shiftKey : Char)
    (shiftKeyMap : Option (List Char)) (heap : Nat → KeyState) (mem : Nat → Action)
    (inactive : Nat → Nat → Bool)
    (hin : ∀ i j, i < noOutPins → j < noInPins → inactive i j = true)
    (i j : Nat) (hi : i < noOutPins) (hj : j < noInPins) :
    ((Keyboard.new noOutPins noInPins keyMap debounceTime repeatDelay repeatTime shiftKey
      shiftKeyMap heap mem inactive).m_keyState (i * noOutPins + j)).m_mode =
      KeyMode.kmReleased := by
  unfold Keyboard.new
  exact (Keyboard.enableKeyboardPins_cells
    { m_noOutPins := noOutPins
      m_noInPins := noInPins
      m_keyState := fun k => if k < noOutPins * noInPins then KeyState.init else heap k
      m_shiftKey := shiftKey
      m_shifted := false
      m_keyMap := keyMap
      m_shiftKeyMap := shiftKeyMap
      m_debounceTime := debounceTime
      m_repeatDelayTime := repeatDelay
      m_repeatTime := repeatTime
      m_actions := ActionBuffer.init mem } inactive
    (fun ks => ks.m_mode = KeyMode.kmReleased)
    (fun i j hi hj => by simp [hin i j hi hj])).2 i j hi hj

/-- C18 (amended): from the state left by the constructor, over every
sequence of `loop` calls with any readings and times, the actions enqueued
with a key index whose cell the constructor left `Released` form a prefix of
a word of `(Press Repeat* Release)*`. -/
theorem Keyboard.press_cycle_after_construction (noOutPins noInPins : Nat)
    (keyMap : List Char) (debounceTime repeatDelay repeatTime : Int) (shiftKey : Char)
    (shiftKeyMap : Option (List Char)) (heap : Nat → KeyState) (mem : Nat → Action)
    (inactive : Nat → Nat → Bool) (cs : List ScanCall) (k : Nat)
    (hrel : ((Keyboard.new noOutPins noInPins keyMap debounceTime repeatDelay repeatTime
      shiftKey shiftKeyMap heap mem inactive).m_keyState k).m_mode = KeyMode.kmReleased) :
    pressCycle false
      (kindsAt k ((Keyboard.new noOutPins noInPins keyMap debounceTime repeatDelay repeatTime
        shiftKey shiftKeyMap heap mem inactive).loops cs).2) = true := by
  have h := Keyboard.loops_cycle (Keyboard.new noOutPins noInPins keyMap debounceTime
    repeatDelay repeatTime shiftKey shiftKeyMap heap mem inactive) cs k
  rw [hrel] at h
  unfold pressCycle
  rw [show KeyMode.kmReleased.isHeld = false from rfl] at h
  rw [h]
  rfl

/-- The hypothesis of `press_cycle_after_construction` holds of the sample
keyboard and its key 0, pressed and released over four scans. -/
theorem Keyboard.press_cycle_after_construction_witness :
    ((Keyboard.new 4 4 sampleKeyMap 20 300 20 'A' none (fun _ => KeyState.init)
      (fun _ => ⟨0, false, KeyAction.kaPress⟩) (fun _ _ => true)).m_keyState 0).m_mode =
      KeyMode.kmReleased ∧
    kindsAt 0 ((Keyboard.new 4 4 sampleKeyMap 20 300 20 'A' none (fun _ => KeyState.init)
      (fun _ => ⟨0, false, KeyAction.kaPress⟩) (fun _ _ => true)).loops
        [⟨100, 0, keysDown [(0, 0)]⟩, ⟨130, 0, keysDown [(0, 0)]⟩,
          ⟨430, 0, keysDown [(0, 0)]⟩, ⟨435, 0, keysDown []⟩]).2 =
      [KeyAction.kaPress, KeyAction.kaRepeat, KeyAction.kaRelease] ∧
    pressCycle false
      (kindsAt 0 ((Keyboard.new 4 4 sampleKeyMap 20 300 20 'A' none (fun _ => KeyState.init)
        (fun _ => ⟨0, false, KeyAction.kaPress⟩) (fun _ _ => true)).loops
          [⟨100, 0, keysDown [(0, 0)]⟩, ⟨130, 0, keysDown [(0, 0)]⟩,
            ⟨430, 0, keysDown [(0, 0)]⟩, ⟨435, 0, keysDown []⟩]).2) = true :=
  ⟨by decide, by decide,
    Keyboard.press_cycle_after_construction 4 4 sampleKeyMap 20 300 20 'A' none
      (fun _ => KeyState.init) (fun _ => ⟨0, false, KeyAction.kaPress⟩) (fun _ _ => true)
      [⟨100, 0, keysDown [(0, 0)]⟩, ⟨130, 0, keysDown [(0, 0)]⟩,
        ⟨430, 0, keysDown [(0, 0)]⟩, ⟨435, 0, keysDown []⟩] 0 (by decide)⟩

/-! ## Theorems: the one-shot shift over a sequence of calls -/

theorem suffix_append_right {α : Type} {l1 l2 : List α} (r : List α) (h : l1 <:+ l2) :
    l1 ++ r <:+ l2 ++ r := by
  obtain ⟨t, ht⟩ := h
  exact ⟨t, by rw [← ht, List.append_assoc]⟩

theorem ActionBuffer.keyDown_put (q : ActionBuffer) (a : Action)
    (hi : q.m_in < KEY_ROLLOVER) (ho : q.m_out < KEY_ROLLOVER) (p : Action → Bool) :
    (q.put a).2.abs.filter p <:+ q.abs.filter p ++ [a].filter p := by
  rw [ActionBuffer.abs_put q a hi ho]
  split
  · rw [List.filter_append]
    exact suffix_append_right _ ((List.tail_suffix q.abs).filter p)
  · rw [List.filter_append]

theorem ActionBuffer.putAll_bounds (l : List Action) (q : ActionBuffer)
    (hi : q.m_in < KEY_ROLLOVER) (ho : q.m_out < KEY_ROLLOVER) :
    (q.putAll l).m_in < KEY_ROLLOVER ∧ (q.putAll l).m_out < KEY_ROLLOVER := by
  induction l generalizing q with
  | nil => exact ⟨hi, ho⟩
  | cons a l ih =>
    have hb := ActionBuffer.put_bounds q a hi ho
    exact ih (q.put a).2 hb.1 hb.2

theorem ActionBuffer.keyDown_putAll (l : List Action) (q : ActionBuffer)
    (hi : q.m_in < KEY_ROLLOVER) (ho : q.m_out < KEY_ROLLOVER) (p : Action → Bool) :
    (q.putAll l).abs.filter p <:+ q.abs.filter p ++ l.filter p := by
  induction l generalizing q with
  | nil => simp [ActionBuffer.putAll]
  | cons a l ih =>
    have hb := ActionBuffer.put_bounds q a hi ho
    have h1 := ih (q.put a).2 hb.1 hb.2
    have h2 := ActionBuffer.keyDown_put q a hi ho p
    have h3 : (q.put a).2.abs.filter p ++ l.filter p <:+
        (q.abs.filter p ++ [a].filter p) ++ l.filter p :=
      suffix_append_right _ h2
    have h4 : q.abs.filter p ++ [a].filter p ++ l.filter p =
        q.abs.filter p ++ (a :: l).filter p := by
      rw [List.append_assoc, ← List.filter_append]; rfl
    rw [h4] at h3
    exact h1.trans h3

theorem BufferEvent.keyDown_scanned (log : List Action) :
    (log.map BufferEvent.scanned).filterMap BufferEvent.keyDown =
      (log.filter Action.isKeyDown).map (fun a => (false, a.m_index, a.m_keyAction)) := by
  induction log with
  | nil => rfl
  | cons a l ih =>
    by_cases h : a.isKeyDown = true
    · simp [List.filterMap_cons, BufferEvent.keyDown, h, ih]
    · simp [List.filterMap_cons, BufferEvent.keyDown, h, ih]

theorem BufferEvent.keyDownResult_scanned (log : List Action) :
    (log.map BufferEvent.scanned).filterMap BufferEvent.keyDownResult = [] := by
  induction log with
  | nil => rfl
  | cons a l ih => simp [List.filterMap_cons, BufferEvent.keyDownResult, ih]

/-- What a scan may enqueue at phase `ph` of the scenario (the number of
key-down events already seen): nothing but `Release` actions, or, at the
phases 0, 2 and 4, the one `Press` that is due. -/
theorem oneShot_scan_step (kS k1 k2 : Nat) (s : Bool) (ph : Nat) (hph : ph ≤ 6)
    (log : List Action) (hl : ∀ a ∈ log, a.m_shift = s)
    (X : List (Bool × Nat × KeyAction))
    (h : (log.filter Action.isKeyDown).map (fun a => (false, a.m_index, a.m_keyAction)) ++ X =
      List.drop ph [(false, kS, KeyAction.kaPress), (true, kS, KeyAction.kaPress),
        (false, k1, KeyAction.kaPress), (true, k1, KeyAction.kaPress),
        (false, k2, KeyAction.kaPress), (true, k2, KeyAction.kaPress)]) :
    (log.filter Action.isKeyDown = [] ∧
      X = List.drop ph [(false, kS, KeyAction.kaPress), (true, kS, KeyAction.kaPress),
        (false, k1, KeyAction.kaPress), (true, k1, KeyAction.kaPress),
        (false, k2, KeyAction.kaPress), (true, k2, KeyAction.kaPress)]) ∨
    (∃ k, ((ph = 0 ∧ k = kS) ∨ (ph = 2 ∧ k = k1) ∨ (ph = 4 ∧ k = k2)) ∧
      log.filter Action.isKeyDown = [⟨k, s, KeyAction.kaPress⟩] ∧
      X = List.drop (ph + 1) [(false, kS, KeyAction.kaPress), (true, kS, KeyAction.kaPress),
        (false, k1, KeyAction.kaPress), (true, k1, KeyAction.kaPress),
        (false, k2, KeyAction.kaPress), (true, k2, KeyAction.kaPress)]) := by
  have hl2 : ∀ a ∈ log.filter Action.isKeyDown, a.m_shift = s :=
    fun a ha => hl a (List.mem_of_mem_filter ha)
  generalize log.filter Action.isKeyDown = L at h hl2
  rcases L with _ | ⟨a, _ | ⟨b, L⟩⟩
  · left
    exact ⟨rfl, by simpa using h⟩
  · right
    have hs := hl2 a (List.mem_cons_self _ _)
    obtain ⟨i, sh, kd⟩ := a
    simp only at hs
    subst hs
    interval_cases ph <;> simp at h <;> simp [h]
  · exfalso
    interval_cases ph <;> simp at h

theorem Keyboard.getKey_of_empty (SHIFT_KEY : ShiftPolicy) (kb : Keyboard)
    (hi : kb.m_actions.m_in < KEY_ROLLOVER) (ho : kb.m_actions.m_out < KEY_ROLLOVER)
    (he : kb.m_actions.abs = []) :
    kb.getAction.1 = none ∧ kb.getKey SHIFT_KEY = some (NUL, kb) := by
  have hg := ActionBuffer.get_of_abs_nil kb.m_actions hi ho he
  simp [Keyboard.getKey, Keyboard.getAction, hg]

theorem Keyboard.getKey_of_head (SHIFT_KEY : ShiftPolicy) (kb : Keyboard) (x : Action)
    (xs : List Action)
    (hi : kb.m_actions.m_in < KEY_ROLLOVER) (ho : kb.m_actions.m_out < KEY_ROLLOVER)
    (he : kb.m_actions.abs = x :: xs) :
    kb.getAction.1 = some x ∧
    kb.getKey SHIFT_KEY = ({ kb with m_actions := kb.m_actions.get.2 }).resolve SHIFT_KEY x ∧
    kb.m_actions.get.2.abs = xs ∧
    kb.m_actions.get.2.m_in < KEY_ROLLOVER ∧ kb.m_actions.get.2.m_out < KEY_ROLLOVER := by
  obtain ⟨g1, g2⟩ := ActionBuffer.get_of_abs_cons kb.m_actions x xs hi ho he
  obtain ⟨b1, b2⟩ := ActionBuffer.get_bounds kb.m_actions hi ho
  refine ⟨by simp [Keyboard.getAction, g1], ?_, g2, b1, b2⟩
  simp [Keyboard.getKey, Keyboard.getAction, g1]

theorem Keyboard.resolve_release_one (kb : Keyboard) (a : Action)
    (h : a.isKeyDown = false) :
    kb.resolve ShiftPolicy.SHIFT_ONE a = some (NUL, kb) := by
  have h1 : ¬ (a.m_keyAction = KeyAction.kaPress ∨ a.m_keyAction = KeyAction.kaRepeat) := by
    simpa [Action.isKeyDown] using h
  simp [Keyboard.resolve, h1]

theorem eq_nil_or_eq_of_suffix_singleton {α : Type} {l : List α} {a : α} (h : l <:+ [a]) :
    l = [] ∨ l = [a] := by
  obtain ⟨t, ht⟩ := h
  rcases t with _ | ⟨b, t⟩
  · right; simpa using ht
  · left
    have := congrArg List.length ht
    simp at this
    rcases l with _ | ⟨c, l⟩
    · rfl
    · simp at this

/-- The scenario of the one-shot shift seen from phase `ph`, the number of
key-down events that have already happened: the latch is set exactly at the
phases 2 and 3, and the only `Press` the buffer may hold is the one scanned
and not yet resolved. -/
theorem Keyboard.oneShot_phase (sm km : List Char) (sk : Char) (kS k1 k2 : Nat) (c1 c2 : Char)
    (hS : cstrAt km kS = some sk) (h1 : cstrAt sm k1 = some c1) (hc1 : c1 ≠ sk)
    (h2 : cstrAt km k2 = some c2) (hc2 : c2 ≠ sk) (calls : List Call) :
    ∀ (kb : Keyboard) (ph : Nat), ph ≤ 6 →
      kb.m_shiftKeyMap = some sm → kb.m_keyMap = km → kb.m_shiftKey = sk →
      kb.m_actions.m_in < KEY_ROLLOVER → kb.m_actions.m_out < KEY_ROLLOVER →
      kb.m_shifted = decide (ph = 2 ∨ ph = 3) →
      (kb.m_actions.abs.filter Action.isKeyDown = [] ∨
        (ph = 1 ∧ kb.m_actions.abs.filter Action.isKeyDown = [⟨kS, false, KeyAction.kaPress⟩]) ∨
        (ph = 3 ∧ kb.m_actions.abs.filter Action.isKeyDown = [⟨k1, true, KeyAction.kaPress⟩]) ∨
        (ph = 5 ∧ kb.m_actions.abs.filter Action.isKeyDown = [⟨k2, false, KeyAction.kaPress⟩])) →
      (kb.events ShiftPolicy.SHIFT_ONE calls).filterMap BufferEvent.keyDown =
        List.drop ph [(false, kS, KeyAction.kaPress), (true, kS, KeyAction.kaPress),
          (false, k1, KeyAction.kaPress), (true, k1, KeyAction.kaPress),
          (false, k2, KeyAction.kaPress), (true, k2, KeyAction.kaPress)] →
      (kb.events ShiftPolicy.SHIFT_ONE calls).filterMap BufferEvent.keyDownResult =
        List.drop (ph / 2) [((⟨kS, false, KeyAction.kaPress⟩ : Action), some (NUL, true)),
          (⟨k1, true, KeyAction.kaPress⟩, some (c1, false)),
          (⟨k2, false, KeyAction.kaPress⟩, some (c2, false))] ∧
      ∃ cs kbEnd, kb.run ShiftPolicy.SHIFT_ONE calls = some (cs, kbEnd) ∧
        kbEnd.m_shifted = false ∧
        cs.filter (fun c => c != NUL) =
          (List.drop (ph / 2) [NUL, c1, c2]).filter (fun c => c != NUL) := by
  induction calls with
  | nil =>
    intro kb ph hph _ _ _ _ _ hlatch _ hE
    simp only [Keyboard.events, List.filterMap_nil] at hE ⊢
    interval_cases ph <;> simp at hE
    exact ⟨by simp, [], kb, rfl, by simpa using hlatch, by simp⟩
  | cons call rest ih =>
    intro kb ph hph hsm hkm hsk hi ho hlatch hK hE
    cases call with
    | loop t millis pressed =>
      obtain ⟨hc, hsh, hq, hl⟩ := kb.loopLog_inv t millis pressed
      simp only [Keyboard.events, List.filterMap_append, BufferEvent.keyDown_scanned,
        BufferEvent.keyDownResult_scanned, List.nil_append, Keyboard.run] at hE ⊢
      have hb := ActionBuffer.putAll_bounds (kb.loopLog t millis pressed).2 kb.m_actions hi ho
      have hsuf := ActionBuffer.keyDown_putAll (kb.loopLog t millis pressed).2 kb.m_actions
        hi ho Action.isKeyDown
      have hq1 : (kb.loop t millis pressed).m_actions =
          kb.m_actions.putAll (kb.loopLog t millis pressed).2 := hq
      rw [← hq1] at hb hsuf
      have hsm1 : (kb.loop t millis pressed).m_shiftKeyMap = some sm := by
        rw [← hsm]; exact hc.2.2.2.2.1
      have hkm1 : (kb.loop t millis pressed).m_keyMap = km := by
        rw [← hkm]; exact hc.2.2.2.1
      have hsk1 : (kb.loop t millis pressed).m_shiftKey = sk := by
        rw [← hsk]; exact hc.2.2.1
      have hsh1 : (kb.loop t millis pressed).m_shifted = kb.m_shifted := hsh
      rcases oneShot_scan_step kS k1 k2 kb.m_shifted ph hph _ hl _ hE with ⟨e1, e2⟩ | ⟨k, hk, e1, e2⟩
      · rw [e1, List.append_nil] at hsuf
        refine ih (kb.loop t millis pressed) ph hph hsm1 hkm1 hsk1 hb.1 hb.2
          (hsh1.trans hlatch) ?_ e2
        rcases hK with hK | ⟨hp, hK⟩ | ⟨hp, hK⟩ | ⟨hp, hK⟩
        · rw [hK] at hsuf
          left
          exact List.suffix_nil.1 hsuf
        · rw [hK] at hsuf
          rcases eq_nil_or_eq_of_suffix_singleton hsuf with h | h
          · exact Or.inl h
          · exact Or.inr (Or.inl ⟨hp, h⟩)
        · rw [hK] at hsuf
          rcases eq_nil_or_eq_of_suffix_singleton hsuf with h | h
          · exact Or.inl h
          · exact Or.inr (Or.inr (Or.inl ⟨hp, h⟩))
        · rw [hK] at hsuf
          rcases eq_nil_or_eq_of_suffix_singleton hsuf with h | h
          · exact Or.inl h
          · exact Or.inr (Or.inr (Or.inr ⟨hp, h⟩))
      · have hK0 : kb.m_actions.abs.filter Action.isKeyDown = [] := by
          rcases hK with hK | ⟨hp, hK⟩ | ⟨hp, hK⟩ | ⟨hp, hK⟩
          · exact hK
          · omega
          · omega
          · omega
        rw [hK0, e1, List.nil_append] at hsuf
        have hdiv : (ph + 1) / 2 = ph / 2 := by omega
        have hnext := ih (kb.loop t millis pressed) (ph + 1) (by omega) hsm1 hkm1 hsk1 hb.1 hb.2
        rw [hdiv] at hnext
        refine hnext ?_ ?_ e2
        · rw [hsh1, hlatch]
          rcases hk with ⟨hp, -⟩ | ⟨hp, -⟩ | ⟨hp, -⟩ <;> subst hp <;> simp
        · rcases eq_nil_or_eq_of_suffix_singleton hsuf with h | h
          · exact Or.inl h
          · right
            rw [h, hlatch]
            rcases hk with ⟨hp, hk⟩ | ⟨hp, hk⟩ | ⟨hp, hk⟩ <;> subst hp <;> subst hk <;> simp
    | getKey =>
      cases he : kb.m_actions.abs with
      | nil =>
        obtain ⟨g1, g2⟩ := Keyboard.getKey_of_empty ShiftPolicy.SHIFT_ONE kb hi ho he
        simp only [Keyboard.events, g1, g2, Option.toList, List.map_nil, List.nil_append,
          Keyboard.run] at hE ⊢
        obtain ⟨r1, cs, kbEnd, r2, r3, r4⟩ := ih kb ph hph hsm hkm hsk hi ho hlatch hK hE
        refine ⟨r1, NUL :: cs, kbEnd, by rw [r2], r3, ?_⟩
        simpa using r4
      | cons x xs =>
        obtain ⟨g1, g2, g3, g4, g5⟩ :=
          Keyboard.getKey_of_head ShiftPolicy.SHIFT_ONE kb x xs hi ho he
        by_cases hx : x.isKeyDown = true
        · -- the pending press is resolved
          have hfil : kb.m_actions.abs.filter Action.isKeyDown =
              x :: xs.filter Action.isKeyDown := by
            rw [he, List.filter_cons_of_pos hx]
          rw [hfil] at hK
          rcases hK with hK | ⟨hp, hK⟩ | ⟨hp, hK⟩ | ⟨hp, hK⟩
          · simp at hK
          · obtain ⟨rfl, hxs⟩ := List.cons_eq_cons.1 hK
            subst hp
            have hlatch0 : kb.m_shifted = false := by simpa using hlatch
            have hres := Keyboard.resolve_press ShiftPolicy.SHIFT_ONE
              { kb with m_actions := kb.m_actions.get.2 } ⟨kS, false, KeyAction.kaPress⟩ sk
              (Or.inl rfl) (by simp [Keyboard.actionToKey, hkm, hS])
            have g2' : kb.getKey ShiftPolicy.SHIFT_ONE =
                some (NUL, { kb with m_actions := kb.m_actions.get.2, m_shifted := true }) := by
              rw [g2, hres]
              simp [shiftRule, hsk, hlatch0]
            clear g2 hres
            simp only [Keyboard.events, g1, g2', Option.toList, List.map_cons, List.map_nil,
              List.singleton_append, List.filterMap_cons, BufferEvent.keyDown,
              BufferEvent.keyDownResult, Action.isKeyDown, Keyboard.run, List.drop] at hE ⊢
            simp only [true_or, decide_True, if_true, List.cons.injEq, true_and] at hE ⊢
            obtain ⟨r1, cs, kbEnd, r2, r3, r4⟩ := ih
              { kb with m_actions := kb.m_actions.get.2, m_shifted := true }
              2 (by omega) hsm hkm hsk g4 g5 (by simp) (by left; simpa [g3] using hxs) hE
            refine ⟨by simpa using r1, NUL :: cs, kbEnd, by rw [r2], r3, ?_⟩
            simpa using r4
          · obtain ⟨rfl, hxs⟩ := List.cons_eq_cons.1 hK
            subst hp
            have hlatch0 : kb.m_shifted = true := by simpa using hlatch
            have hres := Keyboard.resolve_press ShiftPolicy.SHIFT_ONE
              { kb with m_actions := kb.m_actions.get.2 } ⟨k1, true, KeyAction.kaPress⟩ c1
              (Or.inl rfl) (by simp [Keyboard.actionToKey, hsm, h1])
            have g2' : kb.getKey ShiftPolicy.SHIFT_ONE =
                some (c1, { kb with m_actions := kb.m_actions.get.2, m_shifted := false }) := by
              rw [g2, hres]
              simp [shiftRule, hsk, hlatch0, hc1]
            clear g2 hres
            simp only [Keyboard.events, g1, g2', Option.toList, List.map_cons, List.map_nil,
              List.singleton_append, List.filterMap_cons, BufferEvent.keyDown,
              BufferEvent.keyDownResult, Action.isKeyDown, Keyboard.run, List.drop] at hE ⊢
            simp only [true_or, decide_True, if_true, List.cons.injEq, true_and] at hE ⊢
            obtain ⟨r1, cs, kbEnd, r2, r3, r4⟩ := ih
              { kb with m_actions := kb.m_actions.get.2, m_shifted := false }
              4 (by omega) hsm hkm hsk g4 g5 (by simp) (by left; simpa [g3] using hxs) hE
            refine ⟨by simpa using r1, c1 :: cs, kbEnd, by rw [r2], r3, ?_⟩
            by_cases hn : c1 = NUL <;> simpa [List.filter_cons, hn] using r4
          · obtain ⟨rfl, hxs⟩ := List.cons_eq_cons.1 hK
            subst hp
            have hlatch0 : kb.m_shifted = false := by simpa using hlatch
            have hres := Keyboard.resolve_press ShiftPolicy.SHIFT_ONE
              { kb with m_actions := kb.m_actions.get.2 } ⟨k2, false, KeyAction.kaPress⟩ c2
              (Or.inl rfl) (by simp [Keyboard.actionToKey, hkm, h2])
            have g2' : kb.getKey ShiftPolicy.SHIFT_ONE =
                some (c2, { kb with m_actions := kb.m_actions.get.2, m_shifted := false }) := by
              rw [g2, hres]
              simp [shiftRule, hsk, hlatch0, hc2]
            clear g2 hres
            simp only [Keyboard.events, g1, g2', Option.toList, List.map_cons, List.map_nil,
              List.singleton_append, List.filterMap_cons, BufferEvent.keyDown,
              BufferEvent.keyDownResult, Action.isKeyDown, Keyboard.run, List.drop] at hE ⊢
            simp only [true_or, decide_True, if_true, List.cons.injEq, true_and] at hE ⊢
            obtain ⟨r1, cs, kbEnd, r2, r3, r4⟩ := ih
              { kb with m_actions := kb.m_actions.get.2, m_shifted := false }
              6 (by omega) hsm hkm hsk g4 g5 (by simp) (by left; simpa [g3] using hxs) hE
            refine ⟨by simpa using r1, c2 :: cs, kbEnd, by rw [r2], r3, ?_⟩
            by_cases hn : c2 = NUL <;> simpa [List.filter_cons, hn] using r4
        · -- a release is taken out
          have hx0 : x.isKeyDown = false := by simpa using hx
          rw [Keyboard.resolve_release_one _ x hx0] at g2
          simp only [Keyboard.events, g1, g2, Option.toList, List.map_cons, List.map_nil,
            List.singleton_append, List.filterMap_cons, BufferEvent.keyDown,
            BufferEvent.keyDownResult, hx0, Keyboard.run] at hE ⊢
          have hK1 : xs.filter Action.isKeyDown = kb.m_actions.abs.filter Action.isKeyDown := by
            rw [he, List.filter_cons_of_neg (by simpa using hx)]
          obtain ⟨r1, cs, kbEnd, r2, r3, r4⟩ := ih { kb with m_actions := kb.m_actions.get.2 }
            ph hph hsm hkm hsk g4 g5 hlatch (by simp only [g3, hK1]; exact hK) hE
          refine ⟨r1, NUL :: cs, kbEnd, by rw [r2], r3, ?_⟩
          simpa using r4

/-- C4 (amended): under `SHIFT_ONE`, on a keyboard with a shifted map, the
latch clear and no `Press` or `Repeat` waiting in the action buffer, take any
sequence of `loop` and `getKey` calls in which each of the three presses is
resolved before the next one is scanned.  That is: leaving `Release` actions
aside, the actions scanned by `loop` and taken out by `getKey` are, in this
order, the `Press` of the shift key `kS` scanned and resolved, the `Press`
of `k1` scanned and resolved, the `Press` of `k2` scanned and resolved.
Scans that enqueue nothing or only `Release` actions, `Release` actions
waiting in the buffer or taken out, and `getKey` calls on an empty buffer may
come anywhere, and `k1` and `k2` may be the same key.  When the shifted-map
character `c1` of `k1` and the unshifted character `c2` of `k2` are not the
shift key character, then `getKey` returns no character for the shift press
and sets the latch, returns `c1` for `k1` (enqueued with the shift flag set)
and clears the latch, and returns `c2` for `k2` (enqueued with the flag
clear); every call is defined, the latch is clear at the end, and the
characters returned over the whole sequence are `c1` then `c2`. -/
theorem Keyboard.oneShot_alternating (kb : Keyboard) (sm : List Char) (kS k1 k2 : Nat)
    (c1 c2 : Char) (calls : List Call)
    (hbuf : kb.m_actions.AllLive (fun a => a.m_keyAction = KeyAction.kaRelease))
    (hlatch : kb.m_shifted = false) (hsm : kb.m_shiftKeyMap = some sm)
    (hS : cstrAt kb.m_keyMap kS = some kb.m_shiftKey)
    (h1 : cstrAt sm k1 = some c1) (hc1 : c1 ≠ kb.m_shiftKey)
    (h2 : cstrAt kb.m_keyMap k2 = some c2) (hc2 : c2 ≠ kb.m_shiftKey)
    (horder : (kb.events ShiftPolicy.SHIFT_ONE calls).filterMap BufferEvent.keyDown =
      [(false, kS, KeyAction.kaPress), (true, kS, KeyAction.kaPress),
        (false, k1, KeyAction.kaPress), (true, k1, KeyAction.kaPress),
        (false, k2, KeyAction.kaPress), (true, k2, KeyAction.kaPress)]) :
    (kb.events ShiftPolicy.SHIFT_ONE calls).filterMap BufferEvent.keyDownResult =
      [(⟨kS, false, KeyAction.kaPress⟩, some (NUL, true)),
        (⟨k1, true, KeyAction.kaPress⟩, some (c1, false)),
        (⟨k2, false, KeyAction.kaPress⟩, some (c2, false))] ∧
    ∃ cs kbEnd, kb.run ShiftPolicy.SHIFT_ONE calls = some (cs, kbEnd) ∧
      kbEnd.m_shifted = false ∧
      cs.filter (fun c => c != NUL) = [c1, c2].filter (fun c => c != NUL) := by
  obtain ⟨hi, ho, hall⟩ := hbuf
  have hK : kb.m_actions.abs.filter Action.isKeyDown = [] := by
    rw [List.filter_eq_nil_iff]
    intro a ha
    simp [Action.isKeyDown, hall a ha]
  have key := Keyboard.oneShot_phase sm kb.m_keyMap kb.m_shiftKey kS k1 k2 c1 c2 hS h1 hc1 h2 hc2
    calls kb 0 (by omega) hsm rfl rfl hi ho (by simpa using hlatch) (Or.inl hK)
    (by simpa using horder)
  obtain ⟨r1, cs, kbEnd, r2, r3, r4⟩ := key
  refine ⟨by simpa using r1, cs, kbEnd, r2, r3, ?_⟩
  simpa [List.filter_cons] using r4

/-- The hypotheses of `oneShot_alternating` hold of the sample keyboard and the
session `oneShotSession`, with the shift key at index 3 and key 0 in the role
of both `k1` and `k2`: the first tap of key 0 gives `a`, the second `1`. -/
theorem Keyboard.oneShot_alternating_witness :
    ((sampleKeyboard (some sampleShiftMap)).m_actions.AllLive
        (fun a => a.m_keyAction = KeyAction.kaRelease) ∧
     (sampleKeyboard (some sampleShiftMap)).m_shifted = false ∧
     (sampleKeyboard (some sampleShiftMap)).m_shiftKeyMap = some sampleShiftMap ∧
     cstrAt (sampleKeyboard (some sampleShiftMap)).m_keyMap 3 =
       some (sampleKeyboard (some sampleShiftMap)).m_shiftKey ∧
     cstrAt sampleShiftMap 0 = some 'a' ∧
     'a' ≠ (sampleKeyboard (some sampleShiftMap)).m_shiftKey ∧
     cstrAt (sampleKeyboard (some sampleShiftMap)).m_keyMap 0 = some '1' ∧
     '1' ≠ (sampleKeyboard (some sampleShiftMap)).m_shiftKey ∧
     ((sampleKeyboard (some sampleShiftMap)).events ShiftPolicy.SHIFT_ONE
        oneShotSession).filterMap BufferEvent.keyDown =
       [(false, 3, KeyAction.kaPress), (true, 3, KeyAction.kaPress),
         (false, 0, KeyAction.kaPress), (true, 0, KeyAction.kaPress),
         (false, 0, KeyAction.kaPress), (true, 0, KeyAction.kaPress)]) ∧
    (((sampleKeyboard (some sampleShiftMap)).events ShiftPolicy.SHIFT_ONE
        oneShotSession).filterMap BufferEvent.keyDownResult =
      [(⟨3, false, KeyAction.kaPress⟩, some (NUL, true)),
        (⟨0, true, KeyAction.kaPress⟩, some ('a', false)),
        (⟨0, false, KeyAction.kaPress⟩, some ('1', false))] ∧
    ∃ cs kbEnd, (sampleKeyboard (some sampleShiftMap)).run ShiftPolicy.SHIFT_ONE
        oneShotSession = some (cs, kbEnd) ∧
      kbEnd.m_shifted = false ∧
      cs.filter (fun c => c != NUL) = ['a', '1'].filter (fun c => c != NUL)) :=
  ⟨⟨by unfold ActionBuffer.AllLive; decide, by decide, by decide, by decide, by decide,
      by decide, by decide, by decide, by decide⟩,
    Keyboard.oneShot_alternating (sampleKeyboard (some sampleShiftMap)) sampleShiftMap 3 0 0
      'a' '1' oneShotSession (by unfold ActionBuffer.AllLive; decide) (by decide) (by decide)
      (by decide) (by decide) (by decide) (by decide) (by decide) (by decide)⟩

/-- The session `oneShotSession` run on the sample keyboard under `SHIFT_ONE`:
the six `getKey` calls return, in order, no character (shift `Press`), no
character (shift `Release`), `a`, no character (`Release` of key 0), `1`, and
no character (empty buffer). -/
theorem Keyboard.oneShotSession_run :
    ((sampleKeyboard (some sampleShiftMap)).run ShiftPolicy.SHIFT_ONE oneShotSession).map
      (fun r => (r.1, r.2.m_shifted)) = some ([NUL, NUL, 'a', NUL, '1', NUL], false) := by
  decide

/-- A `Repeat` of the shift key undoes the one-shot shift.  On the sample
keyboard under `SHIFT_ONE` the shift key is held from 100 to 420, long enough
for one `Repeat`; every action is resolved before the next scan.  The
`Repeat` is enqueued with the shift flag set, is looked up in the shifted map,
which has the shift key character at index 3, and clears the latch again:
key 0, pressed next, comes out as the unshifted `1`. -/
theorem Keyboard.oneShot_shift_repeat_run :
    ((sampleKeyboard (some sampleShiftMap)).events ShiftPolicy.SHIFT_ONE
      [Call.loop 100 0 (keysDown [(0, 3)]), Call.getKey,
        Call.loop 120 0 (keysDown [(0, 3)]), Call.loop 420 0 (keysDown [(0, 3)]), Call.getKey,
        Call.loop 450 0 (keysDown [(0, 0)]), Call.getKey, Call.getKey]).filterMap
      BufferEvent.keyDownResult =
      [(⟨3, false, KeyAction.kaPress⟩, some (NUL, true)),
        (⟨3, true, KeyAction.kaRepeat⟩, some (NUL, false)),
        (⟨0, false, KeyAction.kaPress⟩, some ('1', false))] := by
  decide

/-! ## Theorems: construction with a misconfiguration -/

/-- The sweep of the constructor writes only the cells whose index is the
index of a key of the matrix: when all these indices have the property `Q`,
a cell whose index lacks `Q` is left as it was. -/
theorem Keyboard.enableKeyboardPins_touched (kb : Keyboard) (inactive : Nat → Nat → Bool)
    (Q : Nat → Prop)
    (hQ : ∀ i j, i < kb.m_noOutPins → j < kb.m_noInPins → Q (kb.keyIndex i j))
    (k : Nat) (hk : ¬ Q k) :
    (kb.enableKeyboardPins inactive).m_keyState k = kb.m_keyState k := by
  unfold Keyboard.enableKeyboardPins
  refine (foldl_invariant_mem
    (fun b : Keyboard => kb.SameConfig b ∧ b.m_keyState k = kb.m_keyState k)
    (fun (b : Keyboard) i => (List.range b.m_noInPins).foldl (Keyboard.initCell inactive i) b)
    (List.range kb.m_noOutPins) ?_ kb ⟨⟨rfl, rfl, rfl, rfl, rfl, rfl, rfl, rfl⟩, rfl⟩).2
  intro b i hi hb
  refine foldl_invariant_mem
    (fun b1 : Keyboard => kb.SameConfig b1 ∧ b1.m_keyState k = kb.m_keyState k)
    (Keyboard.initCell inactive i) (List.range b.m_noInPins) ?_ b hb
  intro b1 j hj hb1
  refine ⟨hb1.1.trans (Keyboard.initCell_fields inactive i b1 j).2.2, ?_⟩
  have hidx : b1.keyIndex i j = kb.keyIndex i j := by simp [Keyboard.keyIndex, hb1.1.1]
  have hne : ¬ k = kb.keyIndex i j := by
    intro e
    apply hk
    rw [e]
    exact hQ i j (List.mem_range.1 hi) (by rw [← hb.1.2.1]; exact List.mem_range.1 hj)
  simp only [Keyboard.initCell, hidx, setAt, if_neg hne]
  exact hb1.2

/-- A call of `loop` writes only the cells, and logs only the indices, that
are the index of a key of the matrix: when all these indices have the
property `Q`, a cell whose index lacks `Q` is left as it was and every logged
action has an index with `Q`. -/
theorem Keyboard.loopLog_touched (kb : Keyboard) (t millis : Nat) (pressed : Nat → Nat → Bool)
    (Q : Nat → Prop)
    (hQ : ∀ i j, i < kb.m_noOutPins → j < kb.m_noInPins → Q (kb.keyIndex i j)) :
    (∀ k, ¬ Q k → (kb.loopLog t millis pressed).1.m_keyState k = kb.m_keyState k) ∧
    ∀ a ∈ (kb.loopLog t millis pressed).2, Q a.m_index := by
  unfold Keyboard.loopLog
  have key := foldl_invariant_mem
    (fun s : Keyboard × List Action => kb.SameConfig s.1 ∧
      (∀ k, ¬ Q k → s.1.m_keyState k = kb.m_keyState k) ∧ ∀ a ∈ s.2, Q a.m_index)
    (fun s i => (List.range s.1.m_noInPins).foldl
      (Keyboard.scanKey (if t = 0 then millis else t) pressed i) s)
    (List.range kb.m_noOutPins) ?_ (kb, [])
    ⟨⟨rfl, rfl, rfl, rfl, rfl, rfl, rfl, rfl⟩, fun _ _ => rfl, by simp⟩
  · exact key.2
  intro s i hi hs
  refine foldl_invariant_mem
    (fun s1 : Keyboard × List Action => kb.SameConfig s1.1 ∧
      (∀ k, ¬ Q k → s1.1.m_keyState k = kb.m_keyState k) ∧ ∀ a ∈ s1.2, Q a.m_index)
    (Keyboard.scanKey (if t = 0 then millis else t) pressed i) (List.range s.1.m_noInPins)
    ?_ s hs
  intro s1 j hj hs1
  obtain ⟨c, g1, g2⟩ := hs1
  have hq : Q (s1.1.keyIndex i j) := by
    have hidx : s1.1.keyIndex i j = kb.keyIndex i j := by simp [Keyboard.keyIndex, c.1]
    rw [hidx]
    exact hQ i j (List.mem_range.1 hi) (by rw [← hs.1.2.1]; exact List.mem_range.1 hj)
  refine ⟨Keyboard.scanKey_config kb _ pressed i s1 j c, ?_, ?_⟩
  · intro k hk
    rw [Keyboard.scanKey_keyState]
    have hne : ¬ k = s1.1.keyIndex i j := by
      intro e; apply hk; rw [e]; exact hq
    simp only [setAt, if_neg hne]
    exact g1 k hk
  · intro a ha
    unfold Keyboard.scanKey at ha
    simp only at ha
    split at ha
    · exact g2 a ha
    · rcases List.mem_append.1 ha with h | h
      · exact g2 a h
      · rw [List.mem_singleton.1 h]; exact hq

/-- On a keyboard with no row or no column and an empty action buffer, every
sequence of `loop` and `getKey` calls is defined, returns no character from
each `getKey` and leaves the keyboard as it was. -/
theorem Keyboard.run_of_no_keys (SHIFT_KEY : ShiftPolicy) (kb : Keyboard) (calls : List Call)
    (h : kb.m_noOutPins = 0 ∨ kb.m_noInPins = 0) (hidle : kb.Idle) :
    ∃ cs, kb.run SHIFT_KEY calls = some (cs, kb) ∧ ∀ c ∈ cs, c = NUL := by
  induction calls with
  | nil => exact ⟨[], rfl, by simp⟩
  | cons call rest ih =>
    obtain ⟨cs, e, hcs⟩ := ih
    cases call with
    | loop t millis pressed =>
      refine ⟨cs, ?_, hcs⟩
      simp only [Keyboard.run, Keyboard.loop, Keyboard.loopLog_of_no_keys kb t millis pressed h]
      exact e
    | getKey =>
      refine ⟨NUL :: cs, ?_, ?_⟩
      · simp only [Keyboard.run, Keyboard.getKey_of_idle SHIFT_KEY kb hidle, e]
      · intro c hc
        rcases List.mem_cons.1 hc with h1 | h1
        · exact h1
        · exact hcs c h1

/-- C14 (amended): a misconfiguration is not detected at construction.  For
every argument list with zero rows or zero columns, or with a key map or a
shifted key map shorter than rows times columns (`hmis`), the counts being
naturals and the indices `i * noOutPins + j` of the sweep lying inside the
allocated table (`hrange`), the constructor yields a keyboard: it holds the
arguments as given, so it carries the misconfiguration; its latch is clear
and its action buffer empty; nothing outside the allocated table has been
written.  `getKey` can be called on it: it returns no character and leaves
the keyboard unchanged.  `loop` can be called on it: it keeps the
configuration, writes nothing outside the table and enqueues only indices
inside the table; with zero rows or zero columns it enqueues nothing and
changes nothing, and every sequence of `loop` and `getKey` calls returns no
character.  Negative counts and sweeps that leave the table are not
covered. -/
theorem Keyboard.new_unchecked (noOutPins noInPins : Nat) (keyMap : List Char)
    (debounceTime repeatDelay repeatTime : Int) (shiftKey : Char)
    (shiftKeyMap : Option (List Char)) (heap : Nat → KeyState) (mem : Nat → Action)
    (inactive : Nat → Nat → Bool) (kb : Keyboard)
    (hkb : kb = Keyboard.new noOutPins noInPins keyMap debounceTime repeatDelay repeatTime
      shiftKey shiftKeyMap heap mem inactive)
    (hmis : noOutPins = 0 ∨ noInPins = 0 ∨ keyMap.length < noOutPins * noInPins ∨
      ∃ sm, shiftKeyMap = some sm ∧ sm.length < noOutPins * noInPins)
    (hrange : ∀ i j, i < noOutPins → j < noInPins →
      i * noOutPins + j < noOutPins * noInPins) :
    (kb.m_noOutPins = noOutPins ∧ kb.m_noInPins = noInPins ∧ kb.m_keyMap = keyMap ∧
      kb.m_shiftKeyMap = shiftKeyMap ∧ kb.m_shiftKey = shiftKey ∧
      kb.m_debounceTime = debounceTime ∧ kb.m_repeatDelayTime = repeatDelay ∧
      kb.m_repeatTime = repeatTime) ∧
    (kb.m_noOutPins = 0 ∨ kb.m_noInPins = 0 ∨
      kb.m_keyMap.length < kb.m_noOutPins * kb.m_noInPins ∨
      ∃ sm, kb.m_shiftKeyMap = some sm ∧ sm.length < kb.m_noOutPins * kb.m_noInPins) ∧
    kb.m_shifted = false ∧ kb.m_actions.abs = [] ∧
    (∀ k, noOutPins * noInPins ≤ k → kb.m_keyState k = heap k) ∧
    (∀ SHIFT_KEY : ShiftPolicy, kb.getKey SHIFT_KEY = some (NUL, kb)) ∧
    (∀ (t millis : Nat) (pressed : Nat → Nat → Bool),
      kb.SameConfig (kb.loop t millis pressed) ∧
      (∀ k, noOutPins * noInPins ≤ k → (kb.loop t millis pressed).m_keyState k = heap k) ∧
      (∀ a ∈ (kb.loopLog t millis pressed).2, a.m_index < noOutPins * noInPins) ∧
      ((noOutPins = 0 ∨ noInPins = 0) → kb.loopLog t millis pressed = (kb, []))) ∧
    ((noOutPins = 0 ∨ noInPins = 0) → ∀ (SHIFT_KEY : ShiftPolicy) (calls : List Call),
      ∃ cs, kb.run SHIFT_KEY calls = some (cs, kb) ∧ ∀ c ∈ cs, c = NUL) := by
  obtain ⟨h1, h2, c1, c2, c3, c4, c5, c6, c7, c8⟩ := Keyboard.enableKeyboardPins_fields
    { m_noOutPins := noOutPins
      m_noInPins := noInPins
      m_keyState := fun k => if k < noOutPins * noInPins then KeyState.init else heap k
      m_shiftKey := shiftKey
      m_shifted := false
      m_keyMap := keyMap
      m_shiftKeyMap := shiftKeyMap
      m_debounceTime := debounceTime
      m_repeatDelayTime := repeatDelay
      m_repeatTime := repeatTime
      m_actions := ActionBuffer.init mem } inactive
  have hcell := Keyboard.enableKeyboardPins_touched
    { m_noOutPins := noOutPins
      m_noInPins := noInPins
      m_keyState := fun k => if k < noOutPins * noInPins then KeyState.init else heap k
      m_shiftKey := shiftKey
      m_shifted := false
      m_keyMap := keyMap
      m_shiftKeyMap := shiftKeyMap
      m_debounceTime := debounceTime
      m_repeatDelayTime := repeatDelay
      m_repeatTime := repeatTime
      m_actions := ActionBuffer.init mem } inactive (fun k => k < noOutPins * noInPins)
    (fun i j hi hj => hrange i j hi hj)
  rw [← Keyboard.new, ← hkb] at h1 h2 c1 c2 c3 c4 c5 c6 c7 c8 hcell
  simp only at h1 h2 c1 c2 c3 c4 c5 c6 c7 c8 hcell
  have hidle : kb.Idle := by
    unfold Keyboard.Idle
    rw [h2]
    simp [ActionBuffer.init, KEY_ROLLOVER]
  have hout : ∀ k, noOutPins * noInPins ≤ k → kb.m_keyState k = heap k := by
    intro k hk
    rw [hcell k (by omega)]
    simp only [if_neg (show ¬ k < noOutPins * noInPins by omega)]
  have hzero : (noOutPins = 0 ∨ noInPins = 0) → (kb.m_noOutPins = 0 ∨ kb.m_noInPins = 0) := by
    intro h
    rcases h with h | h
    · exact Or.inl (c1.trans h)
    · exact Or.inr (c2.trans h)
  refine ⟨⟨c1, c2, c4, c5, c3, c6, c7, c8⟩, ?_, h1, ?_, hout,
    fun P => Keyboard.getKey_of_idle P kb hidle, ?_,
    fun h P calls => Keyboard.run_of_no_keys P kb calls (hzero h) hidle⟩
  · rw [c1, c2, c4, c5]
    exact hmis
  · rw [h2]
    simp [ActionBuffer.abs, ActionBuffer.init, KEY_ROLLOVER]
  · intro t millis pressed
    obtain ⟨g1, g2⟩ := Keyboard.loopLog_touched kb t millis pressed
      (fun k => k < noOutPins * noInPins)
      (fun i j hi hj => by
        simp only [Keyboard.keyIndex, c1]
        exact hrange i j (by rw [← c1]; exact hi) (by rw [← c2]; exact hj))
    refine ⟨(kb.loopLog_inv t millis pressed).1, ?_, g2,
      fun h => Keyboard.loopLog_of_no_keys kb t millis pressed (hzero h)⟩
    intro k hk
    unfold Keyboard.loop
    rw [g1 k (by omega)]
    exact hout k hk

/-- The hypotheses of `new_unchecked` hold of the arguments of
`shortMapKeyboard`: 2 rows, 2 columns and a key map of two characters. -/
theorem Keyboard.new_unchecked_witness :
    (shortMapKeyboard = Keyboard.new 2 2 "ab".toList 20 300 20 NUL none
        (fun _ => KeyState.init) (fun _ => ⟨0, false, KeyAction.kaPress⟩) (fun _ _ => true) ∧
     "ab".toList.length < 2 * 2 ∧
     (∀ i j : Nat, i < 2 → j < 2 → i * 2 + j < 2 * 2)) ∧
    shortMapKeyboard.m_keyMap.length <
      shortMapKeyboard.m_noOutPins * shortMapKeyboard.m_noInPins ∧
    shortMapKeyboard.getKey ShiftPolicy.SHIFT_ONE = some (NUL, shortMapKeyboard) ∧
    (∀ a ∈ (shortMapKeyboard.loopLog 100 0 (keysDown [(1, 1)])).2, a.m_index < 2 * 2) :=
  ⟨⟨rfl, by decide, by omega⟩,
    by decide,
    (Keyboard.new_unchecked 2 2 "ab".toList 20 300 20 NUL none (fun _ => KeyState.init)
      (fun _ => ⟨0, false, KeyAction.kaPress⟩) (fun _ _ => true) shortMapKeyboard rfl
      (Or.inr (Or.inr (Or.inl (by decide)))) (by omega)).2.2.2.2.2.1 ShiftPolicy.SHIFT_ONE,
    ((Keyboard.new_unchecked 2 2 "ab".toList 20 300 20 NUL none (fun _ => KeyState.init)
      (fun _ => ⟨0, false, KeyAction.kaPress⟩) (fun _ _ => true) shortMapKeyboard rfl
      (Or.inr (Or.inr (Or.inl (by decide)))) (by omega)).2.2.2.2.2.2.1 100 0
        (keysDown [(1, 1)])).2.2.1⟩

/-! ## Theorems: a key that shares its cell -/

/-- C1: on the keyboard with 2 rows and 3 columns the key at `(0, 2)` goes
through one clean press, hold and release, no other key touched: its cell,
index 2, starts `Released` with `m_nextEvent = 0`, the times are nonzero and
increasing, the key is read not pressed at 50, pressed from 100 to 450, not
pressed at 500 and 800, and the last scan meets the cell in `ReleaseDebounce`
with its deadline 790 reached.  The cell ends `Released`, but the actions
enqueued for the key are `Press`, `Release`, `Press`, `Release`, not one
`Press`, some `Repeat` and one `Release`: the index `i * m_noOutPins + j`
gives the key at `(1, 0)` the index 2 as well, so every call of `loop` steps
the cell a second time with the reading of that key, which is not pressed.
The cell machine alone, given the readings of `(0, 2)`, reports `Press`,
`Repeat`, `Repeat`, `Release`. -/
theorem Keyboard.press_hold_release_shared_cell :
    twoByThree.m_noOutPins = 2 ∧ twoByThree.m_noInPins = 3 ∧
    twoByThree.keyIndex 0 2 = 2 ∧ twoByThree.keyIndex 1 0 = 2 ∧
    twoByThree.m_keyState 2 = ⟨KeyMode.kmReleased, 0⟩ ∧
    pressHoldReleaseCalls.map (fun c => c.seenBy 0 2) =
      [⟨50, false⟩, ⟨100, true⟩, ⟨120, true⟩, ⟨420, true⟩, ⟨440, true⟩, ⟨450, true⟩,
        ⟨500, false⟩, ⟨800, false⟩] ∧
    pressHoldReleaseCalls.map (fun c => c.seenBy 1 0) =
      [⟨50, false⟩, ⟨100, false⟩, ⟨120, false⟩, ⟨420, false⟩, ⟨440, false⟩, ⟨450, false⟩,
        ⟨500, false⟩, ⟨800, false⟩] ∧
    (twoByThree.loops (pressHoldReleaseCalls.take 7)).1.m_keyState 2 =
      ⟨KeyMode.kmReleaseDebounce, 790⟩ ∧
    (twoByThree.loops pressHoldReleaseCalls).1.m_keyState 2 = ⟨KeyMode.kmReleased, 0⟩ ∧
    (twoByThree.loops pressHoldReleaseCalls).2 =
      [⟨2, false, KeyAction.kaPress⟩, ⟨2, false, KeyAction.kaRelease⟩,
        ⟨2, false, KeyAction.kaPress⟩, ⟨2, false, KeyAction.kaRelease⟩] ∧
    kindsAt 2 (twoByThree.loops pressHoldReleaseCalls).2 =
      [KeyAction.kaPress, KeyAction.kaRelease, KeyAction.kaPress, KeyAction.kaRelease] ∧
    (∀ k : Nat, kindsAt 2 (twoByThree.loops pressHoldReleaseCalls).2 ≠
      KeyAction.kaPress :: (List.replicate k KeyAction.kaRepeat ++ [KeyAction.kaRelease])) ∧
    runCell 20 300 20 KeyState.init (pressHoldReleaseCalls.map (fun c => c.seenBy 0 2)) =
      (⟨KeyMode.kmReleased, 0⟩,
        [KeyAction.kaPress, KeyAction.kaRepeat, KeyAction.kaRepeat, KeyAction.kaRelease]) := by
  have hk : kindsAt 2 (twoByThree.loops pressHoldReleaseCalls).2 =
      [KeyAction.kaPress, KeyAction.kaRelease, KeyAction.kaPress, KeyAction.kaRelease] := by
    decide
  refine ⟨by decide, by decide, by decide, by decide, by decide, by decide, by decide,
    by decide, by decide, by decide, hk, ?_, by decide⟩
  intro k
  rw [hk]
  rcases k with _ | k <;> simp [List.replicate]

end Arduino
